import Mathlib

/-!
Verification of the graph-algorithms engine: adjacency-list graphs
(undirected, directed, weighted), a disjoint-set forest with union by rank
and path compression, and an indexed binary-heap priority queue.
All definitions are shallow embeddings of the Python classes in
disjointset.py, intpq.py and graphshw.py.
-/

set_option maxHeartbeats 1000000

namespace GFP

/-! ### Generic helpers -/

/-- Pointwise function update on a decidable domain, used to model mutation
of a per-element field (a parent pointer, a rank, a heap index). -/
def upd {β : Type _} (f : Nat → β) (x : Nat) (v : β) : Nat → β :=
  fun y => if y = x then v else f y

/-- Python list indexing with negative-index wraparound: an index in
the interval from minus length to length minus one resolves to an element,
anything else raises IndexError (modelled as none). -/
def pyIndex {β : Type _} (l : List β) (i : Int) : Option β :=
  if i < 0 then
    (if 0 ≤ (l.length : Int) + i then l.get? ((l.length : Int) + i).toNat else none)
  else l.get? i.toNat

/-! ### DisjointIntegerSets (disjointset.py)

The forest state: one parent pointer and one rank per element of the
interval from 0 to n.  The Python class stores node records in a list;
here parents and ranks are total functions restricted by theorems to
arguments below n. -/

structure DJS where
  n : Nat
  parent : Nat → Nat
  rank : Nat → Nat

/-- The constructor: each element in a singleton set by itself
(parent of x is x, rank 0). -/
def initDJS (n : Nat) : DJS :=
  ⟨n, fun x => x, fun _ => 0⟩

/-- findset with explicit fuel.  The Python method recurses along parent
pointers, resetting the parent of every node on the path directly to the
root (full path compression), and returns the final parent of the argument.
Fuel n is always sufficient on well-formed forests. -/
def findsetF : Nat → DJS → Nat → DJS × Nat
  | 0, s, x => (s, x)
  | f+1, s, x =>
    if x ≠ s.parent x then
      let res := findsetF f s (s.parent x)
      ({ res.1 with parent := upd res.1.parent x res.2 }, res.2)
    else (s, x)

/-- findset, with the fuel fixed at the universe size. -/
def DJS.findset (s : DJS) (x : Nat) : DJS × Nat :=
  findsetF s.n s x

/-- The private link method: union by rank, attaching the root of smaller
rank below the root of larger rank, incrementing the surviving root's rank
on a tie. -/
def DJS.link (s : DJS) (x y : Nat) : DJS :=
  if s.rank y < s.rank x then
    { s with parent := upd s.parent y x }
  else
    let s1 : DJS := { s with parent := upd s.parent x y }
    if s1.rank x = s1.rank y then
      { s1 with rank := upd s1.rank y (s1.rank y + 1) }
    else s1

/-- union: link the two roots found by findset, the find on x running
first (and compressing) before the find on y. -/
def DJS.union (s : DJS) (x y : Nat) : DJS :=
  let p1 := s.findset x
  let p2 := p1.1.findset y
  p2.1.link p1.2 p2.2

/-- x reaches root r in exactly k parent steps, and r is a root. -/
def reachN (s : DJS) (x r k : Nat) : Prop :=
  s.parent^[k] x = r ∧ s.parent r = r

/-- x reaches root r in some number of parent steps. -/
def reaches (s : DJS) (x r : Nat) : Prop :=
  ∃ k, reachN s x r k

/-- Well-formed forest: parents of in-range elements stay in range, and
iterating the parent map n times from any in-range element lands on a
fixed point (a root). -/
def DJS.WF (s : DJS) : Prop :=
  ∀ z, z < s.n → s.parent z < s.n ∧
    s.parent (s.parent^[s.n] z) = s.parent^[s.n] z

instance : DecidablePred DJS.WF := fun s =>
  Nat.decidableBallLT s.n _

/-- The canonical root of an element of a well-formed forest. -/
def DJS.rootOf (s : DJS) (x : Nat) : Nat :=
  s.parent^[s.n] x

/-! ### PQInts (intpq.py)

Indexed min-priority queue over the integer interval from 0 to n.
Heap entries are element-priority pairs; the index array maps an element
to its heap position, or to -1 when absent. -/

structure PQInts (α : Type _) where
  n : Nat
  minheap : List (Nat × α)
  index : Nat → Int

/-- Default heap entry used for out-of-range list reads (which never occur
on the index ranges the theorems quantify over). -/
def dE {α : Type _} [Inhabited α] : Nat × α := (0, default)

/-- Constructor: empty heap, every index -1. -/
def initPQ (α : Type _) (n : Nat) : PQInts α :=
  ⟨n, [], fun _ => -1⟩

def PQInts.size {α : Type _} (s : PQInts α) : Nat := s.minheap.length

def PQInts.isEmpty {α : Type _} (s : PQInts α) : Bool := s.minheap.length == 0

def PQInts.contains {α : Type _} (s : PQInts α) (element : Nat) : Bool :=
  decide (0 ≤ s.index element)

/-- getPriority reads the heap at the raw stored index using Python list
semantics: a stored index of -1 (absent element) reads the last heap entry
when the heap is non-empty and raises IndexError (none) when it is empty. -/
def PQInts.getPriority {α : Type _} (s : PQInts α) (element : Nat) : Option α :=
  (pyIndex s.minheap (s.index element)).map Prod.snd

/-- The percolate-up loop.  Arguments: remaining fuel (the caller passes
the starting position, an exact bound on the number of iterations), the
heap, the index map, the moving entry, the current hole position.
Each iteration moves the parent entry down into the hole when its priority
exceeds the moving entry's; on exit the moving entry is written at the
hole and indexed. -/
def percUpF {α : Type _} [LinearOrder α] [Inhabited α] :
    Nat → List (Nat × α) → (Nat → Int) → (Nat × α) → Nat →
      List (Nat × α) × (Nat → Int)
  | 0, heap, idx, cur, position =>
    (heap.set position cur, upd idx cur.1 (position : Int))
  | fuel+1, heap, idx, cur, position =>
    if 1 ≤ position ∧ cur.2 < (heap.getD ((position-1)/2) dE).2 then
      let pe := heap.getD ((position-1)/2) dE
      percUpF fuel (heap.set position pe) (upd idx pe.1 (position : Int)) cur
        ((position-1)/2)
    else (heap.set position cur, upd idx cur.1 (position : Int))

/-- percolate_up on a queue state. -/
def PQInts.percolateUp {α : Type _} [LinearOrder α] [Inhabited α]
    (s : PQInts α) (position : Nat) : PQInts α :=
  let r := percUpF position s.minheap s.index (s.minheap.getD position dE) position
  ⟨s.n, r.1, r.2⟩

/-- insert: no-op returning false when the element's index is nonnegative;
otherwise append the entry and percolate it up from the last position. -/
def PQInts.insert {α : Type _} [LinearOrder α] [Inhabited α]
    (s : PQInts α) (element : Nat) (value : α) : PQInts α × Bool :=
  if 0 ≤ s.index element then (s, false)
  else
    let position := s.minheap.length
    (PQInts.percolateUp ⟨s.n, s.minheap ++ [(element, value)], s.index⟩ position,
     true)

/-- The percolate-down loop with index maintenance.  Fuel is passed as the
heap length, an upper bound on the number of iterations. -/
def percDownF {α : Type _} [LinearOrder α] [Inhabited α] :
    Nat → List (Nat × α) → (Nat → Int) → (Nat × α) → Nat →
      List (Nat × α) × (Nat → Int)
  | 0, heap, idx, cur, position =>
    (heap.set position cur, upd idx cur.1 (position : Int))
  | fuel+1, heap, idx, cur, position =>
    if 2*position+1 < heap.length then
      let mc := if 2*position+2 < heap.length ∧
          (heap.getD (2*position+2) dE).2 < (heap.getD (2*position+1) dE).2
        then 2*position+2 else 2*position+1
      if (heap.getD mc dE).2 < cur.2 then
        percDownF fuel (heap.set position (heap.getD mc dE))
          (upd idx (heap.getD mc dE).1 (position : Int)) cur mc
      else (heap.set position cur, upd idx cur.1 (position : Int))
    else (heap.set position cur, upd idx cur.1 (position : Int))

/-- percolate_down on a queue state. -/
def PQInts.percolateDown {α : Type _} [LinearOrder α] [Inhabited α]
    (s : PQInts α) (position : Nat) : PQInts α :=
  let r := percDownF s.minheap.length s.minheap s.index
    (s.minheap.getD position dE) position
  ⟨s.n, r.1, r.2⟩

/-- The percolate-down loop without index maintenance, used by heapify. -/
def percDownNIF {α : Type _} [LinearOrder α] [Inhabited α] :
    Nat → List (Nat × α) → (Nat × α) → Nat → List (Nat × α)
  | 0, heap, cur, position => heap.set position cur
  | fuel+1, heap, cur, position =>
    if 2*position+1 < heap.length then
      let mc := if 2*position+2 < heap.length ∧
          (heap.getD (2*position+2) dE).2 < (heap.getD (2*position+1) dE).2
        then 2*position+2 else 2*position+1
      if (heap.getD mc dE).2 < cur.2 then
        percDownNIF fuel (heap.set position (heap.getD mc dE)) cur mc
      else heap.set position cur
    else heap.set position cur

/-- The heapify driver loop: sift down positions from length div 2 minus 1
downto 0.  The first argument is the iteration count, length div 2. -/
def heapifyLoop {α : Type _} [LinearOrder α] [Inhabited α] :
    Nat → List (Nat × α) → List (Nat × α)
  | 0, heap => heap
  | k+1, heap => heapifyLoop k (percDownNIF heap.length heap (heap.getD k dE) k)

/-- Rebuild the index from the heap: for each position i holding entry p,
set the index of the element of p to i (later positions win). -/
def rebuildIdx {α : Type _} (idx : Nat → Int) (heap : List (Nat × α)) :
    Nat → Int :=
  heap.enum.foldl (fun f p => upd f p.2.1 (p.1 : Int)) idx

/-- heapify: bottom-up sift-down pass, then rebuild the index. -/
def PQInts.heapify {α : Type _} [LinearOrder α] [Inhabited α]
    (s : PQInts α) : PQInts α :=
  let heap' := heapifyLoop (s.minheap.length / 2) s.minheap
  ⟨s.n, heap', rebuildIdx s.index heap'⟩

/-- insertAll: when the pair list is at least as long as the heap, append
every pair whose element's index is negative (the index is not refreshed
during the loop, exactly as in the source) and heapify; otherwise insert
the pairs one by one. -/
def PQInts.insertAll {α : Type _} [LinearOrder α] [Inhabited α]
    (s : PQInts α) (pairs : List (Nat × α)) : PQInts α :=
  if s.minheap.length ≤ pairs.length then
    PQInts.heapify ⟨s.n,
      pairs.foldl (fun h p => if s.index p.1 < 0 then h ++ [p] else h) s.minheap,
      s.index⟩
  else
    pairs.foldl (fun q p => (q.insert p.1 p.2).1) s

/-- peekMin: the element of the root entry; IndexError (none) on an
empty heap. -/
def PQInts.peekMin {α : Type _} (s : PQInts α) : Option Nat :=
  s.minheap.head?.map Prod.fst

/-- extractMin: pop the last entry, overwrite the root with it when the
heap stays non-empty and percolate it down, then mark the extracted
element absent.  IndexError (none) on an empty heap. -/
def PQInts.extractMin {α : Type _} [LinearOrder α] [Inhabited α]
    (s : PQInts α) : Option (Nat × PQInts α) :=
  match s.minheap with
  | [] => none
  | _ :: _ =>
    let minElement := (s.minheap.getD 0 dE).1
    let oldLast := s.minheap.getD (s.minheap.length - 1) dE
    let heap1 := s.minheap.dropLast
    if 0 < heap1.length then
      let r := percDownF heap1.length (heap1.set 0 oldLast) s.index oldLast 0
      some (minElement, ⟨s.n, r.1, upd r.2 minElement (-1)⟩)
    else
      some (minElement, ⟨s.n, heap1, upd s.index minElement (-1)⟩)

/-- changePriority: no-op returning false when the element is absent;
otherwise rewrite its entry and percolate up (strictly lower new priority),
percolate down (strictly higher), or do nothing (unchanged). -/
def PQInts.changePriority {α : Type _} [LinearOrder α] [Inhabited α]
    (s : PQInts α) (element : Nat) (value : α) : PQInts α × Bool :=
  if 0 ≤ s.index element then
    let position := (s.index element).toNat
    if value < (s.minheap.getD position dE).2 then
      let heap' := s.minheap.set position (element, value)
      (⟨s.n, (percUpF position heap' s.index (element, value) position).1,
        (percUpF position heap' s.index (element, value) position).2⟩, true)
    else if (s.minheap.getD position dE).2 < value then
      let heap' := s.minheap.set position (element, value)
      (⟨s.n, (percDownF heap'.length heap' s.index (element, value) position).1,
        (percDownF heap'.length heap' s.index (element, value) position).2⟩, true)
    else (s, true)
  else (s, false)

/-! ### Graph family (graphshw.py)

Adjacency lists are modelled as Lean lists in insertion order; the
linked-list size counter of the source always equals the list length. -/

/-- Append x to the list stored at position i (adjacency-list add). -/
def appendAt {β : Type _} (L : List (List β)) (i : Nat) (x : β) : List (List β) :=
  L.set i (L.getD i [] ++ [x])

/-- The adjacency list of vertex u. -/
def adjOf (adj : List (List Nat)) (u : Nat) : List Nat := adj.getD u []

/-- Undirected unweighted graph. -/
structure Graph where
  adj : List (List Nat)

def Graph.numVertices (g : Graph) : Nat := g.adj.length

/-- addEdge inserts each endpoint into the other's adjacency list. -/
def Graph.addEdge (g : Graph) (a b : Nat) : Graph :=
  ⟨appendAt (appendAt g.adj a b) b a⟩

/-- Constructor: v empty adjacency lists, then addEdge per listed edge. -/
def mkGraph (v : Nat) (edges : List (Nat × Nat)) : Graph :=
  edges.foldl (fun g e => g.addEdge e.1 e.2) ⟨List.replicate v []⟩

def Graph.degree (g : Graph) (vertex : Nat) : Nat :=
  (g.adj.getD vertex []).length

/-- The edge-list comprehension for undirected graphs: for each vertex u in
order, the stored neighbours v with v strictly greater than u, as (u, v). -/
def edgeListU (u0 : Nat) : List (List Nat) → List (Nat × Nat)
  | [] => []
  | l :: rest =>
    (l.filter (fun v => u0 < v)).map (fun v => (u0, v)) ++ edgeListU (u0+1) rest

def Graph.getEdgeList (g : Graph) : List (Nat × Nat) := edgeListU 0 g.adj

/-- Directed unweighted graph: adjacency at the source plus a maintained
in-degree counter per vertex. -/
structure Digraph where
  adj : List (List Nat)
  inDeg : List Nat

def Digraph.numVertices (g : Digraph) : Nat := g.adj.length

/-- addEdge inserts only at the source and increments the target's
in-degree counter. -/
def Digraph.addEdge (g : Digraph) (a b : Nat) : Digraph :=
  ⟨appendAt g.adj a b, g.inDeg.set b (g.inDeg.getD b 0 + 1)⟩

def mkDigraph (v : Nat) (edges : List (Nat × Nat)) : Digraph :=
  edges.foldl (fun g e => g.addEdge e.1 e.2) ⟨List.replicate v [], List.replicate v 0⟩

def Digraph.outDegree (g : Digraph) (vertex : Nat) : Nat :=
  (g.adj.getD vertex []).length

def Digraph.inDegree (g : Digraph) (vertex : Nat) : Nat :=
  g.inDeg.getD vertex 0

def Digraph.degree (g : Digraph) (vertex : Nat) : Nat :=
  g.outDegree vertex + g.inDegree vertex

/-- The edge-list comprehension for directed graphs: every stored arc. -/
def edgeListD (u0 : Nat) : List (List Nat) → List (Nat × Nat)
  | [] => []
  | l :: rest => l.map (fun v => (u0, v)) ++ edgeListD (u0+1) rest

def Digraph.getEdgeList (g : Digraph) : List (Nat × Nat) := edgeListD 0 g.adj

/-! ### DFS and topological sort -/

/-- The per-vertex DFS bookkeeping: the global time counter, discovery and
finish times (0 meaning not yet set), predecessors, and the list of
vertices in finish order (the onFinish callback of topologicalSort). -/
structure DfsSt where
  time : Nat
  d : Nat → Nat
  f : Nat → Nat
  pred : Nat → Option Nat
  order : List Nat

def initDfs : DfsSt := ⟨0, fun _ => 0, fun _ => 0, fun _ => none, []⟩

/-- The inner loop of dfs_visit over a neighbour list: recurse into each
neighbour with discovery time 0, setting its predecessor first. -/
def visitFold (visit : Nat → DfsSt → DfsSt) (u : Nat) :
    List Nat → DfsSt → DfsSt
  | [], st => st
  | v :: vs, st =>
    visitFold visit u vs
      (if st.d v = 0 then visit v { st with pred := upd st.pred v (some u) } else st)

/-- dfs_visit with fuel bounding the recursion depth (the number of not yet
discovered vertices always suffices): stamp discovery, recurse into
undiscovered neighbours, stamp finish and append to the finish order. -/
def dfsVisit (adj : List (List Nat)) : Nat → Nat → DfsSt → DfsSt
  | 0, _, st => st
  | fuel+1, u, st =>
    let st1 : DfsSt := { st with time := st.time + 1, d := upd st.d u (st.time + 1) }
    let st2 := visitFold (fun v t => dfsVisit adj fuel v t) u (adjOf adj u) st1
    { st2 with
      time := st2.time + 1
      f := upd st2.f u (st2.time + 1)
      order := st2.order ++ [u] }

/-- The outer dfs loop over all vertices in increasing order. -/
def dfsRun (adj : List (List Nat)) : DfsSt :=
  (List.range adj.length).foldl
    (fun st u => if st.d u = 0 then dfsVisit adj adj.length u st else st) initDfs

/-- topologicalSort: vertices in reverse DFS finish order. -/
def Digraph.topologicalSort (g : Digraph) : List Nat :=
  (dfsRun g.adj).order.reverse

/-- One arc of the adjacency structure. -/
def Adjd (adj : List (List Nat)) (a b : Nat) : Prop := b ∈ adjOf adj a

/-- Reachability along arcs. -/
def Reachd (adj : List (List Nat)) : Nat → Nat → Prop :=
  Relation.ReflTransGen (Adjd adj)

/-- Acyclicity: no arc closes a directed cycle. -/
def AcyclicD (adj : List (List Nat)) : Prop :=
  ∀ a b, Adjd adj a b → Reachd adj b a → False

/-- All stored arc targets are in range. -/
def WFadj (adj : List (List Nat)) : Prop :=
  ∀ u, ∀ v ∈ adjOf adj u, v < adj.length

/-- u occurs strictly before v in the list. -/
def Before (l : List Nat) (u v : Nat) : Prop :=
  ∃ l1 l2, l = l1 ++ u :: l2 ∧ v ∈ l2

/-- Every element's arc targets occur later in the list (the topological
ordering property of the output list). -/
def topoOk (adj : List (List Nat)) : List Nat → Prop
  | [] => True
  | w :: rest => (∀ z ∈ adjOf adj w, z ∈ rest) ∧ topoOk adj rest

/-! ### Weighted graphs and MST -/

/-- The adjacency list (with weights) of vertex u. -/
def adjOfW (adj : List (List (Nat × Int))) (u : Nat) : List (Nat × Int) :=
  adj.getD u []

/-- Undirected weighted graph. -/
structure WeightedGraph where
  adj : List (List (Nat × Int))

def WeightedGraph.numVertices (g : WeightedGraph) : Nat := g.adj.length

/-- addEdge inserts the weighted entry into both endpoints' lists. -/
def WeightedGraph.addEdge (g : WeightedGraph) (a b : Nat) (w : Int) :
    WeightedGraph :=
  ⟨appendAt (appendAt g.adj a (b, w)) b (a, w)⟩

/-- Constructor from parallel edge and weight lists. -/
def mkWeightedGraph (v : Nat) (edges : List (Nat × Nat)) (weights : List Int) :
    WeightedGraph :=
  (edges.zip weights).foldl (fun g p => g.addEdge p.1.1 p.1.2 p.2)
    ⟨List.replicate v []⟩

/-- The weighted edge-list comprehension (withWeights true): entries with
target strictly greater than source, as ((u, v), w). -/
def edgeListW (u0 : Nat) : List (List (Nat × Int)) → List ((Nat × Nat) × Int)
  | [] => []
  | l :: rest =>
    (l.filter (fun p => u0 < p.1)).map (fun p => ((u0, p.1), p.2)) ++
      edgeListW (u0+1) rest

def WeightedGraph.getEdgeListW (g : WeightedGraph) : List ((Nat × Nat) × Int) :=
  edgeListW 0 g.adj

/-- The unweighted edge-list comprehension on a weighted adjacency store
(withWeights false, inherited from the unweighted class; the default
iterator yields only target vertices). -/
def edgeListUw (u0 : Nat) : List (List (Nat × Int)) → List (Nat × Nat)
  | [] => []
  | l :: rest =>
    ((l.map Prod.fst).filter (fun v => u0 < v)).map (fun v => (u0, v)) ++
      edgeListUw (u0+1) rest

def WeightedGraph.getEdgeList (g : WeightedGraph) : List (Nat × Nat) :=
  edgeListUw 0 g.adj

/-- The weight of the stored edge from u to v (first matching adjacency
entry), used to sum the weight of a returned MST edge set. -/
def WeightedGraph.edgeWeight (g : WeightedGraph) (u v : Nat) : Int :=
  ((adjOfW g.adj u).lookup v).getD 0

/-- Total weight of an edge set, looking each edge's weight up in the graph. -/
def WeightedGraph.totalWeight (g : WeightedGraph) (A : Finset (Nat × Nat)) : Int :=
  A.sum (fun e => g.edgeWeight e.1 e.2)

/-- One Kruskal step: find both endpoints' roots (compressing), and when
they differ add the edge to the accumulator and union them. -/
def kruskalStep (st : Finset (Nat × Nat) × DJS) (e : (Nat × Nat) × Int) :
    Finset (Nat × Nat) × DJS :=
  let f1 := st.2.findset e.1.1
  let f2 := f1.1.findset e.1.2
  if f1.2 ≠ f2.2 then (insert e.1 st.1, f2.1.union e.1.1 e.1.2)
  else (st.1, f2.1)

/-- mstKruskal: stable-sort the weighted edge list ascending by weight and
fold the Kruskal step over it, starting from singleton sets. -/
def WeightedGraph.mstKruskal (g : WeightedGraph) : Finset (Nat × Nat) :=
  let edges := (g.getEdgeListW).mergeSort (fun a b => a.2 ≤ b.2)
  (edges.foldl kruskalStep (∅, initDJS g.numVertices)).1

/-- The body of Prim's relaxation over the neighbours of the extracted
vertex u: when v is still in the queue and the edge weight is below v's
priority, record u as v's parent and lower v's priority. -/
def primRelax (u : Nat) (st : PQInts (WithTop Int) × List (Option Nat))
    (p : Nat × Int) : PQInts (WithTop Int) × List (Option Nat) :=
  if st.1.contains p.1 &&
      (match st.1.getPriority p.1 with
       | some pr => decide (((p.2 : Int) : WithTop Int) < pr)
       | none => false) then
    ((st.1.changePriority p.1 ((p.2 : Int) : WithTop Int)).1,
     st.2.set p.1 (some u))
  else st

/-- The main Prim loop: extract the minimum vertex and relax its incident
edges until the queue is empty.  Fuel bounds the iteration count; the
queue size shrinks by one per iteration. -/
def primLoop (adj : List (List (Nat × Int))) :
    Nat → PQInts (WithTop Int) → List (Option Nat) → List (Option Nat)
  | 0, _, parent => parent
  | fuel+1, Q, parent =>
    match Q.extractMin with
    | none => parent
    | some (u, Q') =>
      let st := (adjOfW adj u).foldl (primRelax u) (Q', parent)
      primLoop adj fuel st.1 st.2

/-- mstPrim: root at priority 0, every other vertex at infinity, then the
extract-and-relax loop; the result is the set of (parent, child) pairs. -/
def WeightedGraph.mstPrim (g : WeightedGraph) (r : Nat) : Finset (Nat × Nat) :=
  let n := g.numVertices
  let Q0 := ((initPQ (WithTop Int) n).insert r 0).1
  let Q1 := (List.range n).foldl
    (fun Q u => if u ≠ r then (Q.insert u ⊤).1 else Q) Q0
  let parent := primLoop g.adj (n+1) Q1 (List.replicate n none)
  (parent.enum.filterMap (fun p => p.2.map (fun u => (u, p.1)))).toFinset

/-- Weighted digraph.  The source class inherits the in-degree queries from
Digraph but its constructor and addEdge never create or update the
in-degree attribute, so reading it raises AttributeError; the raised error
is modelled as none. -/
structure WeightedDigraph where
  adj : List (List (Nat × Int))

def WeightedDigraph.numVertices (g : WeightedDigraph) : Nat := g.adj.length

/-- addEdge inserts only at the source; no in-degree counter exists. -/
def WeightedDigraph.addEdge (g : WeightedDigraph) (a b : Nat) (w : Int) :
    WeightedDigraph :=
  ⟨appendAt g.adj a (b, w)⟩

def mkWeightedDigraph (v : Nat) (edges : List (Nat × Nat))
    (weights : List Int) : WeightedDigraph :=
  (edges.zip weights).foldl (fun g p => g.addEdge p.1.1 p.1.2 p.2)
    ⟨List.replicate v []⟩

def WeightedDigraph.outDegree (g : WeightedDigraph) (vertex : Nat) : Nat :=
  (g.adj.getD vertex []).length

/-- inDegree reads the never-assigned in-degree slot: AttributeError. -/
def WeightedDigraph.inDegree (_ : WeightedDigraph) (_ : Nat) : Option Nat :=
  none

/-- degree delegates to the directed rule out-degree plus in-degree, which
fails because the in-degree slot was never assigned. -/
def WeightedDigraph.degree (g : WeightedDigraph) (vertex : Nat) : Option Nat :=
  (g.inDegree vertex).map (fun i => g.outDegree vertex + i)

/-! ### Specification predicates for the priority queue -/

/-- j is a heap child position of i. -/
def childIdx (i j : Nat) : Prop := j = 2*i+1 ∨ j = 2*i+2

/-- The binary-heap order property of the entry sequence. -/
def heapOrd {α : Type _} [LinearOrder α] [Inhabited α]
    (A : List (Nat × α)) : Prop :=
  ∀ i j, j < A.length → childIdx i j → (A.getD i dE).2 ≤ (A.getD j dE).2

/-- The element keys of a heap sequence. -/
def keys {α : Type _} (A : List (Nat × α)) : List Nat := A.map Prod.fst

/-- Index consistency for the elements below n: a nonnegative stored index
is an in-range heap position holding that element, and a negative stored
index means the element occurs nowhere in the heap. -/
def IdxGood {α : Type _} [Inhabited α] (n : Nat) (A : List (Nat × α))
    (idx : Nat → Int) : Prop :=
  ∀ e, e < n →
    (0 ≤ idx e → (idx e).toNat < A.length ∧ (A.getD (idx e).toNat dE).1 = e) ∧
    (idx e < 0 → ∀ i, i < A.length → (A.getD i dE).1 ≠ e)

/-- Index consistency restricted to the elements below n satisfying P
(the elements whose index entries are currently live). -/
def IdxGoodP {α : Type _} [Inhabited α] (n : Nat) (A : List (Nat × α))
    (idx : Nat → Int) (P : Nat → Prop) : Prop :=
  ∀ e, e < n → P e →
    (0 ≤ idx e → (idx e).toNat < A.length ∧ (A.getD (idx e).toNat dE).1 = e) ∧
    (idx e < 0 → ∀ i, i < A.length → (A.getD i dE).1 ≠ e)

/-- All heap elements are below n. -/
def ElemsLt {α : Type _} (n : Nat) (A : List (Nat × α)) : Prop :=
  ∀ p ∈ A, p.1 < n

/-- The full queue invariant. -/
def InvPQ {α : Type _} [LinearOrder α] [Inhabited α] (s : PQInts α) : Prop :=
  heapOrd s.minheap ∧ IdxGood s.n s.minheap s.index ∧
    (keys s.minheap).Nodup ∧ ElemsLt s.n s.minheap

/-- Heap order except possibly at the pairs whose child is pos, with the
auxiliary bound that pos's parent already dominates pos's children. -/
def almostUp {α : Type _} [LinearOrder α] [Inhabited α]
    (A : List (Nat × α)) (pos : Nat) : Prop :=
  (∀ i j, j < A.length → childIdx i j → j ≠ pos →
    (A.getD i dE).2 ≤ (A.getD j dE).2) ∧
  (∀ c, c < A.length → childIdx pos c → 1 ≤ pos →
    (A.getD ((pos-1)/2) dE).2 ≤ (A.getD c dE).2)

/-- Heap order restricted to pairs whose parent index is at least low. -/
def downOk {α : Type _} [LinearOrder α] [Inhabited α]
    (low : Nat) (A : List (Nat × α)) : Prop :=
  ∀ i j, j < A.length → childIdx i j → low ≤ i →
    (A.getD i dE).2 ≤ (A.getD j dE).2

/-- Heap order on parents at least low except possibly at pos, with the
auxiliary bound on pos's parent when it is itself at least low. -/
def almostDown {α : Type _} [LinearOrder α] [Inhabited α]
    (low pos : Nat) (A : List (Nat × α)) : Prop :=
  (∀ i j, j < A.length → childIdx i j → low ≤ i → i ≠ pos →
    (A.getD i dE).2 ≤ (A.getD j dE).2) ∧
  (∀ c, c < A.length → childIdx pos c → 1 ≤ pos → low ≤ (pos-1)/2 →
    (A.getD ((pos-1)/2) dE).2 ≤ (A.getD c dE).2)

/-- Queue states reachable by the operations as the specification lists
them: construction, insert, insertAll, extractMin on a non-empty queue and
changePriority, all with elements in range. -/
inductive ReachPQ {α : Type _} [LinearOrder α] [Inhabited α] : PQInts α → Prop
  | init (n : Nat) : ReachPQ (initPQ α n)
  | ins {s : PQInts α} (el : Nat) (v : α) :
      ReachPQ s → el < s.n → ReachPQ (s.insert el v).1
  | insAll {s : PQInts α} (pairs : List (Nat × α)) :
      ReachPQ s → (∀ p ∈ pairs, p.1 < s.n) → ReachPQ (s.insertAll pairs)
  | extract {s : PQInts α} {e : Nat} {s' : PQInts α} :
      ReachPQ s → s.extractMin = some (e, s') → ReachPQ s'
  | chg {s : PQInts α} (el : Nat) (v : α) :
      ReachPQ s → el < s.n → ReachPQ (s.changePriority el v).1

/-- Queue states reachable as above but with every insertAll call's pairs
carrying pairwise-distinct elements. -/
inductive ReachPQD {α : Type _} [LinearOrder α] [Inhabited α] : PQInts α → Prop
  | init (n : Nat) : ReachPQD (initPQ α n)
  | ins {s : PQInts α} (el : Nat) (v : α) :
      ReachPQD s → el < s.n → ReachPQD (s.insert el v).1
  | insAll {s : PQInts α} (pairs : List (Nat × α)) :
      ReachPQD s → (∀ p ∈ pairs, p.1 < s.n) → (pairs.map Prod.fst).Nodup →
      ReachPQD (s.insertAll pairs)
  | extract {s : PQInts α} {e : Nat} {s' : PQInts α} :
      ReachPQD s → s.extractMin = some (e, s') → ReachPQD s'
  | chg {s : PQInts α} (el : Nat) (v : α) :
      ReachPQD s → el < s.n → ReachPQD (s.changePriority el v).1


/-! ### Proof-side predicates -/

/-- The number of not yet discovered vertices below n. -/
def undisc (n : Nat) (st : DfsSt) : Nat :=
  (List.range n).countP (fun w => decide (st.d w = 0))

/-- The DFS state invariant: the finish order has no duplicates, lists only
discovered in-range vertices, and read backwards it is topologically
sorted (every arc target of a finished vertex finished earlier). -/
def InvD (adj : List (List Nat)) (st : DfsSt) : Prop :=
  st.order.Nodup ∧ (∀ w ∈ st.order, st.d w ≠ 0 ∧ w < adj.length) ∧
    topoOk adj st.order.reverse

/-- Frame facts between a DFS state and a later one: discovery times are
stable once set, only in-range vertices get discovered, the finish order
grows by appending, and the set of discovered-but-unfinished vertices is
unchanged. -/
def FrameD (n : Nat) (st st' : DfsSt) : Prop :=
  (∀ w, st.d w ≠ 0 → st'.d w = st.d w) ∧
  (∀ w, st'.d w ≠ 0 → st.d w ≠ 0 ∨ w < n) ∧
  (∃ l, st'.order = st.order ++ l) ∧
  (∀ w, (st'.d w ≠ 0 ∧ w ∉ st'.order) ↔ (st.d w ≠ 0 ∧ w ∉ st.order))

/-- Observational equality of two queues: same universe, and the same
containment answer and priority answer for every in-range element. -/
def obsEq {α : Type _} [LinearOrder α] [Inhabited α]
    (s t : PQInts α) : Prop :=
  s.n = t.n ∧ ∀ e, e < s.n →
    s.contains e = t.contains e ∧
    (s.contains e = true → s.getPriority e = t.getPriority e)

/-- The incremental insertion strategy: insert the pairs one at a time in
list order (the comparison point for insertAll). -/
def foldInsert {α : Type _} [LinearOrder α] [Inhabited α]
    (s : PQInts α) (pairs : List (Nat × α)) : PQInts α :=
  pairs.foldl (fun q p => (q.insert p.1 p.2).1) s


/-- The child position percolate-down moves to: the right child when it
exists and has strictly smaller priority than the left child, the left
child otherwise. -/
def mcSel {α : Type _} [LinearOrder α] [Inhabited α]
    (heap : List (Nat × α)) (pos : Nat) : Nat :=
  if 2*pos+2 < heap.length ∧
      (heap.getD (2*pos+2) dE).2 < (heap.getD (2*pos+1) dE).2
    then 2*pos+2 else 2*pos+1


/-! ## Theorems -/
/-! ### Helper lemmas -/

theorem upd_same {β : Type _} (f : Nat → β) (x : Nat) (v : β) :
    upd f x v x = v := by
  simp [upd]

theorem upd_ne {β : Type _} {f : Nat → β} {x y : Nat} {v : β} (h : y ≠ x) :
    upd f x v y = f y := by
  simp [upd, h]

theorem upd_self {β : Type _} (f : Nat → β) (x : Nat) :
    upd f x (f x) = f := by
  funext y
  by_cases h : y = x <;> simp [upd, h]

/-! ### Disjoint-set forest lemmas -/

theorem reachN_absorb {s : DJS} {z r k : Nat} (h : reachN s z r k)
    {m : Nat} (hk : k ≤ m) : s.parent^[m] z = r := by
  obtain ⟨h1, h2⟩ := h
  have hm : m = (m - k) + k := by omega
  rw [hm, Function.iterate_add_apply, h1, Function.iterate_fixed h2]

theorem reachN_unique {s : DJS} {z b c m m' : Nat}
    (hb : reachN s z b m) (hc : reachN s z c m') : b = c := by
  rcases le_total m m' with h | h
  · exact (reachN_absorb hb h).symm.trans hc.1
  · exact ((reachN_absorb hc h).symm.trans hb.1).symm

theorem reachN_upd {s : DJS} {a r : Nat} (ha : reaches s a r) :
    ∀ k z r', reachN s z r' k →
      ∃ k' ≤ k, reachN { s with parent := upd s.parent a r } z r' k' := by
  have hfix' : ∀ r', s.parent r' = r' → upd s.parent a r r' = r' := by
    intro r' hr'
    by_cases hra : r' = a
    · have hroot_a : s.parent a = a := hra ▸ hr'
      obtain ⟨m, hm⟩ := ha
      have hr_eq : r = a := by
        have h1 := reachN_absorb hm (le_refl m)
        rw [Function.iterate_fixed hroot_a] at h1
        exact h1.symm
      rw [hra, upd_same]
      exact hr_eq
    · rw [upd_ne hra]
      exact hr'
  intro k
  induction k with
  | zero =>
    intro z r' hz
    exact ⟨0, le_refl 0, hz.1, hfix' r' hz.2⟩
  | succ k ih =>
    intro z r' hz
    by_cases hza : z = a
    · obtain ⟨m, hm⟩ := ha
      have hrr : r' = r := reachN_unique (hza ▸ hz) hm
      refine ⟨1, by omega, ?_, hfix' r' hz.2⟩
      show (upd s.parent a r)^[1] z = r'
      simp only [Function.iterate_one]
      rw [hza, upd_same]
      exact hrr.symm
    · have hstep : reachN s (s.parent z) r' k :=
        ⟨by rw [← Function.iterate_succ_apply]; exact hz.1, hz.2⟩
      obtain ⟨k', hk', hre⟩ := ih (s.parent z) r' hstep
      refine ⟨k' + 1, by omega, ?_, hre.2⟩
      have hz' : upd s.parent a r z = s.parent z := upd_ne hza
      calc (upd s.parent a r)^[k'+1] z
          = (upd s.parent a r)^[k'] (upd s.parent a r z) := by
            rw [Function.iterate_succ_apply]
        _ = r' := by rw [hz']; exact hre.1

theorem findsetF_root {f : Nat} {s : DJS} {y : Nat} (hy : s.parent y = y) :
    findsetF f s y = (s, y) := by
  cases f with
  | zero => rfl
  | succ f =>
    have : ¬ (y ≠ s.parent y) := by rw [hy]; simp
    simp [findsetF, this]

theorem findsetF_spec (f : Nat) (s : DJS) (x : Nat)
    (hfix : s.parent (s.parent^[f] x) = s.parent^[f] x) :
    (findsetF f s x).2 = s.parent^[f] x ∧
    (findsetF f s x).1.n = s.n ∧
    (findsetF f s x).1.rank = s.rank ∧
    (findsetF f s x).1.parent x = s.parent^[f] x ∧
    (∀ z r k, reachN s z r k → ∃ k' ≤ k, reachN (findsetF f s x).1 z r k') ∧
    (∀ z, (findsetF f s x).1.parent z = s.parent z ∨
      reaches s z ((findsetF f s x).1.parent z)) := by
  induction f generalizing s x with
  | zero =>
    simp only [Function.iterate_zero_apply] at hfix ⊢
    exact ⟨rfl, rfl, rfl, hfix, fun z r k h => ⟨k, le_refl k, h⟩,
      fun z => Or.inl rfl⟩
  | succ f ih =>
    by_cases hx : x = s.parent x
    · have hroot : s.parent x = x := hx.symm
      have hiter : s.parent^[f+1] x = x := Function.iterate_fixed hroot (f+1)
      rw [findsetF_root hroot, hiter]
      exact ⟨rfl, rfl, rfl, hroot, fun z r k h => ⟨k, le_refl k, h⟩,
        fun z => Or.inl rfl⟩
    · have hfix' : s.parent (s.parent^[f] (s.parent x)) =
          s.parent^[f] (s.parent x) := by
        rw [← Function.iterate_succ_apply]; exact hfix
      obtain ⟨h2, hn, hrank, hpx, hpres, hcomp⟩ := ih s (s.parent x) hfix'
      have hstep : findsetF (f+1) s x =
          ({ (findsetF f s (s.parent x)).1 with
             parent := upd (findsetF f s (s.parent x)).1.parent x
               (findsetF f s (s.parent x)).2 }, (findsetF f s (s.parent x)).2) := by
        simp [findsetF, hx]
      have hiter : s.parent^[f+1] x = s.parent^[f] (s.parent x) :=
        Function.iterate_succ_apply s.parent f x
      have hrx : reachN s x (s.parent^[f] (s.parent x)) (f+1) :=
        ⟨hiter, hfix'⟩
      have hrx1 : reaches (findsetF f s (s.parent x)).1 x
          (s.parent^[f] (s.parent x)) := by
        obtain ⟨k', _, hre⟩ := hpres x _ (f+1) hrx
        exact ⟨k', hre⟩
      rw [hstep]
      dsimp only
      rw [hiter]
      rw [← h2] at hrx1
      refine ⟨h2, hn, hrank, ?_, ?_, ?_⟩
      · rw [upd_same, h2]
      · intro z r k hz
        obtain ⟨k1, hk1, hre1⟩ := hpres z r k hz
        obtain ⟨k2, hk2, hre2⟩ := reachN_upd hrx1 k1 z r hre1
        exact ⟨k2, le_trans hk2 hk1, hre2⟩
      · intro z
        by_cases hzx : z = x
        · subst hzx
          right
          rw [upd_same, h2]
          exact ⟨f+1, hrx⟩
        · rw [upd_ne hzx]
          exact hcomp z

theorem WF_reach {s : DJS} (hWF : s.WF) {z : Nat} (hz : z < s.n) :
    reachN s z (s.rootOf z) s.n :=
  ⟨rfl, (hWF z hz).2⟩

theorem reaches_rootOf {s : DJS} (hWF : s.WF) {z r : Nat} (hz : z < s.n)
    (h : reaches s z r) : r = s.rootOf z := by
  obtain ⟨k, hk⟩ := h
  exact reachN_unique hk (WF_reach hWF hz)

theorem findset_direct {s : DJS} {x r : Nat} (hpx : s.parent x = r)
    (hr : s.parent r = r) (hx : x < s.n) :
    s.findset x = (s, r) := by
  by_cases hxr : x = r
  · subst hxr
    rw [DJS.findset, findsetF_root hpx]
  · have hn : ∃ m, s.n = m + 1 := ⟨s.n - 1, by omega⟩
    obtain ⟨m, hm⟩ := hn
    rw [DJS.findset, hm]
    have hcond : x ≠ s.parent x := by rw [hpx]; exact hxr
    have hres : findsetF m s (s.parent x) = (s, r) := by
      rw [hpx]; exact findsetF_root hr
    simp only [findsetF, hcond, if_pos, ne_eq, not_false_eq_true, hres]
    have hupd : upd s.parent x r = s.parent := by
      rw [← hpx]; exact upd_self s.parent x
    simp [hupd]


theorem iterate_lt {s : DJS} (hWF : s.WF) {z : Nat} (hz : z < s.n) :
    ∀ k, s.parent^[k] z < s.n := by
  intro k
  induction k with
  | zero => exact hz
  | succ k ih =>
    rw [Function.iterate_succ_apply']
    exact (hWF _ ih).1

theorem rootOf_lt {s : DJS} (hWF : s.WF) {z : Nat} (hz : z < s.n) :
    s.rootOf z < s.n :=
  iterate_lt hWF hz s.n

theorem rootOf_parent_fix {s : DJS} (hWF : s.WF) {z : Nat} (hz : z < s.n) :
    s.parent (s.rootOf z) = s.rootOf z :=
  (hWF z hz).2

theorem reaches_back {s t : DJS} (hWF : s.WF)
    (hpres : ∀ z r k, reachN s z r k → ∃ k' ≤ k, reachN t z r k')
    {z : Nat} (hz : z < s.n) {r : Nat} (h : reaches t z r) :
    reaches s z r := by
  have h0 := WF_reach hWF hz
  obtain ⟨k', _, hre⟩ := hpres z _ s.n h0
  obtain ⟨k, hk⟩ := h
  have hr : r = s.rootOf z := reachN_unique hk hre
  exact hr ▸ ⟨s.n, h0⟩

theorem findset_spec_of_reachN {t : DJS} {y R k : Nat}
    (h : reachN t y R k) (hk : k ≤ t.n) :
    (t.findset y).2 = R ∧
    (t.findset y).1.n = t.n ∧
    (t.findset y).1.rank = t.rank ∧
    (t.findset y).1.parent y = R ∧
    (∀ z r k', reachN t z r k' → ∃ k'' ≤ k', reachN (t.findset y).1 z r k'') ∧
    (∀ z, (t.findset y).1.parent z = t.parent z ∨
      reaches t z ((t.findset y).1.parent z)) := by
  have hiter : t.parent^[t.n] y = R := reachN_absorb h hk
  have hfix : t.parent (t.parent^[t.n] y) = t.parent^[t.n] y := by
    rw [hiter]; exact h.2
  obtain ⟨a, b, c, d, e, f⟩ := findsetF_spec t.n t y hfix
  exact ⟨a.trans hiter, b, c, d.trans hiter, e, f⟩

theorem findset_spec {s : DJS} (hWF : s.WF) {x : Nat} (hx : x < s.n) :
    (s.findset x).2 = s.rootOf x ∧
    (s.findset x).1.n = s.n ∧
    (s.findset x).1.rank = s.rank ∧
    (s.findset x).1.parent x = s.rootOf x ∧
    (∀ z r k, reachN s z r k → ∃ k' ≤ k, reachN (s.findset x).1 z r k') ∧
    (∀ z, (s.findset x).1.parent z = s.parent z ∨
      reaches s z ((s.findset x).1.parent z)) :=
  findset_spec_of_reachN (WF_reach hWF hx) (le_refl _)

theorem findset2_spec {s : DJS} (hWF : s.WF) {x y : Nat} (hx : x < s.n)
    (hy : y < s.n) :
    (s.findset x).2 = s.rootOf x ∧
    ((s.findset x).1.findset y).2 = s.rootOf y ∧
    ((s.findset x).1.findset y).1.n = s.n ∧
    ((s.findset x).1.findset y).1.rank = s.rank ∧
    ((s.findset x).1.findset y).1.parent x = s.rootOf x ∧
    ((s.findset x).1.findset y).1.parent y = s.rootOf y ∧
    ((s.findset x).1.findset y).1.parent (s.rootOf x) = s.rootOf x ∧
    ((s.findset x).1.findset y).1.parent (s.rootOf y) = s.rootOf y ∧
    (∀ z r k, reachN s z r k →
      ∃ k' ≤ k, reachN ((s.findset x).1.findset y).1 z r k') ∧
    (∀ z, z < s.n → ∀ r, reaches ((s.findset x).1.findset y).1 z r →
      reaches s z r) ∧
    (∀ z, z < s.n → ((s.findset x).1.findset y).1.parent z = s.parent z ∨
      reaches s z (((s.findset x).1.findset y).1.parent z)) := by
  obtain ⟨a1, n1, k1, p1, pres1, comp1⟩ := findset_spec hWF hx
  obtain ⟨ky, hky, hrey⟩ := pres1 y _ s.n (WF_reach hWF hy)
  have hky' : ky ≤ (s.findset x).1.n := by rw [n1]; exact hky
  obtain ⟨a2, n2, k2, p2, pres2, comp2⟩ := findset_spec_of_reachN hrey hky'
  have hpres : ∀ z r k, reachN s z r k →
      ∃ k' ≤ k, reachN ((s.findset x).1.findset y).1 z r k' := by
    intro z r k hz
    obtain ⟨ka, hka, ha⟩ := pres1 z r k hz
    obtain ⟨kb, hkb, hb⟩ := pres2 z r ka ha
    exact ⟨kb, le_trans hkb hka, hb⟩
  have hback : ∀ z, z < s.n → ∀ r,
      reaches ((s.findset x).1.findset y).1 z r → reaches s z r :=
    fun z hz r h => reaches_back hWF hpres hz h
  have hrootx : ∀ t : DJS,
      (∀ z r k, reachN s z r k → ∃ k' ≤ k, reachN t z r k') →
      t.parent (s.rootOf x) = s.rootOf x := by
    intro t hp
    have h0 : reachN s (s.rootOf x) (s.rootOf x) 0 :=
      ⟨rfl, rootOf_parent_fix hWF hx⟩
    obtain ⟨k', _, h⟩ := hp _ _ 0 h0
    exact h.2
  have hrooty : ∀ t : DJS,
      (∀ z r k, reachN s z r k → ∃ k' ≤ k, reachN t z r k') →
      t.parent (s.rootOf y) = s.rootOf y := by
    intro t hp
    have h0 : reachN s (s.rootOf y) (s.rootOf y) 0 :=
      ⟨rfl, rootOf_parent_fix hWF hy⟩
    obtain ⟨k', _, h⟩ := hp _ _ 0 h0
    exact h.2
  have hpx2 : ((s.findset x).1.findset y).1.parent x = s.rootOf x := by
    rcases comp2 x with h | h
    · rw [h, p1]
    · have hx1 : reaches (s.findset x).1 x (s.rootOf x) := by
        obtain ⟨k', _, hh⟩ := pres1 x _ s.n (WF_reach hWF hx)
        exact ⟨k', hh⟩
      obtain ⟨ka, hha⟩ := h
      obtain ⟨kb, hhb⟩ := hx1
      exact reachN_unique hha hhb
  refine ⟨a1, a2, n2.trans n1, k2.trans k1, hpx2, p2,
    hrootx _ hpres, hrooty _ hpres, hpres, hback, ?_⟩
  intro z hz
  rcases comp2 z with h | h
  · rcases comp1 z with h1 | h1
    · exact Or.inl (h.trans h1)
    · exact Or.inr (h ▸ h1)
  · exact Or.inr (reaches_back hWF pres1 hz h)

theorem link_cases (s : DJS) (a b : Nat) :
    (s.link a b).n = s.n ∧
    ((s.rank b < s.rank a ∧ (s.link a b).parent = upd s.parent b a ∧
        (s.link a b).rank = s.rank) ∨
     (¬ s.rank b < s.rank a ∧ (s.link a b).parent = upd s.parent a b ∧
        ((s.rank a = s.rank b ∧
            (s.link a b).rank = upd s.rank b (s.rank b + 1)) ∨
         (s.rank a ≠ s.rank b ∧ (s.link a b).rank = s.rank)))) := by
  by_cases h : s.rank b < s.rank a
  · constructor
    · simp [DJS.link, h]
    · exact Or.inl ⟨h, by simp [DJS.link, h], by simp [DJS.link, h]⟩
  · by_cases h2 : s.rank a = s.rank b
    · constructor
      · simp [DJS.link, h, h2]
      · exact Or.inr ⟨h, by simp [DJS.link, h, h2],
          Or.inl ⟨h2, by simp [DJS.link, h, h2]⟩⟩
    · constructor
      · simp [DJS.link, h, h2]
      · exact Or.inr ⟨h, by simp [DJS.link, h, h2],
          Or.inr ⟨h2, by simp [DJS.link, h, h2]⟩⟩

theorem union_def (s : DJS) (x y : Nat) :
    s.union x y =
      ((s.findset x).1.findset y).1.link (s.findset x).2
        ((s.findset x).1.findset y).2 := rfl


theorem reaches_congr {t t' : DJS} (h : t.parent = t'.parent) {z r : Nat} :
    reaches t z r ↔ reaches t' z r := by
  unfold reaches reachN
  rw [h]

/-- Claim C3 as stated is false: union on two elements that already share a
representative increments the shared root's rank.  On the singleton forest
over one element, union 0 0 changes the rank of 0 from 0 to 1 even though
findset 0 trivially equals findset 0. -/
theorem claim_C3_cex :
    (initDJS 1).WF ∧
    ((initDJS 1).findset 0).2 = (((initDJS 1).findset 0).1.findset 0).2 ∧
    ((initDJS 1).union 0 0).rank 0 = 1 ∧ (initDJS 1).rank 0 = 0 := by
  refine ⟨by decide, by decide, by decide, by decide⟩

/-- Claim C3, amended: on a well-formed forest, union of two in-range
elements with the same root changes no parent except by path compression
(each changed parent is repointed to that element's own root), changes no
set membership (the reachable root of every in-range element is
unchanged), and changes no rank except the shared root's, which it
increments by one. -/
theorem claim_C3 {s : DJS} (hWF : s.WF) {x y : Nat} (hx : x < s.n)
    (hy : y < s.n) (heq : s.rootOf x = s.rootOf y) :
    (s.union x y).n = s.n ∧
    (∀ z, z < s.n → (s.union x y).parent z = s.parent z ∨
      reaches s z ((s.union x y).parent z)) ∧
    (∀ z, z < s.n → ∀ r, reaches s z r ↔ reaches (s.union x y) z r) ∧
    (s.union x y).rank = upd s.rank (s.rootOf x) (s.rank (s.rootOf x) + 1) := by
  obtain ⟨a1, a2, n2, rank2, px2, py2, hr1, hr2, pres, back, comp⟩ :=
    findset2_spec hWF hx hy
  have hu : s.union x y =
      ((s.findset x).1.findset y).1.link (s.rootOf x) (s.rootOf x) := by
    rw [union_def, a1, a2, ← heq]
  obtain ⟨ln, lcases⟩ :=
    link_cases ((s.findset x).1.findset y).1 (s.rootOf x) (s.rootOf x)
  have hnotlt : ¬ ((s.findset x).1.findset y).1.rank (s.rootOf x) <
      ((s.findset x).1.findset y).1.rank (s.rootOf x) := lt_irrefl _
  rcases lcases with ⟨h, _, _⟩ | ⟨_, hpar, hrk⟩
  · exact absurd h hnotlt
  · have hcollapse : upd ((s.findset x).1.findset y).1.parent (s.rootOf x)
        (s.rootOf x) = ((s.findset x).1.findset y).1.parent := by
      have h2 := upd_self ((s.findset x).1.findset y).1.parent (s.rootOf x)
      rw [hr1] at h2
      exact h2
    have hpar' : (s.union x y).parent =
        ((s.findset x).1.findset y).1.parent := by
      rw [hu, hpar, hcollapse]
    have hrk' : (s.union x y).rank =
        upd s.rank (s.rootOf x) (s.rank (s.rootOf x) + 1) := by
      rcases hrk with ⟨_, hk⟩ | ⟨hne, _⟩
      · rw [hu, hk, rank2]
      · exact absurd rfl hne
    refine ⟨?_, ?_, ?_, hrk'⟩
    · rw [hu, ln, n2]
    · intro z hz
      rw [hpar']
      exact comp z hz
    · intro z hz r
      constructor
      · intro hr
        obtain ⟨k, hk⟩ := hr
        obtain ⟨k', _, h'⟩ := pres z r k hk
        exact (reaches_congr hpar').mpr ⟨k', h'⟩
      · intro hr
        exact back z hz r ((reaches_congr hpar').mp hr)


theorem claim_C3_witness :
    ((initDJS 2).union 0 1).WF ∧ 0 < ((initDJS 2).union 0 1).n ∧
    1 < ((initDJS 2).union 0 1).n ∧
    ((initDJS 2).union 0 1).rootOf 0 = ((initDJS 2).union 0 1).rootOf 1 ∧
    ((((initDJS 2).union 0 1).union 0 1).n = ((initDJS 2).union 0 1).n ∧
     (∀ z, z < ((initDJS 2).union 0 1).n →
       (((initDJS 2).union 0 1).union 0 1).parent z =
         ((initDJS 2).union 0 1).parent z ∨
       reaches ((initDJS 2).union 0 1) z
         ((((initDJS 2).union 0 1).union 0 1).parent z)) ∧
     (∀ z, z < ((initDJS 2).union 0 1).n → ∀ r,
       reaches ((initDJS 2).union 0 1) z r ↔
       reaches (((initDJS 2).union 0 1).union 0 1) z r) ∧
     (((initDJS 2).union 0 1).union 0 1).rank =
       upd ((initDJS 2).union 0 1).rank (((initDJS 2).union 0 1).rootOf 0)
         (((initDJS 2).union 0 1).rank (((initDJS 2).union 0 1).rootOf 0) + 1)) :=
  ⟨by decide, by decide, by decide, by decide,
    claim_C3 (by decide) (by decide) (by decide) (by decide)⟩

theorem upd_eq_of {β : Type _} {f : Nat → β} {x y : Nat} {v : β}
    (h : y = x) : upd f x v y = v := by
  simp [upd, h]

theorem union_reach {s : DJS} (hWF : s.WF) {x y : Nat} (hx : x < s.n)
    (hy : y < s.n) :
    ∃ R, (∃ kx, kx ≤ s.n ∧ reachN (s.union x y) x R kx) ∧
         (∃ ky, ky ≤ s.n ∧ reachN (s.union x y) y R ky) ∧
         (s.union x y).n = s.n := by
  obtain ⟨a1, a2, n2, rank2, px2, py2, hr1, hr2, pres, back, comp⟩ :=
    findset2_spec hWF hx hy
  have hu : s.union x y =
      ((s.findset x).1.findset y).1.link (s.rootOf x) (s.rootOf y) := by
    rw [union_def, a1, a2]
  have hn1 : 1 ≤ s.n := by omega
  have hrx := rootOf_lt hWF hx
  have hry := rootOf_lt hWF hy
  obtain ⟨ln, lcases⟩ :=
    link_cases ((s.findset x).1.findset y).1 (s.rootOf x) (s.rootOf y)
  have hln : (s.union x y).n = s.n := by rw [hu, ln, n2]
  rcases lcases with ⟨_, hpar, _⟩ | ⟨_, hpar, _⟩
  · -- the root of y is linked below the root of x
    refine ⟨s.rootOf x, ?_, ?_, hln⟩
    · -- x points at the root of x, which stays a root
      have hpx : (s.union x y).parent x = s.rootOf x := by
        rw [hu, hpar]
        by_cases hxr : x = s.rootOf y
        · rw [upd_eq_of hxr]
        · rw [upd_ne hxr, px2]
      have hroot : (s.union x y).parent (s.rootOf x) = s.rootOf x := by
        rw [hu, hpar]
        by_cases hrr : s.rootOf x = s.rootOf y
        · rw [upd_eq_of hrr]
        · rw [upd_ne hrr, hr1]
      exact ⟨1, hn1, by
        refine ⟨?_, hroot⟩
        simp only [Function.iterate_one]
        exact hpx⟩
    · by_cases hyr : y = s.rootOf y
      · have hpy : (s.union x y).parent y = s.rootOf x := by
          rw [hu, hpar, upd_eq_of hyr]
        have hroot : (s.union x y).parent (s.rootOf x) = s.rootOf x := by
          rw [hu, hpar]
          by_cases hrr : s.rootOf x = s.rootOf y
          · rw [upd_eq_of hrr]
          · rw [upd_ne hrr, hr1]
        exact ⟨1, hn1, by
          refine ⟨?_, hroot⟩
          simp only [Function.iterate_one]
          exact hpy⟩
      · have hpy : (s.union x y).parent y = s.rootOf y := by
          rw [hu, hpar, upd_ne hyr, py2]
        have hpr2 : (s.union x y).parent (s.rootOf y) = s.rootOf x := by
          rw [hu, hpar, upd_same]
        have hroot : (s.union x y).parent (s.rootOf x) = s.rootOf x := by
          rw [hu, hpar]
          by_cases hrr : s.rootOf x = s.rootOf y
          · rw [upd_eq_of hrr]
          · rw [upd_ne hrr, hr1]
        have hn2 : 2 ≤ s.n := by omega
        exact ⟨2, hn2, by
          refine ⟨?_, hroot⟩
          show (s.union x y).parent ((s.union x y).parent^[1] y) = s.rootOf x
          simp only [Function.iterate_one]
          rw [hpy, hpr2]⟩
  · -- the root of x is linked below the root of y
    refine ⟨s.rootOf y, ?_, ?_, hln⟩
    · by_cases hxr : x = s.rootOf x
      · have hpx : (s.union x y).parent x = s.rootOf y := by
          rw [hu, hpar, upd_eq_of hxr]
        have hroot : (s.union x y).parent (s.rootOf y) = s.rootOf y := by
          rw [hu, hpar]
          by_cases hrr : s.rootOf y = s.rootOf x
          · rw [upd_eq_of hrr]
          · rw [upd_ne hrr, hr2]
        exact ⟨1, hn1, by
          refine ⟨?_, hroot⟩
          simp only [Function.iterate_one]
          exact hpx⟩
      · have hpx : (s.union x y).parent x = s.rootOf x := by
          rw [hu, hpar, upd_ne hxr, px2]
        have hpr1 : (s.union x y).parent (s.rootOf x) = s.rootOf y := by
          rw [hu, hpar, upd_same]
        have hroot : (s.union x y).parent (s.rootOf y) = s.rootOf y := by
          rw [hu, hpar]
          by_cases hrr : s.rootOf y = s.rootOf x
          · rw [upd_eq_of hrr]
          · rw [upd_ne hrr, hr2]
        have hn2 : 2 ≤ s.n := by omega
        exact ⟨2, hn2, by
          refine ⟨?_, hroot⟩
          show (s.union x y).parent ((s.union x y).parent^[1] x) = s.rootOf y
          simp only [Function.iterate_one]
          rw [hpx, hpr1]⟩
    · have hpy : (s.union x y).parent y = s.rootOf y := by
        rw [hu, hpar]
        by_cases hyr : y = s.rootOf x
        · rw [upd_eq_of hyr]
        · rw [upd_ne hyr, py2]
      have hroot : (s.union x y).parent (s.rootOf y) = s.rootOf y := by
        rw [hu, hpar]
        by_cases hrr : s.rootOf y = s.rootOf x
        · rw [upd_eq_of hrr]
        · rw [upd_ne hrr, hr2]
      exact ⟨1, hn1, by
        refine ⟨?_, hroot⟩
        simp only [Function.iterate_one]
        exact hpy⟩

/-- Claim C7: on a well-formed forest with in-range x and y, findset is
idempotent (a second findset on the state left by the first returns the
same representative) and changes no element's reachable root; and after
union x y, findset x and then findset y return equal representatives. -/
theorem claim_C7 {s : DJS} (hWF : s.WF) {x y : Nat} (hx : x < s.n)
    (hy : y < s.n) :
    ((s.findset x).1.findset x).2 = (s.findset x).2 ∧
    (∀ z, z < s.n → ∀ r, reaches s z r ↔ reaches (s.findset x).1 z r) ∧
    ((s.union x y).findset x).2 =
      (((s.union x y).findset x).1.findset y).2 := by
  obtain ⟨a1, n1, k1, p1, pres1, comp1⟩ := findset_spec hWF hx
  refine ⟨?_, ?_, ?_⟩
  · -- idempotence
    have hroot : (s.findset x).1.parent (s.rootOf x) = s.rootOf x := by
      have h0 : reachN s (s.rootOf x) (s.rootOf x) 0 :=
        ⟨rfl, rootOf_parent_fix hWF hx⟩
      obtain ⟨k', _, h⟩ := pres1 _ _ 0 h0
      exact h.2
    have hx1 : x < (s.findset x).1.n := by rw [n1]; exact hx
    rw [findset_direct p1 hroot hx1, a1]
  · intro z hz r
    constructor
    · intro hr
      obtain ⟨k, hk⟩ := hr
      obtain ⟨k', _, h'⟩ := pres1 z r k hk
      exact ⟨k', h'⟩
    · exact fun h => reaches_back hWF pres1 hz h
  · obtain ⟨R, ⟨kx, hkx, hrex⟩, ⟨ky, hky, hrey⟩, hun⟩ := union_reach hWF hx hy
    have hkx' : kx ≤ (s.union x y).n := by rw [hun]; exact hkx
    obtain ⟨b1, m1, _, _, presu, _⟩ := findset_spec_of_reachN hrex hkx'
    obtain ⟨ky', hky', hrey'⟩ := presu y R ky hrey
    have hky'' : ky' ≤ ((s.union x y).findset x).1.n := by
      rw [m1, hun]; exact le_trans hky' hky
    obtain ⟨b2, _, _, _, _, _⟩ := findset_spec_of_reachN hrey' hky''
    rw [b1, b2]

theorem claim_C7_witness :
    (initDJS 3).WF ∧ 0 < (initDJS 3).n ∧ 1 < (initDJS 3).n ∧
    ((((initDJS 3).findset 0).1.findset 0).2 = ((initDJS 3).findset 0).2 ∧
     (∀ z, z < (initDJS 3).n → ∀ r,
       reaches (initDJS 3) z r ↔ reaches ((initDJS 3).findset 0).1 z r) ∧
     (((initDJS 3).union 0 1).findset 0).2 =
       ((((initDJS 3).union 0 1).findset 0).1.findset 1).2) :=
  ⟨by decide, by decide, by decide,
    claim_C7 (by decide) (by decide) (by decide)⟩


/-! ### List access lemmas -/

theorem getD_set_self {β : Type _} :
    ∀ (L : List β) (i : Nat) (a d : β), i < L.length →
      (L.set i a).getD i d = a := by
  intro L
  induction L with
  | nil => intro i a d h; simp at h
  | cons x t ih =>
    intro i a d h
    cases i with
    | zero => rfl
    | succ i =>
      simp only [List.set, List.getD, List.getElem?_cons_succ]
      exact ih i a d (by simpa using h)

theorem getD_set_ne {β : Type _} :
    ∀ (L : List β) (i : Nat) (a d : β) (j : Nat), j ≠ i →
      (L.set i a).getD j d = L.getD j d := by
  intro L
  induction L with
  | nil => intro i a d j h; simp [List.set]
  | cons x t ih =>
    intro i a d j h
    cases i with
    | zero =>
      cases j with
      | zero => exact absurd rfl h
      | succ j => rfl
    | succ i =>
      cases j with
      | zero => rfl
      | succ j =>
        simp only [List.set, List.getD, List.getElem?_cons_succ]
        exact ih i a d j (fun hh => h (by rw [hh]))

theorem getD_replicate {β : Type _} (a d : β) :
    ∀ (n v : Nat), v < n → (List.replicate n a).getD v d = a := by
  intro n
  induction n with
  | zero => intro v h; omega
  | succ n ih =>
    intro v h
    cases v with
    | zero => rfl
    | succ v =>
      simp only [List.replicate, List.getD, List.getElem?_cons_succ]
      exact ih v (by omega)

theorem appendAt_length {β : Type _} (L : List (List β)) (i : Nat) (x : β) :
    (appendAt L i x).length = L.length := by
  simp [appendAt]

theorem getD_appendAt_self {β : Type _} {L : List (List β)} {i : Nat} {x : β}
    (h : i < L.length) : (appendAt L i x).getD i [] = L.getD i [] ++ [x] :=
  getD_set_self L i _ [] h

theorem getD_appendAt_ne {β : Type _} {L : List (List β)} {i : Nat} {x : β}
    {j : Nat} (h : j ≠ i) : (appendAt L i x).getD j [] = L.getD j [] :=
  getD_set_ne L i _ [] j h

/-! ### Claim C2: degree queries on directed graphs -/

theorem addEdgeD_adj (g : Digraph) (a b : Nat) :
    (g.addEdge a b).adj = appendAt g.adj a b := rfl

theorem addEdgeD_inDeg (g : Digraph) (a b : Nat) :
    (g.addEdge a b).inDeg = g.inDeg.set b (g.inDeg.getD b 0 + 1) := rfl

theorem digraph_fold_lengths :
    ∀ (E : List (Nat × Nat)) (g : Digraph),
      (E.foldl (fun g e => g.addEdge e.1 e.2) g).adj.length = g.adj.length ∧
      (E.foldl (fun g e => g.addEdge e.1 e.2) g).inDeg.length =
        g.inDeg.length := by
  intro E
  induction E with
  | nil => intro g; exact ⟨rfl, rfl⟩
  | cons e E ih =>
    intro g
    obtain ⟨h1, h2⟩ := ih (g.addEdge e.1 e.2)
    constructor
    · rw [List.foldl_cons, h1, addEdgeD_adj, appendAt_length]
    · rw [List.foldl_cons, h2, addEdgeD_inDeg, List.length_set]

theorem digraph_fold_out (v : Nat) :
    ∀ (E : List (Nat × Nat)) (g : Digraph), (∀ p ∈ E, p.1 < g.adj.length) →
      ((E.foldl (fun g e => g.addEdge e.1 e.2) g).adj.getD v []).length =
        (g.adj.getD v []).length + E.countP (fun p => decide (p.1 = v)) := by
  intro E
  induction E with
  | nil => intro g _; simp
  | cons e E ih =>
    intro g hE
    have ha : e.1 < g.adj.length := hE e (by simp)
    have hE' : ∀ p ∈ E, p.1 < (g.addEdge e.1 e.2).adj.length := by
      intro p hp
      rw [addEdgeD_adj, appendAt_length]
      exact hE p (by simp [hp])
    rw [List.foldl_cons, ih (g.addEdge e.1 e.2) hE', List.countP_cons]
    rw [addEdgeD_adj]
    by_cases he : e.1 = v
    · rw [← he, getD_appendAt_self ha]
      simp [he]
      omega
    · rw [getD_appendAt_ne (fun hh => he hh.symm)]
      simp [he]

theorem digraph_fold_in (v : Nat) :
    ∀ (E : List (Nat × Nat)) (g : Digraph), (∀ p ∈ E, p.2 < g.inDeg.length) →
      (E.foldl (fun g e => g.addEdge e.1 e.2) g).inDeg.getD v 0 =
        g.inDeg.getD v 0 + E.countP (fun p => decide (p.2 = v)) := by
  intro E
  induction E with
  | nil => intro g _; simp
  | cons e E ih =>
    intro g hE
    have hb : e.2 < g.inDeg.length := hE e (by simp)
    have hE' : ∀ p ∈ E, p.2 < (g.addEdge e.1 e.2).inDeg.length := by
      intro p hp
      rw [addEdgeD_inDeg, List.length_set]
      exact hE p (by simp [hp])
    rw [List.foldl_cons, ih (g.addEdge e.1 e.2) hE', List.countP_cons]
    rw [addEdgeD_inDeg]
    by_cases he : e.2 = v
    · rw [← he, getD_set_self g.inDeg e.2 _ 0 hb]
      simp [he]
      omega
    · rw [getD_set_ne g.inDeg e.2 _ 0 v (fun hh => he hh.symm)]
      simp [he]

/-- Claim C2: for Digraph the claim holds: outDegree counts the arcs with
the given source, inDegree counts the arcs with the given target (addEdge
increments the target's counter), and degree is their sum.  For
WeightedDigraph the claim fails in the code: its constructor and addEdge
never create the in-degree attribute, so inDegree and degree raise
AttributeError (modelled as none) on every input, here evaluated on the
one-arc graph over two vertices. -/
theorem claim_C2 :
    (∀ (n : Nat) (E : List (Nat × Nat)), (∀ p ∈ E, p.1 < n ∧ p.2 < n) →
      ∀ v, v < n →
        (mkDigraph n E).outDegree v = E.countP (fun p => decide (p.1 = v)) ∧
        (mkDigraph n E).inDegree v = E.countP (fun p => decide (p.2 = v)) ∧
        (mkDigraph n E).degree v =
          (mkDigraph n E).inDegree v + (mkDigraph n E).outDegree v) ∧
    ((mkWeightedDigraph 2 [(0,1)] [5]).inDegree 1 = none ∧
     (mkWeightedDigraph 2 [(0,1)] [5]).degree 0 = none ∧
     (mkWeightedDigraph 2 [(0,1)] [5]).outDegree 0 = 1) := by
  constructor
  · intro n E hE v hv
    have hbase : (⟨List.replicate n [], List.replicate n 0⟩ : Digraph).adj.length
        = n := by simp
    have hbase2 : (⟨List.replicate n [], List.replicate n 0⟩ : Digraph).inDeg.length
        = n := by simp
    have hout := digraph_fold_out v E ⟨List.replicate n [], List.replicate n 0⟩
      (by intro p hp; rw [hbase]; exact (hE p hp).1)
    have hin := digraph_fold_in v E ⟨List.replicate n [], List.replicate n 0⟩
      (by intro p hp; rw [hbase2]; exact (hE p hp).2)
    have hg0 : ((⟨List.replicate n [], List.replicate n 0⟩ : Digraph).adj.getD
        v []) = [] := getD_replicate [] [] n v hv
    have hg1 : (⟨List.replicate n [], List.replicate n 0⟩ : Digraph).inDeg.getD
        v 0 = 0 := getD_replicate 0 0 n v hv
    refine ⟨?_, ?_, ?_⟩
    · show ((mkDigraph n E).adj.getD v []).length = _
      rw [mkDigraph] at *
      rw [hout, hg0]
      simp
    · show (mkDigraph n E).inDeg.getD v 0 = _
      rw [mkDigraph] at *
      rw [hin, hg1]
      simp
    · exact Nat.add_comm _ _
  · exact ⟨rfl, rfl, rfl⟩

theorem claim_C2_witness :
    (∀ p ∈ [((0:Nat),(1:Nat)),(1,1)], p.1 < 2 ∧ p.2 < 2) ∧ 1 < 2 ∧
    ((mkDigraph 2 [(0,1),(1,1)]).outDegree 1 =
        [((0:Nat),(1:Nat)),(1,1)].countP (fun p => decide (p.1 = 1)) ∧
     (mkDigraph 2 [(0,1),(1,1)]).inDegree 1 =
        [((0:Nat),(1:Nat)),(1,1)].countP (fun p => decide (p.2 = 1)) ∧
     (mkDigraph 2 [(0,1),(1,1)]).degree 1 =
        (mkDigraph 2 [(0,1),(1,1)]).inDegree 1 +
          (mkDigraph 2 [(0,1),(1,1)]).outDegree 1) :=
  ⟨by decide, by decide,
    claim_C2.1 2 [(0,1),(1,1)] (by decide) 1 (by decide)⟩


/-! ### Claim C9: edge-list enumeration -/

theorem edgeGen_appendAt {β γ : Type _} (t : Nat → List β → List γ)
    (F : Nat → List (List β) → List γ)
    (hcons : ∀ u0 l rest, F u0 (l :: rest) = t u0 l ++ F (u0+1) rest)
    (hhom : ∀ u0 l x, t u0 (l ++ [x]) = t u0 l ++ t u0 [x]) :
    ∀ (L : List (List β)) (u0 i : Nat) (x : β), i < L.length →
      (F u0 (appendAt L i x)).Perm (t (u0+i) [x] ++ F u0 L) := by
  intro L
  induction L with
  | nil => intro u0 i x h; simp at h
  | cons l rest ih =>
    intro u0 i x h
    cases i with
    | zero =>
      have happ : appendAt (l :: rest) 0 x = (l ++ [x]) :: rest := rfl
      rw [happ, hcons, hhom, hcons]
      have h1 : ((t u0 l ++ t u0 [x]) ++ F (u0+1) rest).Perm
          ((t u0 [x] ++ t u0 l) ++ F (u0+1) rest) :=
        List.perm_append_comm.append_right _
      rw [List.append_assoc, List.append_assoc] at h1
      simpa using h1
    | succ i =>
      have happ : appendAt (l :: rest) (i+1) x = l :: appendAt rest i x := by
        simp [appendAt, List.getD]
      rw [happ, hcons, hcons]
      have hih := ih (u0+1) i x (by simpa using h)
      have hperm := hih.append_left (t u0 l)
      refine hperm.trans ?_
      have harith : u0 + 1 + i = u0 + (i + 1) := by omega
      rw [harith, ← List.append_assoc, ← List.append_assoc]
      exact List.perm_append_comm.append_right _

theorem edgeListU_replicate : ∀ (n u0 : Nat),
    edgeListU u0 (List.replicate n []) = [] := by
  intro n
  induction n with
  | zero => intro u0; rfl
  | succ n ih => intro u0; simpa [List.replicate, edgeListU] using ih (u0+1)

theorem addEdgeG_adj (g : Graph) (a b : Nat) :
    (g.addEdge a b).adj = appendAt (appendAt g.adj a b) b a := rfl

theorem getEdgeList_addEdge {g : Graph} {a b : Nat} (ha : a < g.adj.length)
    (hb : b < g.adj.length) (hab : a ≠ b) :
    (g.addEdge a b).getEdgeList.Perm
      ((min a b, max a b) :: g.getEdgeList) := by
  have hcons : ∀ (u0 : Nat) (l : List Nat) rest, edgeListU u0 (l :: rest) =
      ((l.filter (fun v => u0 < v)).map (fun v => (u0, v))) ++
        edgeListU (u0+1) rest := by
    intro u0 l rest; rfl
  have hhom : ∀ (u0 : Nat) (l : List Nat) x,
      (((l ++ [x]).filter (fun v => u0 < v)).map (fun v => (u0, v))) =
      ((l.filter (fun v => u0 < v)).map (fun v => (u0, v))) ++
        (([x].filter (fun v => u0 < v)).map (fun v => (u0, v))) := by
    intro u0 l x; simp [List.filter_append]
  have h1 := edgeGen_appendAt _ edgeListU hcons hhom (appendAt g.adj a b) 0 b a
    (by rw [appendAt_length]; exact hb)
  have h2 := edgeGen_appendAt _ edgeListU hcons hhom g.adj 0 a b ha
  have h2' := h2.append_left
    ((([a].filter (fun v => 0 + b < v)).map (fun v => (0 + b, v))))
  have hchain := h1.trans h2'
  show (edgeListU 0 (appendAt (appendAt g.adj a b) b a)).Perm _
  refine hchain.trans ?_
  simp only [Nat.zero_add]
  rcases Nat.lt_or_ge a b with h | h
  · have hba : ¬ b < a := by omega
    have hmin : min a b = a := by omega
    have hmax : max a b = b := by omega
    simp [hba, h, hmin, hmax, Graph.getEdgeList]
  · have hba : b < a := by omega
    have hnab : ¬ a < b := by omega
    have hmin : min a b = b := by omega
    have hmax : max a b = a := by omega
    simp [hba, hnab, hmin, hmax, Graph.getEdgeList]

theorem addEdgeG_length (g : Graph) (a b : Nat) :
    (g.addEdge a b).adj.length = g.adj.length := by
  rw [addEdgeG_adj, appendAt_length, appendAt_length]

theorem getEdgeList_addEdge_self {g : Graph} {a : Nat}
    (ha : a < g.adj.length) :
    (g.addEdge a a).getEdgeList.Perm g.getEdgeList := by
  have hcons : ∀ (u0 : Nat) (l : List Nat) rest, edgeListU u0 (l :: rest) =
      ((l.filter (fun v => u0 < v)).map (fun v => (u0, v))) ++
        edgeListU (u0+1) rest := by
    intro u0 l rest; rfl
  have hhom : ∀ (u0 : Nat) (l : List Nat) x,
      (((l ++ [x]).filter (fun v => u0 < v)).map (fun v => (u0, v))) =
      ((l.filter (fun v => u0 < v)).map (fun v => (u0, v))) ++
        (([x].filter (fun v => u0 < v)).map (fun v => (u0, v))) := by
    intro u0 l x; simp [List.filter_append]
  have h1 := edgeGen_appendAt _ edgeListU hcons hhom (appendAt g.adj a a) 0
    a a (by rw [appendAt_length]; exact ha)
  have h2 := edgeGen_appendAt _ edgeListU hcons hhom g.adj 0 a a ha
  have hself : (([a].filter (fun v => 0 + a < v)).map
      (fun v => ((0 + a : Nat), v))) = ([] : List (Nat × Nat)) := by
    simp
  rw [hself] at h1 h2
  simp only [List.nil_append] at h1 h2
  show (edgeListU 0 (appendAt (appendAt g.adj a a) a a)).Perm
    (edgeListU 0 g.adj)
  exact h1.trans h2

theorem graph_fold_edges :
    ∀ (E : List (Nat × Nat)) (g : Graph),
      (∀ p ∈ E, p.1 < g.adj.length ∧ p.2 < g.adj.length) →
      (E.foldl (fun g e => g.addEdge e.1 e.2) g).getEdgeList.Perm
        ((E.filter (fun p => decide (p.1 ≠ p.2))).map
          (fun p => (min p.1 p.2, max p.1 p.2)) ++ g.getEdgeList) := by
  intro E
  induction E with
  | nil => intro g _; simp
  | cons e E ih =>
    intro g hE
    obtain ⟨ha, hb⟩ := hE e (by simp)
    have hE' : ∀ p ∈ E, p.1 < (g.addEdge e.1 e.2).adj.length ∧
        p.2 < (g.addEdge e.1 e.2).adj.length := by
      intro p hp
      rw [addEdgeG_length]
      exact hE p (by simp [hp])
    rw [List.foldl_cons, List.filter_cons]
    have h1 := ih (g.addEdge e.1 e.2) hE'
    by_cases hab : e.1 = e.2
    · rw [if_neg (by simp [hab])]
      have h0 : g.addEdge e.1 e.2 = g.addEdge e.1 e.1 := by rw [← hab]
      have hself : (g.addEdge e.1 e.2).getEdgeList.Perm g.getEdgeList := by
        rw [h0]
        exact getEdgeList_addEdge_self ha
      have h2 := hself.append_left
        ((E.filter (fun p => decide (p.1 ≠ p.2))).map
          (fun p => (min p.1 p.2, max p.1 p.2)))
      exact h1.trans h2
    · rw [if_pos (decide_eq_true hab)]
      have h2 := (getEdgeList_addEdge ha hb hab).append_left
        ((E.filter (fun p => decide (p.1 ≠ p.2))).map
          (fun p => (min p.1 p.2, max p.1 p.2)))
      refine (h1.trans h2).trans ?_
      simp only [List.map_cons, List.cons_append]
      exact List.perm_middle

theorem edgeListW_replicate : ∀ (n u0 : Nat),
    edgeListW u0 (List.replicate n []) = [] := by
  intro n
  induction n with
  | zero => intro u0; rfl
  | succ n ih => intro u0; simpa [List.replicate, edgeListW] using ih (u0+1)

theorem addEdgeW_adj (g : WeightedGraph) (a b : Nat) (w : Int) :
    (g.addEdge a b w).adj = appendAt (appendAt g.adj a (b, w)) b (a, w) := rfl

theorem getEdgeListW_addEdge {g : WeightedGraph} {a b : Nat} (w : Int)
    (ha : a < g.adj.length) (hb : b < g.adj.length) (hab : a ≠ b) :
    (g.addEdge a b w).getEdgeListW.Perm
      (((min a b, max a b), w) :: g.getEdgeListW) := by
  have hcons : ∀ (u0 : Nat) (l : List (Nat × Int)) rest,
      edgeListW u0 (l :: rest) =
      ((l.filter (fun p => u0 < p.1)).map (fun p => ((u0, p.1), p.2))) ++
        edgeListW (u0+1) rest := by
    intro u0 l rest; rfl
  have hhom : ∀ (u0 : Nat) (l : List (Nat × Int)) (x : Nat × Int),
      (((l ++ [x]).filter (fun p => u0 < p.1)).map
        (fun p => ((u0, p.1), p.2))) =
      ((l.filter (fun p => u0 < p.1)).map (fun p => ((u0, p.1), p.2))) ++
        (([x].filter (fun p => u0 < p.1)).map (fun p => ((u0, p.1), p.2))) := by
    intro u0 l x; simp [List.filter_append]
  have h1 := edgeGen_appendAt _ edgeListW hcons hhom
    (appendAt g.adj a (b, w)) 0 b (a, w) (by rw [appendAt_length]; exact hb)
  have h2 := edgeGen_appendAt _ edgeListW hcons hhom g.adj 0 a (b, w) ha
  have h2' := h2.append_left
    ((([((a : Nat), w)].filter (fun p => 0 + b < p.1)).map
      (fun p => ((0 + b, p.1), p.2))))
  have hchain := h1.trans h2'
  show (edgeListW 0 (appendAt (appendAt g.adj a (b, w)) b (a, w))).Perm _
  refine hchain.trans ?_
  simp only [Nat.zero_add]
  rcases Nat.lt_or_ge a b with h | h
  · have hba : ¬ b < a := by omega
    have hmin : min a b = a := by omega
    have hmax : max a b = b := by omega
    simp [hba, h, hmin, hmax, WeightedGraph.getEdgeListW]
  · have hba : b < a := by omega
    have hnab : ¬ a < b := by omega
    have hmin : min a b = b := by omega
    have hmax : max a b = a := by omega
    simp [hba, hnab, hmin, hmax, WeightedGraph.getEdgeListW]

theorem addEdgeW_length (g : WeightedGraph) (a b : Nat) (w : Int) :
    (g.addEdge a b w).adj.length = g.adj.length := by
  rw [addEdgeW_adj, appendAt_length, appendAt_length]

theorem getEdgeListW_addEdge_self {g : WeightedGraph} {a : Nat} (w : Int)
    (ha : a < g.adj.length) :
    (g.addEdge a a w).getEdgeListW.Perm g.getEdgeListW := by
  have hcons : ∀ (u0 : Nat) (l : List (Nat × Int)) rest,
      edgeListW u0 (l :: rest) =
      ((l.filter (fun p => u0 < p.1)).map (fun p => ((u0, p.1), p.2))) ++
        edgeListW (u0+1) rest := by
    intro u0 l rest; rfl
  have hhom : ∀ (u0 : Nat) (l : List (Nat × Int)) (x : Nat × Int),
      (((l ++ [x]).filter (fun p => u0 < p.1)).map
        (fun p => ((u0, p.1), p.2))) =
      ((l.filter (fun p => u0 < p.1)).map (fun p => ((u0, p.1), p.2))) ++
        (([x].filter (fun p => u0 < p.1)).map (fun p => ((u0, p.1), p.2))) := by
    intro u0 l x; simp [List.filter_append]
  have h1 := edgeGen_appendAt _ edgeListW hcons hhom
    (appendAt g.adj a (a, w)) 0 a (a, w)
    (by rw [appendAt_length]; exact ha)
  have h2 := edgeGen_appendAt _ edgeListW hcons hhom g.adj 0 a (a, w) ha
  have hself : (([((a : Nat), w)].filter (fun p => 0 + a < p.1)).map
      (fun p => (((0 + a : Nat), p.1), p.2))) =
      ([] : List ((Nat × Nat) × Int)) := by
    simp
  rw [hself] at h1 h2
  simp only [List.nil_append] at h1 h2
  show (edgeListW 0 (appendAt (appendAt g.adj a (a, w)) a (a, w))).Perm
    (edgeListW 0 g.adj)
  exact h1.trans h2

theorem weighted_fold_edges :
    ∀ (P : List ((Nat × Nat) × Int)) (g : WeightedGraph),
      (∀ p ∈ P, p.1.1 < g.adj.length ∧ p.1.2 < g.adj.length) →
      (P.foldl (fun g p => g.addEdge p.1.1 p.1.2 p.2) g).getEdgeListW.Perm
        ((P.filter (fun p => decide (p.1.1 ≠ p.1.2))).map
          (fun p => ((min p.1.1 p.1.2, max p.1.1 p.1.2), p.2)) ++
          g.getEdgeListW) := by
  intro P
  induction P with
  | nil => intro g _; simp
  | cons e P ih =>
    intro g hP
    obtain ⟨ha, hb⟩ := hP e (by simp)
    have hP' : ∀ p ∈ P, p.1.1 < (g.addEdge e.1.1 e.1.2 e.2).adj.length ∧
        p.1.2 < (g.addEdge e.1.1 e.1.2 e.2).adj.length := by
      intro p hp
      rw [addEdgeW_length]
      exact hP p (by simp [hp])
    rw [List.foldl_cons, List.filter_cons]
    have h1 := ih (g.addEdge e.1.1 e.1.2 e.2) hP'
    by_cases hab : e.1.1 = e.1.2
    · rw [if_neg (by simp [hab])]
      have h0 : g.addEdge e.1.1 e.1.2 e.2 = g.addEdge e.1.1 e.1.1 e.2 := by
        rw [← hab]
      have hself : (g.addEdge e.1.1 e.1.2 e.2).getEdgeListW.Perm
          g.getEdgeListW := by
        rw [h0]
        exact getEdgeListW_addEdge_self e.2 ha
      have h2 := hself.append_left
        ((P.filter (fun p => decide (p.1.1 ≠ p.1.2))).map
          (fun p => ((min p.1.1 p.1.2, max p.1.1 p.1.2), p.2)))
      exact h1.trans h2
    · rw [if_pos (decide_eq_true hab)]
      have h2 := (getEdgeListW_addEdge e.2 ha hb hab).append_left
        ((P.filter (fun p => decide (p.1.1 ≠ p.1.2))).map
          (fun p => ((min p.1.1 p.1.2, max p.1.1 p.1.2), p.2)))
      refine (h1.trans h2).trans ?_
      simp only [List.map_cons, List.cons_append]
      exact List.perm_middle

theorem edgeListD_replicate : ∀ (n u0 : Nat),
    edgeListD u0 (List.replicate n []) = [] := by
  intro n
  induction n with
  | zero => intro u0; rfl
  | succ n ih => intro u0; simpa [List.replicate, edgeListD] using ih (u0+1)

theorem getEdgeListD_addEdge {g : Digraph} {a : Nat} (b : Nat)
    (ha : a < g.adj.length) :
    (g.addEdge a b).getEdgeList.Perm ((a, b) :: g.getEdgeList) := by
  have hcons : ∀ (u0 : Nat) (l : List Nat) rest, edgeListD u0 (l :: rest) =
      (l.map (fun v => (u0, v))) ++ edgeListD (u0+1) rest := by
    intro u0 l rest; rfl
  have hhom : ∀ (u0 : Nat) (l : List Nat) x,
      ((l ++ [x]).map (fun v => (u0, v))) =
      (l.map (fun v => (u0, v))) ++ ([x].map (fun v => (u0, v))) := by
    intro u0 l x; simp
  have h1 := edgeGen_appendAt _ edgeListD hcons hhom g.adj 0 a b ha
  show (edgeListD 0 (appendAt g.adj a b)).Perm _
  refine h1.trans ?_
  simp [Digraph.getEdgeList]

theorem digraph_fold_edgelist :
    ∀ (E : List (Nat × Nat)) (g : Digraph), (∀ p ∈ E, p.1 < g.adj.length) →
      (E.foldl (fun g e => g.addEdge e.1 e.2) g).getEdgeList.Perm
        (E ++ g.getEdgeList) := by
  intro E
  induction E with
  | nil => intro g _; simp
  | cons e E ih =>
    intro g hE
    have ha : e.1 < g.adj.length := hE e (by simp)
    have hE' : ∀ p ∈ E, p.1 < (g.addEdge e.1 e.2).adj.length := by
      intro p hp
      rw [addEdgeD_adj, appendAt_length]
      exact hE p (by simp [hp])
    rw [List.foldl_cons]
    have h1 := ih (g.addEdge e.1 e.2) hE'
    have h2 := (getEdgeListD_addEdge e.2 ha).append_left E
    refine (h1.trans h2).trans ?_
    have he : (e.1, e.2) = e := rfl
    rw [he]
    exact List.perm_middle

/-- Claim C9 as stated is false for self-loops: an undirected graph built
by adding the single in-range edge (0, 0) has an empty edge list, because
both stored adjacency entries fail the strictly-greater filter, so the
added edge is reported zero times rather than exactly once. -/
theorem claim_C9_cex :
    (mkGraph 1 [(0, 0)]).getEdgeList = [] ∧
    ¬ (mkGraph 1 [(0, 0)]).getEdgeList.Perm [(0, 0)] := by
  constructor
  · rfl
  · intro h
    have h1 := h.length_eq
    have h2 : (mkGraph 1 [(0, 0)]).getEdgeList.length = 0 := rfl
    rw [h2] at h1
    simp at h1

/-- Claim C9, amended: for every undirected Graph or WeightedGraph built
by addEdge calls with in-range endpoints (self-loops allowed), getEdgeList
reports each added edge with distinct endpoints exactly once, as the pair
(smaller, larger) of its endpoints (with its weight in the weighted
variant), and reports each self-loop zero times, because both stored
adjacency entries fail the target-greater-than-source filter: the output
is a permutation of the normalised distinct-endpoint added edges.  For
directed graphs each stored arc is reported exactly once (the output is a
permutation of the added arc list). -/
theorem claim_C9 :
    (∀ (n : Nat) (E : List (Nat × Nat)),
      (∀ p ∈ E, p.1 < n ∧ p.2 < n) →
      (mkGraph n E).getEdgeList.Perm
        ((E.filter (fun p => decide (p.1 ≠ p.2))).map
          (fun p => (min p.1 p.2, max p.1 p.2)))) ∧
    (∀ (n : Nat) (E : List (Nat × Nat)) (W : List Int),
      (∀ p ∈ E.zip W, p.1.1 < n ∧ p.1.2 < n) →
      (mkWeightedGraph n E W).getEdgeListW.Perm
        (((E.zip W).filter (fun p => decide (p.1.1 ≠ p.1.2))).map
          (fun p => ((min p.1.1 p.1.2, max p.1.1 p.1.2), p.2)))) ∧
    (∀ (n : Nat) (E : List (Nat × Nat)), (∀ p ∈ E, p.1 < n) →
      (mkDigraph n E).getEdgeList.Perm E) := by
  refine ⟨?_, ?_, ?_⟩
  · intro n E hE
    have h := graph_fold_edges E ⟨List.replicate n []⟩
      (by intro p hp; simpa using hE p hp)
    have hbase : (⟨List.replicate n []⟩ : Graph).getEdgeList = [] :=
      edgeListU_replicate n 0
    rw [hbase, List.append_nil] at h
    exact h
  · intro n E W hE
    have h := weighted_fold_edges (E.zip W) ⟨List.replicate n []⟩
      (by intro p hp; simpa using hE p hp)
    have hbase : (⟨List.replicate n []⟩ : WeightedGraph).getEdgeListW = [] :=
      edgeListW_replicate n 0
    rw [hbase, List.append_nil] at h
    exact h
  · intro n E hE
    have h := digraph_fold_edgelist E ⟨List.replicate n [], List.replicate n 0⟩
      (by intro p hp; simpa using hE p hp)
    have hbase : (⟨List.replicate n [], List.replicate n 0⟩ :
        Digraph).getEdgeList = [] := edgeListD_replicate n 0
    rw [hbase, List.append_nil] at h
    exact h

theorem claim_C9_witness :
    (∀ p ∈ [((0:Nat),(1:Nat)),(1,1),(2,1),(0,1)], p.1 < 3 ∧ p.2 < 3) ∧
    (∀ p ∈ [((0:Nat),(1:Nat)),(2,2)].zip [(5:Int),7],
      p.1.1 < 3 ∧ p.1.2 < 3) ∧
    (mkGraph 3 [(0,1),(1,1),(2,1),(0,1)]).getEdgeList.Perm
      (([((0:Nat),(1:Nat)),(1,1),(2,1),(0,1)].filter
        (fun p => decide (p.1 ≠ p.2))).map
        (fun p => (min p.1 p.2, max p.1 p.2))) ∧
    (mkWeightedGraph 3 [(0,1),(2,2)] [5,7]).getEdgeListW.Perm
      ((([((0:Nat),(1:Nat)),(2,2)].zip [(5:Int),7]).filter
        (fun p => decide (p.1.1 ≠ p.1.2))).map
        (fun p => ((min p.1.1 p.1.2, max p.1.1 p.1.2), p.2))) :=
  ⟨by decide, by decide,
    claim_C9.1 3 [(0,1),(1,1),(2,1),(0,1)] (by decide),
    claim_C9.2.1 3 [(0,1),(2,2)] [5,7] (by decide)⟩


/-! ### Claim C10: getPriority on an absent element -/

theorem idxGe_upd {idx : Nat → Int} {x : Nat} {v : Int}
    (h : ∀ e, -1 ≤ idx e) (hv : -1 ≤ v) : ∀ e, -1 ≤ upd idx x v e := by
  intro e
  by_cases he : e = x
  · rw [he, upd_same]; exact hv
  · rw [upd_ne he]; exact h e

theorem idxGe_updNat {idx : Nat → Int} (h : ∀ e, -1 ≤ idx e) (x p : Nat) :
    ∀ e, -1 ≤ upd idx x (p : Int) e :=
  idxGe_upd h (by omega)

theorem idxGe_percUp {α : Type _} [LinearOrder α] [Inhabited α] :
    ∀ (fuel : Nat) (heap : List (Nat × α)) (idx : Nat → Int)
      (cur : Nat × α) (pos : Nat), (∀ e, -1 ≤ idx e) →
      ∀ e, -1 ≤ (percUpF fuel heap idx cur pos).2 e := by
  intro fuel
  induction fuel with
  | zero =>
    intro heap idx cur pos h
    exact idxGe_updNat h cur.1 pos
  | succ fuel ih =>
    intro heap idx cur pos h
    simp only [percUpF]
    split
    · exact ih _ _ _ _ (idxGe_updNat h _ pos)
    · exact idxGe_updNat h cur.1 pos

theorem idxGe_percDown {α : Type _} [LinearOrder α] [Inhabited α] :
    ∀ (fuel : Nat) (heap : List (Nat × α)) (idx : Nat → Int)
      (cur : Nat × α) (pos : Nat), (∀ e, -1 ≤ idx e) →
      ∀ e, -1 ≤ (percDownF fuel heap idx cur pos).2 e := by
  intro fuel
  induction fuel with
  | zero =>
    intro heap idx cur pos h
    exact idxGe_updNat h cur.1 pos
  | succ fuel ih =>
    intro heap idx cur pos h
    simp only [percDownF]
    split
    · split
      · split
        · exact ih _ _ _ _ (idxGe_updNat h _ pos)
        · exact idxGe_updNat h cur.1 pos
      · split
        · exact ih _ _ _ _ (idxGe_updNat h _ pos)
        · exact idxGe_updNat h cur.1 pos
    · exact idxGe_updNat h cur.1 pos

theorem idxGe_foldUpd {α : Type _} :
    ∀ (l : List (Nat × (Nat × α))) (idx : Nat → Int), (∀ e, -1 ≤ idx e) →
      ∀ e, -1 ≤ (l.foldl (fun f p => upd f p.2.1 (p.1 : Int)) idx) e := by
  intro l
  induction l with
  | nil => intro idx h; exact h
  | cons p l ih =>
    intro idx h
    exact ih _ (idxGe_updNat h p.2.1 p.1)

theorem idxGe_rebuild {α : Type _} {idx : Nat → Int}
    (h : ∀ e, -1 ≤ idx e) (heap : List (Nat × α)) :
    ∀ e, -1 ≤ rebuildIdx idx heap e :=
  idxGe_foldUpd heap.enum idx h

theorem idxGe_insert {α : Type _} [LinearOrder α] [Inhabited α]
    {s : PQInts α} (h : ∀ e, -1 ≤ s.index e) (el : Nat) (v : α) :
    ∀ e, -1 ≤ ((s.insert el v).1).index e := by
  unfold PQInts.insert
  split
  · exact h
  · exact idxGe_percUp _ _ _ _ _ h

theorem idxGe_extract {α : Type _} [LinearOrder α] [Inhabited α]
    {s : PQInts α} {e : Nat} {s' : PQInts α}
    (h : ∀ x, -1 ≤ s.index x) (hex : s.extractMin = some (e, s')) :
    ∀ x, -1 ≤ s'.index x := by
  obtain ⟨n, heap, idx⟩ := s
  cases heap with
  | nil => simp [PQInts.extractMin] at hex
  | cons a t =>
    simp only [PQInts.extractMin] at hex
    split at hex
    · obtain ⟨rfl, rfl⟩ := Option.some.inj hex |> Prod.mk.inj
      exact idxGe_upd (idxGe_percDown _ _ _ _ _ h) (by omega)
    · obtain ⟨rfl, rfl⟩ := Option.some.inj hex |> Prod.mk.inj
      exact idxGe_upd h (by omega)

theorem idxGe_chg {α : Type _} [LinearOrder α] [Inhabited α]
    {s : PQInts α} (h : ∀ e, -1 ≤ s.index e) (el : Nat) (v : α) :
    ∀ e, -1 ≤ ((s.changePriority el v).1).index e := by
  unfold PQInts.changePriority
  by_cases h1 : 0 ≤ s.index el
  · rw [if_pos h1]
    by_cases h2 : v < (s.minheap.getD (s.index el).toNat dE).2
    · rw [if_pos h2]
      exact idxGe_percUp _ _ _ _ _ h
    · rw [if_neg h2]
      by_cases h3 : (s.minheap.getD (s.index el).toNat dE).2 < v
      · rw [if_pos h3]
        exact idxGe_percDown _ _ _ _ _ h
      · rw [if_neg h3]
        exact h
  · rw [if_neg h1]
    exact h

theorem idxGe_foldInsert {α : Type _} [LinearOrder α] [Inhabited α] :
    ∀ (pairs : List (Nat × α)) (s : PQInts α), (∀ e, -1 ≤ s.index e) →
      ∀ e, -1 ≤ (pairs.foldl (fun q p => (q.insert p.1 p.2).1) s).index e := by
  intro pairs
  induction pairs with
  | nil => intro s h; exact h
  | cons p pairs ih =>
    intro s h
    exact ih _ (idxGe_insert h p.1 p.2)

theorem idxGe_insertAll {α : Type _} [LinearOrder α] [Inhabited α]
    {s : PQInts α} (h : ∀ e, -1 ≤ s.index e) (pairs : List (Nat × α)) :
    ∀ e, -1 ≤ (s.insertAll pairs).index e := by
  unfold PQInts.insertAll
  split
  · simp only [PQInts.heapify]
    exact idxGe_rebuild h _
  · exact idxGe_foldInsert pairs s h

theorem reach_idx_ge {α : Type _} [LinearOrder α] [Inhabited α]
    {s : PQInts α} (h : ReachPQ s) : ∀ e, -1 ≤ s.index e := by
  induction h with
  | init n => intro e; exact le_refl _
  | ins el v hs hel ih => exact idxGe_insert ih el v
  | insAll pairs hs hp ih => exact idxGe_insertAll ih pairs
  | extract hs hex ih => exact idxGe_extract ih hex
  | chg el v hs hel ih => exact idxGe_chg ih el v

/-- Claim C10: in any reachable queue, getPriority on an in-range element
that is not contained does not fail and returns no sentinel: the stored
index is -1, which under Python negative indexing reads the last heap
entry, so it returns that entry's priority whenever the heap is non-empty;
it raises an out-of-range error (none) exactly when the heap is empty. -/
theorem claim_C10 {α : Type _} [LinearOrder α] [Inhabited α] {s : PQInts α}
    (hs : ReachPQ s) {e : Nat} (he : e < s.n)
    (habs : s.contains e = false) :
    (s.minheap ≠ [] →
      s.getPriority e =
        some ((s.minheap.getD (s.minheap.length - 1) dE).2)) ∧
    (s.minheap = [] → s.getPriority e = none) := by
  have hge := reach_idx_ge hs e
  have hlt : s.index e < 0 := by
    by_contra hc
    push_neg at hc
    simp [PQInts.contains] at habs
    omega
  have hm1 : s.index e = -1 := by omega
  constructor
  · intro hne
    have hlen : 0 < s.minheap.length := List.length_pos.mpr hne
    unfold PQInts.getPriority pyIndex
    rw [hm1]
    have hc1 : (-1 : Int) < 0 := by norm_num
    have hc2 : (0 : Int) ≤ (s.minheap.length : Int) + (-1) := by omega
    rw [if_pos hc1, if_pos hc2]
    have htn : ((s.minheap.length : Int) + (-1)).toNat =
        s.minheap.length - 1 := by omega
    rw [htn]
    have hidx : s.minheap.length - 1 < s.minheap.length := by omega
    have h1 : s.minheap.get? (s.minheap.length - 1) =
        some (s.minheap.getD (s.minheap.length - 1) dE) := by
      rw [List.getD_eq_getElem?_getD, List.get?_eq_getElem?,
        List.getElem?_eq_getElem hidx]
      rfl
    rw [h1]
    rfl
  · intro hemp
    unfold PQInts.getPriority pyIndex
    rw [hm1, hemp]
    simp

theorem claim_C10_witness :
    ReachPQ (((initPQ Int 2).insert 0 5).1) ∧
    1 < (((initPQ Int 2).insert 0 5).1).n ∧
    (((initPQ Int 2).insert 0 5).1).contains 1 = false ∧
    ((((initPQ Int 2).insert 0 5).1).minheap ≠ [] →
      (((initPQ Int 2).insert 0 5).1).getPriority 1 =
        some (((((initPQ Int 2).insert 0 5).1).minheap.getD
          ((((initPQ Int 2).insert 0 5).1).minheap.length - 1) dE).2)) ∧
    ((((initPQ Int 2).insert 0 5).1).minheap = [] →
      (((initPQ Int 2).insert 0 5).1).getPriority 1 = none) :=
  ⟨ReachPQ.ins 0 5 (ReachPQ.init 2) (by decide), by decide, by decide,
    (claim_C10 (ReachPQ.ins 0 5 (ReachPQ.init 2) (by decide)) (by decide)
      (by decide)).1,
    (claim_C10 (ReachPQ.ins 0 5 (ReachPQ.init 2) (by decide)) (by decide)
      (by decide)).2⟩


/-! ### Heap verification: list bridges -/

theorem getD_eq_getElem {β : Type _} {l : List β} {i : Nat}
    (h : i < l.length) (d : β) : l.getD i d = l[i] := by
  rw [List.getD_eq_getElem?_getD, List.getElem?_eq_getElem h]
  rfl

theorem getD_mem {β : Type _} {l : List β} {i : Nat} (h : i < l.length)
    (d : β) : l.getD i d ∈ l := by
  rw [getD_eq_getElem h]
  exact List.getElem_mem h

theorem mem_iff_getD {β : Type _} {l : List β} {x : β} (d : β) :
    x ∈ l ↔ ∃ i, i < l.length ∧ l.getD i d = x := by
  constructor
  · intro h
    obtain ⟨i, hi, he⟩ := List.mem_iff_getElem.mp h
    exact ⟨i, hi, by rw [getD_eq_getElem hi]; exact he⟩
  · intro ⟨i, hi, he⟩
    rw [← he]
    exact getD_mem hi d

theorem getD_append_left {β : Type _} {l l' : List β} {i : Nat}
    (h : i < l.length) (d : β) : (l ++ l').getD i d = l.getD i d := by
  rw [getD_eq_getElem (by rw [List.length_append]; omega) d,
    getD_eq_getElem h d]
  exact List.getElem_append_left h

theorem getD_append_len {β : Type _} (l : List β) (x d : β) :
    (l ++ [x]).getD l.length d = x := by
  rw [getD_eq_getElem (by simp) d]
  rw [List.getElem_append_right (le_refl l.length)]
  simp

theorem set_getD_self {β : Type _} {l : List β} {i : Nat}
    (h : i < l.length) (d : β) : l.set i (l.getD i d) = l := by
  apply List.ext_getElem
  · simp
  · intro j h1 h2
    by_cases hij : i = j
    · subst hij
      rw [List.getElem_set_eq h1, getD_eq_getElem h]
    · rw [List.getElem_set_ne hij]

theorem getD_dropLast {β : Type _} {l : List β} {i : Nat}
    (h : i < l.length - 1) (d : β) : l.dropLast.getD i d = l.getD i d := by
  have h1 : i < l.dropLast.length := by rw [List.length_dropLast]; omega
  have h2 : i < l.length := by omega
  rw [getD_eq_getElem h1 d, getD_eq_getElem h2 d]
  exact List.getElem_dropLast l i h1

theorem swap_head_perm {β : Type _} :
    ∀ (t : List β) (m : Nat) (x d : β), m < t.length →
      (t.getD m d :: t.set m x).Perm (x :: t) := by
  intro t
  induction t with
  | nil => intro m x d h; simp at h
  | cons y t ih =>
    intro m x d h
    cases m with
    | zero => exact List.Perm.swap x y t
    | succ k =>
      have hk : k < t.length := by simpa using h
      show (t.getD k d :: y :: t.set k x).Perm (x :: y :: t)
      exact (List.Perm.swap y (t.getD k d) (t.set k x)).trans
        (((ih k x d hk).cons y).trans (List.Perm.swap x y t))

theorem swap_set_perm {β : Type _} :
    ∀ (l : List β) (a b : Nat) (d : β), a < l.length → b < l.length →
      ((l.set a (l.getD b d)).set b (l.getD a d)).Perm l := by
  intro l
  induction l with
  | nil => intro a b d ha; simp at ha
  | cons y t ih =>
    intro a b d ha hb
    by_cases hab : a = b
    · subst hab
      rw [List.set_set, set_getD_self ha]
    · cases a with
      | zero =>
        cases b with
        | zero => exact absurd rfl hab
        | succ k =>
          have hk : k < t.length := by simpa using hb
          have hs : ((y :: t).set 0 ((y :: t).getD (k+1) d)).set (k+1)
              ((y :: t).getD 0 d) = t.getD k d :: t.set k y := rfl
          rw [hs]
          exact swap_head_perm t k y d hk
      | succ j =>
        cases b with
        | zero =>
          have hj : j < t.length := by simpa using ha
          have hs : ((y :: t).set (j+1) ((y :: t).getD 0 d)).set 0
              ((y :: t).getD (j+1) d) = t.getD j d :: t.set j y := rfl
          rw [hs]
          exact swap_head_perm t j y d hj
        | succ k =>
          have hj : j < t.length := by simpa using ha
          have hk : k < t.length := by simpa using hb
          have hs : ((y :: t).set (j+1) ((y :: t).getD (k+1) d)).set (k+1)
              ((y :: t).getD (j+1) d) =
              y :: ((t.set j (t.getD k d)).set k (t.getD j d)) := rfl
          rw [hs]
          exact (ih j k d hj hk).cons y

theorem childIdx_parent {j : Nat} (h : 1 ≤ j) : childIdx ((j-1)/2) j := by
  unfold childIdx
  omega

theorem childIdx_unique {i j : Nat} (h : childIdx i j) :
    i = (j-1)/2 ∧ i < j ∧ 1 ≤ j := by
  unfold childIdx at h
  omega

theorem keys_length {α : Type _} (A : List (Nat × α)) :
    (keys A).length = A.length := by
  simp [keys]

theorem key_mem_iff {α : Type _} [Inhabited α] {A : List (Nat × α)}
    {e : Nat} : e ∈ keys A ↔ ∃ i, i < A.length ∧ (A.getD i dE).1 = e := by
  constructor
  · intro h
    obtain ⟨p, hp, he⟩ := List.mem_map.mp h
    obtain ⟨i, hi, hgd⟩ := (mem_iff_getD dE).mp hp
    exact ⟨i, hi, by rw [hgd]; exact he⟩
  · intro ⟨i, hi, he⟩
    rw [← he]
    exact List.mem_map_of_mem Prod.fst (getD_mem hi dE)

theorem keys_inj {α : Type _} [Inhabited α] {A : List (Nat × α)}
    (h : (keys A).Nodup) {i j : Nat} (hi : i < A.length) (hj : j < A.length)
    (he : (A.getD i dE).1 = (A.getD j dE).1) : i = j := by
  have hki : i < (keys A).length := by rw [keys_length]; exact hi
  have hkj : j < (keys A).length := by rw [keys_length]; exact hj
  have h1 : (keys A)[i] = (A.getD i dE).1 := by
    rw [getD_eq_getElem hi]
    exact List.getElem_map Prod.fst
  have h2 : (keys A)[j] = (A.getD j dE).1 := by
    rw [getD_eq_getElem hj]
    exact List.getElem_map Prod.fst
  have : (keys A)[i] = (keys A)[j] := by rw [h1, h2, he]
  exact (h.getElem_inj_iff).mp this

theorem heapOrd_root_min {α : Type _} [LinearOrder α] [Inhabited α]
    {A : List (Nat × α)} (h : heapOrd A) :
    ∀ i, i < A.length → (A.getD 0 dE).2 ≤ (A.getD i dE).2 := by
  intro i
  induction i using Nat.strong_induction_on with
  | _ i ih =>
    intro hi
    cases Nat.eq_zero_or_pos i with
    | inl h0 => rw [h0]
    | inr h1 =>
      have hp : (i-1)/2 < i := by omega
      have hpl : (i-1)/2 < A.length := by omega
      calc (A.getD 0 dE).2 ≤ (A.getD ((i-1)/2) dE).2 := ih _ hp hpl
        _ ≤ (A.getD i dE).2 := h _ i hi (childIdx_parent h1)


/-! ### Heap verification: one percolation step -/

theorem swapIdx_spec {α : Type _} [LinearOrder α] [Inhabited α]
    {n : Nat} {A : List (Nat × α)} {idx : Nat → Int} {cur : Nat × α}
    {a b : Nat} {P : Nat → Prop}
    (ha : a < A.length) (hb : b < A.length) (hab : a ≠ b)
    (hA : A.getD a dE = cur)
    (hidx : IdxGoodP n A idx P) (hPcur : ¬ P cur.1)
    (hnd : (keys A).Nodup) (hel : ElemsLt n A) :
    ((A.set a (A.getD b dE)).set b cur).Perm A ∧
    ((A.set a (A.getD b dE)).set b cur).length = A.length ∧
    ((A.set a (A.getD b dE)).set b cur).getD b dE = cur ∧
    ((A.set a (A.getD b dE)).set b cur).getD a dE = A.getD b dE ∧
    IdxGoodP n ((A.set a (A.getD b dE)).set b cur)
      (upd idx (A.getD b dE).1 (a : Int)) P ∧
    (keys ((A.set a (A.getD b dE)).set b cur)).Nodup ∧
    ElemsLt n ((A.set a (A.getD b dE)).set b cur) := by
  have hperm : ((A.set a (A.getD b dE)).set b cur).Perm A := by
    rw [← hA]
    exact swap_set_perm A a b dE ha hb
  have hlen : ((A.set a (A.getD b dE)).set b cur).length = A.length := by
    simp
  have hgb : ((A.set a (A.getD b dE)).set b cur).getD b dE = cur :=
    getD_set_self _ b cur dE (by simp [hb])
  have hga : ((A.set a (A.getD b dE)).set b cur).getD a dE = A.getD b dE := by
    rw [getD_set_ne _ b cur dE a hab]
    exact getD_set_self A a (A.getD b dE) dE ha
  have hgo : ∀ i, i ≠ a → i ≠ b →
      ((A.set a (A.getD b dE)).set b cur).getD i dE = A.getD i dE := by
    intro i hia hib
    rw [getD_set_ne _ b cur dE i hib, getD_set_ne A a _ dE i hia]
  refine ⟨hperm, hlen, hgb, hga, ?_, ?_, ?_⟩
  · intro e hen hPe
    have hecur : e ≠ cur.1 := fun h => hPcur (h ▸ hPe)
    by_cases hpe : e = (A.getD b dE).1
    · constructor
      · intro _
        rw [hpe, upd_same]
        refine ⟨?_, ?_⟩
        · rw [Int.toNat_natCast, hlen]
          exact ha
        · rw [Int.toNat_natCast, hga]
      · intro hneg
        rw [hpe, upd_same] at hneg
        omega
    · rw [upd_ne hpe]
      obtain ⟨hpos', hneg'⟩ := hidx e hen hPe
      constructor
      · intro hge
        obtain ⟨hq, hqe⟩ := hpos' hge
        have hqa : (idx e).toNat ≠ a := by
          intro hh
          rw [hh, hA] at hqe
          exact hecur hqe.symm
        have hqb : (idx e).toNat ≠ b := by
          intro hh
          rw [hh] at hqe
          exact hpe hqe.symm
        refine ⟨by rw [hlen]; exact hq, ?_⟩
        rw [hgo _ hqa hqb]
        exact hqe
      · intro hlt i hi
        rw [hlen] at hi
        by_cases hia : i = a
        · rw [hia, hga]
          exact fun h => hpe h.symm
        · by_cases hib : i = b
          · rw [hib, hgb]
            exact fun h => hecur h.symm
          · rw [hgo i hia hib]
            exact hneg' hlt i hi
  · exact ((hperm.map Prod.fst).nodup_iff).mpr hnd
  · intro p hp
    exact hel p (hperm.mem_iff.mp hp)

theorem almostUp_step {α : Type _} [LinearOrder α] [Inhabited α]
    {A : List (Nat × α)} {cur : Nat × α} {pos : Nat}
    (hpos1 : 1 ≤ pos) (hposl : pos < A.length)
    (halmost : almostUp A pos)
    (hA : A.getD pos dE = cur)
    (hcond : cur.2 < (A.getD ((pos-1)/2) dE).2) :
    almostUp ((A.set pos (A.getD ((pos-1)/2) dE)).set ((pos-1)/2) cur)
      ((pos-1)/2) := by
  have hpl : (pos-1)/2 < A.length := by omega
  have hppos : (pos-1)/2 ≠ pos := by omega
  have hlen : ((A.set pos (A.getD ((pos-1)/2) dE)).set ((pos-1)/2)
      cur).length = A.length := by simp
  have hgp : ((A.set pos (A.getD ((pos-1)/2) dE)).set ((pos-1)/2)
      cur).getD ((pos-1)/2) dE = cur :=
    getD_set_self _ _ cur dE (by simp [hpl])
  have hgpos : ((A.set pos (A.getD ((pos-1)/2) dE)).set ((pos-1)/2)
      cur).getD pos dE = A.getD ((pos-1)/2) dE := by
    rw [getD_set_ne _ _ cur dE pos (fun h => hppos h.symm)]
    exact getD_set_self A pos _ dE hposl
  have hgo : ∀ i, i ≠ (pos-1)/2 → i ≠ pos →
      ((A.set pos (A.getD ((pos-1)/2) dE)).set ((pos-1)/2) cur).getD i dE =
        A.getD i dE := by
    intro i h1 h2
    rw [getD_set_ne _ _ cur dE i h1, getD_set_ne A pos _ dE i h2]
  constructor
  · intro i j hj hij hjp
    rw [hlen] at hj
    by_cases hip : i = (pos-1)/2
    · subst hip
      rw [hgp]
      by_cases hjpos : j = pos
      · rw [hjpos, hgpos]
        exact le_of_lt hcond
      · rw [hgo j hjp hjpos]
        obtain ⟨h1, h2, h3⟩ := childIdx_unique hij
        calc cur.2 ≤ (A.getD ((pos-1)/2) dE).2 := le_of_lt hcond
          _ ≤ (A.getD j dE).2 := halmost.1 _ j hj hij hjpos
    · by_cases hipos : i = pos
      · rw [hipos, hgpos]
        obtain ⟨h1, h2, h3⟩ := childIdx_unique hij
        have hjpos : j ≠ pos := by omega
        rw [hgo j hjp hjpos]
        exact halmost.2 j hj (hipos ▸ hij) hpos1
      · have hjpos : j ≠ pos := by
          intro hh
          obtain ⟨h1, _, _⟩ := childIdx_unique hij
          rw [hh] at h1
          exact hip h1
        rw [hgo i hip hipos, hgo j hjp hjpos]
        exact halmost.1 i j hj hij hjpos
  · intro c hc hcchild hp1
    rw [hlen] at hc
    have hppu : (((pos-1)/2)-1)/2 ≠ (pos-1)/2 := by omega
    have hppu2 : (((pos-1)/2)-1)/2 ≠ pos := by omega
    rw [hgo _ hppu hppu2]
    obtain ⟨hc1, hc2, _⟩ := childIdx_unique hcchild
    have hcp : c ≠ (pos-1)/2 := by omega
    have hstep : (A.getD ((((pos-1)/2)-1)/2) dE).2 ≤
        (A.getD ((pos-1)/2) dE).2 :=
      halmost.1 _ _ hpl (childIdx_parent hp1) hppos
    by_cases hcpos : c = pos
    · rw [hcpos, hgpos]
      exact hstep
    · rw [hgo c hcp hcpos]
      calc (A.getD ((((pos-1)/2)-1)/2) dE).2 ≤ (A.getD ((pos-1)/2) dE).2 :=
          hstep
        _ ≤ (A.getD c dE).2 := halmost.1 _ c hc hcchild hcpos

theorem almostDown_step {α : Type _} [LinearOrder α] [Inhabited α]
    {A : List (Nat × α)} {cur : Nat × α} {low pos mc : Nat}
    (hlow : low ≤ pos) (hposl : pos < A.length)
    (hmc : childIdx pos mc) (hmcl : mc < A.length)
    (hminc : ∀ oc, childIdx pos oc → oc < A.length →
      (A.getD mc dE).2 ≤ (A.getD oc dE).2)
    (halmost : almostDown low pos A)
    (hA : A.getD pos dE = cur)
    (hcond : (A.getD mc dE).2 < cur.2) :
    almostDown low mc ((A.set pos (A.getD mc dE)).set mc cur) := by
  obtain ⟨hmceq, hmcgt, _⟩ := childIdx_unique hmc
  have hmpos : mc ≠ pos := by omega
  have hlen : ((A.set pos (A.getD mc dE)).set mc cur).length = A.length := by
    simp
  have hgmc : ((A.set pos (A.getD mc dE)).set mc cur).getD mc dE = cur :=
    getD_set_self _ mc cur dE (by simp [hmcl])
  have hgpos : ((A.set pos (A.getD mc dE)).set mc cur).getD pos dE =
      A.getD mc dE := by
    rw [getD_set_ne _ mc cur dE pos (fun h => hmpos h.symm)]
    exact getD_set_self A pos _ dE hposl
  have hgo : ∀ i, i ≠ mc → i ≠ pos →
      ((A.set pos (A.getD mc dE)).set mc cur).getD i dE = A.getD i dE := by
    intro i h1 h2
    rw [getD_set_ne _ mc cur dE i h1, getD_set_ne A pos _ dE i h2]
  constructor
  · intro i j hj hij hli hi
    rw [hlen] at hj
    by_cases hipos : i = pos
    · rw [hipos, hgpos]
      by_cases hjmc : j = mc
      · rw [hjmc, hgmc]
        exact le_of_lt hcond
      · have hjpos : j ≠ pos := by
          obtain ⟨_, h2, _⟩ := childIdx_unique hij
          omega
        rw [hgo j hjmc hjpos]
        exact hminc j (hipos ▸ hij) hj
    · by_cases hjpos : j = pos
      · obtain ⟨h1, _, h3⟩ := childIdx_unique hij
        rw [hjpos, hgpos]
        rw [hjpos] at h1
        have hio : i ≠ mc := hi
        rw [hgo i hio hipos, h1]
        exact halmost.2 mc hmcl hmc (hjpos ▸ h3) (h1 ▸ hli)
      · by_cases hjmc : j = mc
        · obtain ⟨h1, _, _⟩ := childIdx_unique hij
          rw [hjmc] at h1
          rw [← hmceq] at h1
          exact absurd h1 hipos
        · rw [hgo i hi hipos, hgo j hjmc hjpos]
          exact halmost.1 i j hj hij hli hipos
  · intro c hc hcchild h1mc hlowp
    rw [hlen] at hc
    obtain ⟨hc1, hc2, _⟩ := childIdx_unique hcchild
    have hparent : (mc-1)/2 = pos := (childIdx_unique hmc).1.symm
    rw [hparent, hgpos]
    have hcmc : c ≠ mc := by omega
    have hcpos : c ≠ pos := by omega
    rw [hgo c hcmc hcpos]
    have hmclow : low ≤ mc := by omega
    exact halmost.1 mc c hc hcchild hmclow hmpos


theorem percUp_exit {α : Type _} [LinearOrder α] [Inhabited α] {n : Nat}
    {heap : List (Nat × α)} {idx : Nat → Int} {cur : Nat × α} {pos : Nat}
    {P : Nat → Prop}
    (hpos : pos < heap.length)
    (hstop : ¬(1 ≤ pos ∧ cur.2 < (heap.getD ((pos-1)/2) dE).2))
    (halmost : almostUp (heap.set pos cur) pos)
    (hidx : IdxGoodP n (heap.set pos cur) idx P) :
    heapOrd (heap.set pos cur) ∧
    IdxGoodP n (heap.set pos cur) (upd idx cur.1 (pos : Int))
      (fun e => P e ∨ e = cur.1) := by
  have hlen : (heap.set pos cur).length = heap.length := by simp
  have hgp : (heap.set pos cur).getD pos dE = cur :=
    getD_set_self heap pos cur dE hpos
  constructor
  · intro i j hj hij
    by_cases hjp : j = pos
    · rw [hjp, hgp]
      obtain ⟨h1, h2, h3⟩ := childIdx_unique hij
      rw [hjp] at h1 h3
      have hnp : ¬ cur.2 < (heap.getD ((pos-1)/2) dE).2 :=
        fun hlt => hstop ⟨h3, hlt⟩
      rw [h1, getD_set_ne heap pos cur dE _ (by omega)]
      exact not_lt.mp hnp
    · exact halmost.1 i j hj hij hjp
  · intro e hen hPe
    by_cases hec : e = cur.1
    · refine ⟨fun _ => ?_, fun hlt => ?_⟩
      · rw [hec, upd_same, Int.toNat_natCast]
        refine ⟨by rw [hlen]; exact hpos, ?_⟩
        rw [hgp]
      · rw [hec, upd_same] at hlt
        exact absurd hlt (by omega)
    · have hPe' : P e := hPe.resolve_right hec
      rw [upd_ne hec]
      exact hidx e hen hPe'

theorem percUpF_spec {α : Type _} [LinearOrder α] [Inhabited α] {n : Nat} :
    ∀ (fuel : Nat) (heap : List (Nat × α)) (idx : Nat → Int) (cur : Nat × α)
      (pos : Nat) (P : Nat → Prop),
      pos < heap.length → pos ≤ fuel →
      almostUp (heap.set pos cur) pos →
      IdxGoodP n (heap.set pos cur) idx P → ¬ P cur.1 →
      (keys (heap.set pos cur)).Nodup → ElemsLt n (heap.set pos cur) →
      (percUpF fuel heap idx cur pos).1.Perm (heap.set pos cur) ∧
      (percUpF fuel heap idx cur pos).1.length = heap.length ∧
      heapOrd (percUpF fuel heap idx cur pos).1 ∧
      IdxGoodP n (percUpF fuel heap idx cur pos).1
        (percUpF fuel heap idx cur pos).2 (fun e => P e ∨ e = cur.1) ∧
      (keys (percUpF fuel heap idx cur pos).1).Nodup ∧
      ElemsLt n (percUpF fuel heap idx cur pos).1 := by
  intro fuel
  induction fuel with
  | zero =>
    intro heap idx cur pos P hpos hfuel halmost hidx hPcur hnd hel
    have hp0 : pos = 0 := Nat.le_zero.mp hfuel
    subst hp0
    have hunf : percUpF 0 heap idx cur 0 =
        (heap.set 0 cur, upd idx cur.1 ((0:Nat) : Int)) := rfl
    rw [hunf]
    obtain ⟨ho, hg⟩ := percUp_exit hpos (fun h => absurd h.1 (by omega))
      halmost hidx
    exact ⟨List.Perm.refl _, by simp, ho, hg, hnd, hel⟩
  | succ fuel ih =>
    intro heap idx cur pos P hpos hfuel halmost hidx hPcur hnd hel
    have hunf0 : percUpF (fuel+1) heap idx cur pos =
        if 1 ≤ pos ∧ cur.2 < (heap.getD ((pos-1)/2) dE).2 then
          percUpF fuel (heap.set pos (heap.getD ((pos-1)/2) dE))
            (upd idx (heap.getD ((pos-1)/2) dE).1 (pos : Int)) cur ((pos-1)/2)
        else (heap.set pos cur, upd idx cur.1 (pos : Int)) := rfl
    by_cases hc : 1 ≤ pos ∧ cur.2 < (heap.getD ((pos-1)/2) dE).2
    · obtain ⟨hp1, hlt⟩ := hc
      have hppos : (pos-1)/2 ≠ pos := by omega
      have hpl : (pos-1)/2 < heap.length := by omega
      have hAl : pos < (heap.set pos cur).length := by simpa using hpos
      have hbl : (pos-1)/2 < (heap.set pos cur).length := by simpa using hpl
      have hA : (heap.set pos cur).getD pos dE = cur :=
        getD_set_self heap pos cur dE hpos
      have hpe : (heap.set pos cur).getD ((pos-1)/2) dE =
          heap.getD ((pos-1)/2) dE :=
        getD_set_ne heap pos cur dE _ hppos
      have hkey : (heap.set pos (heap.getD ((pos-1)/2) dE)).set ((pos-1)/2)
          cur =
          ((heap.set pos cur).set pos
            ((heap.set pos cur).getD ((pos-1)/2) dE)).set ((pos-1)/2) cur := by
        rw [hpe, List.set_set]
      obtain ⟨sperm, slen, sgb, sga, sidx, snd, sel⟩ :=
        swapIdx_spec hAl hbl (fun h => hppos h.symm) hA hidx hPcur hnd hel
      have hcond : cur.2 < ((heap.set pos cur).getD ((pos-1)/2) dE).2 := by
        rw [hpe]; exact hlt
      have h1 : almostUp ((heap.set pos (heap.getD ((pos-1)/2) dE)).set
          ((pos-1)/2) cur) ((pos-1)/2) := by
        rw [hkey]
        exact almostUp_step hp1 hAl halmost hA hcond
      have hidx1 : IdxGoodP n ((heap.set pos (heap.getD ((pos-1)/2)
          dE)).set ((pos-1)/2) cur)
          (upd idx (heap.getD ((pos-1)/2) dE).1 (pos : Int)) P := by
        rw [hkey, ← hpe]
        exact sidx
      have hnd1 : (keys ((heap.set pos (heap.getD ((pos-1)/2) dE)).set
          ((pos-1)/2) cur)).Nodup := by
        rw [hkey]
        exact snd
      have hel1 : ElemsLt n ((heap.set pos (heap.getD ((pos-1)/2) dE)).set
          ((pos-1)/2) cur) := by
        rw [hkey]
        exact sel
      obtain ⟨rperm, rlen, rord, ridx, rnd, rel⟩ :=
        ih (heap.set pos (heap.getD ((pos-1)/2) dE))
          (upd idx (heap.getD ((pos-1)/2) dE).1 (pos : Int)) cur ((pos-1)/2) P
          (by simpa using hpl) (by omega) h1 hidx1 hPcur hnd1 hel1
      have hnewperm : ((heap.set pos (heap.getD ((pos-1)/2) dE)).set
          ((pos-1)/2) cur).Perm (heap.set pos cur) := by
        rw [hkey]
        exact sperm
      rw [hunf0, if_pos (And.intro hp1 hlt)]
      exact ⟨rperm.trans hnewperm, rlen.trans (by simp), rord, ridx, rnd, rel⟩
    · rw [hunf0, if_neg hc]
      obtain ⟨ho, hg⟩ := percUp_exit hpos hc halmost hidx
      exact ⟨List.Perm.refl _, by simp, ho, hg, hnd, hel⟩


/-! ### Heap verification: percolate down -/

theorem mcSel_child {α : Type _} [LinearOrder α] [Inhabited α]
    (heap : List (Nat × α)) (pos : Nat) : childIdx pos (mcSel heap pos) := by
  unfold mcSel childIdx
  split
  · exact Or.inr rfl
  · exact Or.inl rfl

theorem mcSel_lt {α : Type _} [LinearOrder α] [Inhabited α]
    (heap : List (Nat × α)) (pos : Nat) (h : 2*pos+1 < heap.length) :
    mcSel heap pos < heap.length := by
  unfold mcSel
  split
  · next hc => exact hc.1
  · exact h

theorem mcSel_min {α : Type _} [LinearOrder α] [Inhabited α]
    (heap : List (Nat × α)) (pos : Nat) :
    ∀ c, childIdx pos c → c < heap.length →
      (heap.getD (mcSel heap pos) dE).2 ≤ (heap.getD c dE).2 := by
  intro c hc hcl
  unfold childIdx at hc
  unfold mcSel
  rcases hc with h | h
  · subst h
    split
    · next hcond => exact le_of_lt hcond.2
    · exact le_refl _
  · subst h
    split
    · exact le_refl _
    · next hcond =>
      have hh : ¬ (heap.getD (2*pos+2) dE).2 < (heap.getD (2*pos+1) dE).2 :=
        fun hh => hcond ⟨hcl, hh⟩
      exact not_lt.mp hh

theorem swap_perm_of_getD {β : Type _} {A : List β} {a b : Nat} {x : β}
    (d : β) (ha : a < A.length) (hb : b < A.length)
    (hx : A.getD a d = x) :
    ((A.set a (A.getD b d)).set b x).Perm A := by
  rw [← hx]
  exact swap_set_perm A a b d ha hb

theorem downOk_of_almost {α : Type _} [LinearOrder α] [Inhabited α]
    {low pos : Nat} {heap : List (Nat × α)} {cur : Nat × α}
    (hpos : pos < heap.length)
    (hchild : ∀ c, childIdx pos c → c < heap.length →
      cur.2 ≤ (heap.getD c dE).2)
    (halmost : almostDown low pos (heap.set pos cur)) :
    downOk low (heap.set pos cur) := by
  intro i j hj hij hli
  by_cases hip : i = pos
  · obtain ⟨h1, h2, h3⟩ := childIdx_unique hij
    have hjp : j ≠ pos := by omega
    rw [hip, getD_set_self heap pos cur dE hpos,
      getD_set_ne heap pos cur dE j hjp]
    exact hchild j (hip ▸ hij) (by simpa using hj)
  · exact halmost.1 i j hj hij hli hip

theorem downOk_zero {α : Type _} [LinearOrder α] [Inhabited α]
    {A : List (Nat × α)} (h : downOk 0 A) : heapOrd A :=
  fun i j hj hij => h i j hj hij (Nat.zero_le i)

theorem idx_exit {α : Type _} [Inhabited α] {n : Nat}
    {heap : List (Nat × α)} {idx : Nat → Int} {cur : Nat × α} {pos : Nat}
    {P : Nat → Prop}
    (hpos : pos < heap.length)
    (hidx : IdxGoodP n (heap.set pos cur) idx P) :
    IdxGoodP n (heap.set pos cur) (upd idx cur.1 (pos : Int))
      (fun e => P e ∨ e = cur.1) := by
  have hlen : (heap.set pos cur).length = heap.length := by simp
  have hgp : (heap.set pos cur).getD pos dE = cur :=
    getD_set_self heap pos cur dE hpos
  intro e hen hPe
  by_cases hec : e = cur.1
  · refine ⟨fun _ => ?_, fun hlt => ?_⟩
    · rw [hec, upd_same, Int.toNat_natCast]
      refine ⟨by rw [hlen]; exact hpos, ?_⟩
      rw [hgp]
    · rw [hec, upd_same] at hlt
      exact absurd hlt (by omega)
  · have hPe' : P e := hPe.resolve_right hec
    rw [upd_ne hec]
    exact hidx e hen hPe'


theorem percDownF_spec {α : Type _} [LinearOrder α] [Inhabited α] {n : Nat} :
    ∀ (fuel : Nat) (heap : List (Nat × α)) (idx : Nat → Int) (cur : Nat × α)
      (pos : Nat) (P : Nat → Prop),
      pos < heap.length → heap.length ≤ fuel + pos →
      almostDown 0 pos (heap.set pos cur) →
      IdxGoodP n (heap.set pos cur) idx P → ¬ P cur.1 →
      (keys (heap.set pos cur)).Nodup → ElemsLt n (heap.set pos cur) →
      (percDownF fuel heap idx cur pos).1.Perm (heap.set pos cur) ∧
      (percDownF fuel heap idx cur pos).1.length = heap.length ∧
      heapOrd (percDownF fuel heap idx cur pos).1 ∧
      IdxGoodP n (percDownF fuel heap idx cur pos).1
        (percDownF fuel heap idx cur pos).2 (fun e => P e ∨ e = cur.1) ∧
      (keys (percDownF fuel heap idx cur pos).1).Nodup ∧
      ElemsLt n (percDownF fuel heap idx cur pos).1 := by
  intro fuel
  induction fuel with
  | zero =>
    intro heap idx cur pos P hpos hfuel halmost hidx hPcur hnd hel
    exact absurd hpos (by omega)
  | succ fuel ih =>
    intro heap idx cur pos P hpos hfuel halmost hidx hPcur hnd hel
    have hunf0 : percDownF (fuel+1) heap idx cur pos =
        if 2*pos+1 < heap.length then
          if (heap.getD (mcSel heap pos) dE).2 < cur.2 then
            percDownF fuel (heap.set pos (heap.getD (mcSel heap pos) dE))
              (upd idx (heap.getD (mcSel heap pos) dE).1 (pos : Int)) cur
              (mcSel heap pos)
          else (heap.set pos cur, upd idx cur.1 (pos : Int))
        else (heap.set pos cur, upd idx cur.1 (pos : Int)) := rfl
    by_cases h1 : 2*pos+1 < heap.length
    · by_cases h2 : (heap.getD (mcSel heap pos) dE).2 < cur.2
      · have hml : mcSel heap pos < heap.length := mcSel_lt heap pos h1
        have hposm : pos < mcSel heap pos :=
          (childIdx_unique (mcSel_child heap pos)).2.1
        have hmpos : mcSel heap pos ≠ pos := by omega
        have hAl : pos < (heap.set pos cur).length := by simpa using hpos
        have hbl : mcSel heap pos < (heap.set pos cur).length := by
          simpa using hml
        have hA : (heap.set pos cur).getD pos dE = cur :=
          getD_set_self heap pos cur dE hpos
        have hpe : (heap.set pos cur).getD (mcSel heap pos) dE =
            heap.getD (mcSel heap pos) dE :=
          getD_set_ne heap pos cur dE _ hmpos
        have hkey : (heap.set pos (heap.getD (mcSel heap pos) dE)).set
            (mcSel heap pos) cur =
            ((heap.set pos cur).set pos
              ((heap.set pos cur).getD (mcSel heap pos) dE)).set
              (mcSel heap pos) cur := by
          rw [hpe, List.set_set]
        obtain ⟨sperm, slen, sgb, sga, sidx, snd, sel⟩ :=
          swapIdx_spec hAl hbl (by omega) hA hidx hPcur hnd hel
        have hminc : ∀ oc, childIdx pos oc →
            oc < (heap.set pos cur).length →
            ((heap.set pos cur).getD (mcSel heap pos) dE).2 ≤
              ((heap.set pos cur).getD oc dE).2 := by
          intro oc hoc hocl
          have hocne : oc ≠ pos := by
            have := (childIdx_unique hoc).2.1
            omega
          rw [hpe, getD_set_ne heap pos cur dE oc hocne]
          exact mcSel_min heap pos oc hoc (by simpa using hocl)
        have hcond : ((heap.set pos cur).getD (mcSel heap pos) dE).2 <
            cur.2 := by
          rw [hpe]; exact h2
        have hstep : almostDown 0 (mcSel heap pos)
            ((heap.set pos (heap.getD (mcSel heap pos) dE)).set
              (mcSel heap pos) cur) := by
          rw [hkey]
          exact almostDown_step (Nat.zero_le pos) hAl (mcSel_child heap pos)
            hbl hminc halmost hA hcond
        have hidx1 : IdxGoodP n
            ((heap.set pos (heap.getD (mcSel heap pos) dE)).set
              (mcSel heap pos) cur)
            (upd idx (heap.getD (mcSel heap pos) dE).1 (pos : Int)) P := by
          rw [hkey, ← hpe]
          exact sidx
        have hnd1 : (keys ((heap.set pos (heap.getD (mcSel heap pos)
            dE)).set (mcSel heap pos) cur)).Nodup := by
          rw [hkey]
          exact snd
        have hel1 : ElemsLt n ((heap.set pos (heap.getD (mcSel heap pos)
            dE)).set (mcSel heap pos) cur) := by
          rw [hkey]
          exact sel
        obtain ⟨rperm, rlen, rord, ridx, rnd, rel⟩ :=
          ih (heap.set pos (heap.getD (mcSel heap pos) dE))
            (upd idx (heap.getD (mcSel heap pos) dE).1 (pos : Int)) cur
            (mcSel heap pos) P (by simpa using hml) (by simp; omega) hstep
            hidx1 hPcur hnd1 hel1
        have hnewperm : ((heap.set pos (heap.getD (mcSel heap pos) dE)).set
            (mcSel heap pos) cur).Perm (heap.set pos cur) := by
          rw [hkey]
          exact sperm
        rw [hunf0, if_pos h1, if_pos h2]
        exact ⟨rperm.trans hnewperm, rlen.trans (by simp), rord, ridx, rnd,
          rel⟩
      · rw [hunf0, if_pos h1, if_neg h2]
        have hchild : ∀ c, childIdx pos c → c < heap.length →
            cur.2 ≤ (heap.getD c dE).2 := by
          intro c hc hcl
          exact le_trans (not_lt.mp h2) (mcSel_min heap pos c hc hcl)
        exact ⟨List.Perm.refl _, by simp,
          downOk_zero (downOk_of_almost hpos hchild halmost),
          idx_exit hpos hidx, hnd, hel⟩
    · rw [hunf0, if_neg h1]
      have hchild : ∀ c, childIdx pos c → c < heap.length →
          cur.2 ≤ (heap.getD c dE).2 := by
        intro c hc hcl
        unfold childIdx at hc
        exact absurd hcl (by omega)
      exact ⟨List.Perm.refl _, by simp,
        downOk_zero (downOk_of_almost hpos hchild halmost),
        idx_exit hpos hidx, hnd, hel⟩


theorem percDownNIF_spec {α : Type _} [LinearOrder α] [Inhabited α] :
    ∀ (fuel : Nat) (heap : List (Nat × α)) (cur : Nat × α) (pos low : Nat),
      pos < heap.length → heap.length ≤ fuel + pos → low ≤ pos →
      almostDown low pos (heap.set pos cur) →
      (percDownNIF fuel heap cur pos).Perm (heap.set pos cur) ∧
      (percDownNIF fuel heap cur pos).length = heap.length ∧
      downOk low (percDownNIF fuel heap cur pos) := by
  intro fuel
  induction fuel with
  | zero =>
    intro heap cur pos low hpos hfuel hlow halmost
    exact absurd hpos (by omega)
  | succ fuel ih =>
    intro heap cur pos low hpos hfuel hlow halmost
    have hunf0 : percDownNIF (fuel+1) heap cur pos =
        if 2*pos+1 < heap.length then
          if (heap.getD (mcSel heap pos) dE).2 < cur.2 then
            percDownNIF fuel (heap.set pos (heap.getD (mcSel heap pos) dE))
              cur (mcSel heap pos)
          else heap.set pos cur
        else heap.set pos cur := rfl
    by_cases h1 : 2*pos+1 < heap.length
    · by_cases h2 : (heap.getD (mcSel heap pos) dE).2 < cur.2
      · have hml : mcSel heap pos < heap.length := mcSel_lt heap pos h1
        have hposm : pos < mcSel heap pos :=
          (childIdx_unique (mcSel_child heap pos)).2.1
        have hmpos : mcSel heap pos ≠ pos := by omega
        have hAl : pos < (heap.set pos cur).length := by simpa using hpos
        have hbl : mcSel heap pos < (heap.set pos cur).length := by
          simpa using hml
        have hA : (heap.set pos cur).getD pos dE = cur :=
          getD_set_self heap pos cur dE hpos
        have hpe : (heap.set pos cur).getD (mcSel heap pos) dE =
            heap.getD (mcSel heap pos) dE :=
          getD_set_ne heap pos cur dE _ hmpos
        have hkey : (heap.set pos (heap.getD (mcSel heap pos) dE)).set
            (mcSel heap pos) cur =
            ((heap.set pos cur).set pos
              ((heap.set pos cur).getD (mcSel heap pos) dE)).set
              (mcSel heap pos) cur := by
          rw [hpe, List.set_set]
        have hminc : ∀ oc, childIdx pos oc →
            oc < (heap.set pos cur).length →
            ((heap.set pos cur).getD (mcSel heap pos) dE).2 ≤
              ((heap.set pos cur).getD oc dE).2 := by
          intro oc hoc hocl
          have hocne : oc ≠ pos := by
            have := (childIdx_unique hoc).2.1
            omega
          rw [hpe, getD_set_ne heap pos cur dE oc hocne]
          exact mcSel_min heap pos oc hoc (by simpa using hocl)
        have hcond : ((heap.set pos cur).getD (mcSel heap pos) dE).2 <
            cur.2 := by
          rw [hpe]; exact h2
        have hstep : almostDown low (mcSel heap pos)
            ((heap.set pos (heap.getD (mcSel heap pos) dE)).set
              (mcSel heap pos) cur) := by
          rw [hkey]
          exact almostDown_step hlow hAl (mcSel_child heap pos) hbl hminc
            halmost hA hcond
        obtain ⟨rperm, rlen, rord⟩ :=
          ih (heap.set pos (heap.getD (mcSel heap pos) dE)) cur
            (mcSel heap pos) low (by simpa using hml) (by simp; omega)
            (by omega) hstep
        have hnewperm : ((heap.set pos (heap.getD (mcSel heap pos) dE)).set
            (mcSel heap pos) cur).Perm (heap.set pos cur) := by
          rw [hkey]
          exact swap_perm_of_getD dE hAl hbl hA
        rw [hunf0, if_pos h1, if_pos h2]
        exact ⟨rperm.trans hnewperm, rlen.trans (by simp), rord⟩
      · rw [hunf0, if_pos h1, if_neg h2]
        have hchild : ∀ c, childIdx pos c → c < heap.length →
            cur.2 ≤ (heap.getD c dE).2 := by
          intro c hc hcl
          exact le_trans (not_lt.mp h2) (mcSel_min heap pos c hc hcl)
        exact ⟨List.Perm.refl _, by simp, downOk_of_almost hpos hchild
          halmost⟩
    · rw [hunf0, if_neg h1]
      have hchild : ∀ c, childIdx pos c → c < heap.length →
          cur.2 ≤ (heap.getD c dE).2 := by
        intro c hc hcl
        unfold childIdx at hc
        exact absurd hcl (by omega)
      exact ⟨List.Perm.refl _, by simp, downOk_of_almost hpos hchild
            halmost⟩

theorem downOk_init {α : Type _} [LinearOrder α] [Inhabited α]
    (heap : List (Nat × α)) : downOk (heap.length / 2) heap := by
  intro i j hj hij hlow
  unfold childIdx at hij
  exact absurd hj (by omega)

theorem heapifyLoop_spec {α : Type _} [LinearOrder α] [Inhabited α] :
    ∀ (k : Nat) (heap : List (Nat × α)), 2*k ≤ heap.length →
      downOk k heap →
      (heapifyLoop k heap).Perm heap ∧
      (heapifyLoop k heap).length = heap.length ∧
      downOk 0 (heapifyLoop k heap) := by
  intro k
  induction k with
  | zero =>
    intro heap hk hok
    exact ⟨List.Perm.refl _, rfl, hok⟩
  | succ k ih =>
    intro heap hk hok
    have hkl : k < heap.length := by omega
    have hself : heap.set k (heap.getD k dE) = heap :=
      set_getD_self hkl dE
    have halmost : almostDown k k (heap.set k (heap.getD k dE)) := by
      rw [hself]
      constructor
      · intro i j hj hij hki hik
        exact hok i j hj hij (by omega)
      · intro c hc hcchild h1k hkk
        exact absurd hkk (by omega)
    obtain ⟨pperm, plen, pok⟩ :=
      percDownNIF_spec heap.length heap (heap.getD k dE) k k hkl
        (by omega) (le_refl k) halmost
    rw [hself] at pperm
    have hunf : heapifyLoop (k+1) heap =
        heapifyLoop k (percDownNIF heap.length heap (heap.getD k dE) k) :=
      rfl
    have hok' : downOk k (percDownNIF heap.length heap (heap.getD k dE)
        k) := by
      intro i j hj hij hki
      exact pok i j hj hij hki
    obtain ⟨rperm, rlen, rok⟩ :=
      ih (percDownNIF heap.length heap (heap.getD k dE) k)
        (by rw [plen]; omega) hok'
    rw [hunf]
    exact ⟨rperm.trans pperm, rlen.trans plen, rok⟩


/-! ### Heap verification: index rebuild -/

theorem foldlUpd_not_mem {α : Type _} :
    ∀ (l : List (Nat × α)) (k : Nat) (f : Nat → Int) (e : Nat),
      e ∉ keys l →
      ((l.enumFrom k).foldl (fun g p => upd g p.2.1 (p.1 : Int)) f) e =
        f e := by
  intro l
  induction l with
  | nil => intro k f e hmem; rfl
  | cons x t ih =>
    intro k f e hmem
    simp only [keys, List.map_cons, List.mem_cons, not_or] at hmem
    rw [List.enumFrom_cons, List.foldl_cons]
    rw [ih (k+1) _ e hmem.2]
    show upd f x.1 ((k : Nat) : Int) e = f e
    exact upd_ne hmem.1

theorem foldlUpd_mem {α : Type _} [Inhabited α] :
    ∀ (l : List (Nat × α)) (k : Nat) (f : Nat → Int) (i : Nat) (e : Nat),
      (keys l).Nodup → i < l.length → (l.getD i dE).1 = e →
      ((l.enumFrom k).foldl (fun g p => upd g p.2.1 (p.1 : Int)) f) e =
        ((k + i : Nat) : Int) := by
  intro l
  induction l with
  | nil => intro k f i e hnd hi; simp at hi
  | cons x t ih =>
    intro k f i e hnd hi hie
    rw [List.enumFrom_cons, List.foldl_cons]
    simp only [keys, List.map_cons] at hnd
    cases i with
    | zero =>
      have hx : x.1 = e := by simpa using hie
      have hnotin : e ∉ keys t := by
        rw [← hx]
        exact (List.nodup_cons.mp hnd).1
      rw [foldlUpd_not_mem t (k+1) _ e hnotin]
      show upd f x.1 ((k : Nat) : Int) e = ((k + 0 : Nat) : Int)
      rw [upd_eq_of hx.symm]
      simp
    | succ j =>
      have hnd' : (keys t).Nodup := (List.nodup_cons.mp hnd).2
      have hj : j < t.length := by
        simp only [List.length_cons] at hi
        omega
      have hje : (t.getD j dE).1 = e := by simpa using hie
      rw [ih (k+1) _ j e hnd' hj hje]
      exact congrArg (fun m : Nat => (m : Int)) (by omega)

theorem rebuildIdx_good {α : Type _} [Inhabited α] {n : Nat}
    {heap : List (Nat × α)} {idx : Nat → Int}
    (hnd : (keys heap).Nodup)
    (hin : ∀ e, e < n → 0 ≤ idx e → e ∈ keys heap) :
    IdxGood n heap (rebuildIdx idx heap) := by
  have hre : rebuildIdx idx heap =
      (heap.enumFrom 0).foldl (fun g p => upd g p.2.1 (p.1 : Int)) idx :=
    rfl
  intro e hen
  by_cases hmem : e ∈ keys heap
  · obtain ⟨i, hi, hie⟩ := key_mem_iff.mp hmem
    have hv : rebuildIdx idx heap e = ((0 + i : Nat) : Int) := by
      rw [hre]
      exact foldlUpd_mem heap 0 idx i e hnd hi hie
    rw [Nat.zero_add] at hv
    constructor
    · intro _
      rw [hv, Int.toNat_natCast]
      exact ⟨hi, hie⟩
    · intro hlt
      rw [hv] at hlt
      exact absurd hlt (by omega)
  · have hv : rebuildIdx idx heap e = idx e := by
      rw [hre]
      exact foldlUpd_not_mem heap 0 idx e hmem
    constructor
    · intro hge
      rw [hv] at hge
      exact absurd (hin e hen hge) hmem
    · intro _ i hi hcontra
      exact hmem (key_mem_iff.mpr ⟨i, hi, hcontra⟩)


/-! ### Heap verification: observational helpers -/

theorem idxGoodP_of_good {α : Type _} [Inhabited α] {n : Nat}
    {A : List (Nat × α)} {idx : Nat → Int} (P : Nat → Prop)
    (h : IdxGood n A idx) : IdxGoodP n A idx P :=
  fun e hen _ => h e hen

theorem idxGood_of_ne {α : Type _} [Inhabited α] {n : Nat}
    {A : List (Nat × α)} {idx : Nat → Int} {c : Nat}
    (h : IdxGoodP n A idx (fun e => e ≠ c ∨ e = c)) : IdxGood n A idx :=
  fun e hen => h e hen (Or.symm (eq_or_ne e c))

theorem containsIff {α : Type _} [Inhabited α] {n : Nat}
    {A : List (Nat × α)} {idx : Nat → Int}
    (hidx : IdxGood n A idx) {e : Nat} (he : e < n) :
    0 ≤ idx e ↔ e ∈ keys A := by
  constructor
  · intro hge
    obtain ⟨hq, hqe⟩ := (hidx e he).1 hge
    exact key_mem_iff.mpr ⟨_, hq, hqe⟩
  · intro hmem
    by_contra hlt
    obtain ⟨i, hi, hie⟩ := key_mem_iff.mp hmem
    exact (hidx e he).2 (by omega) i hi hie

theorem mem_key_unique {α : Type _} [Inhabited α] {A : List (Nat × α)}
    (hnd : (keys A).Nodup) {p q : Nat × α} (hp : p ∈ A) (hq : q ∈ A)
    (hk : p.1 = q.1) : p = q := by
  obtain ⟨i, hi, hpi⟩ := (mem_iff_getD dE).mp hp
  obtain ⟨j, hj, hqj⟩ := (mem_iff_getD dE).mp hq
  have hij : i = j := keys_inj hnd hi hj (by rw [hpi, hqj]; exact hk)
  rw [← hpi, ← hqj, hij]

theorem getPriority_pos {α : Type _} [LinearOrder α] [Inhabited α]
    {s : PQInts α} {e : Nat}
    (hq : (s.index e).toNat < s.minheap.length) (hge : 0 ≤ s.index e) :
    s.getPriority e = some ((s.minheap.getD (s.index e).toNat dE).2) := by
  unfold PQInts.getPriority pyIndex
  rw [if_neg (by omega)]
  rw [List.get?_eq_getElem?, List.getElem?_eq_getElem hq,
    getD_eq_getElem hq]
  rfl

theorem obs_of_inv {α : Type _} [LinearOrder α] [Inhabited α]
    {s t : PQInts α} (hs : InvPQ s) (ht : InvPQ t) (hn : s.n = t.n)
    (hperm : s.minheap.Perm t.minheap) : obsEq s t := by
  obtain ⟨hso, hsi, hsnd, hsel⟩ := hs
  obtain ⟨hto, hti, htnd, htel⟩ := ht
  refine ⟨hn, fun e hen => ?_⟩
  have hen' : e < t.n := hn ▸ hen
  have hmem : e ∈ keys s.minheap ↔ e ∈ keys t.minheap := by
    unfold keys
    exact (hperm.map Prod.fst).mem_iff
  have hciff : (0 ≤ s.index e) ↔ (0 ≤ t.index e) :=
    (containsIff hsi hen).trans (hmem.trans (containsIff hti hen').symm)
  constructor
  · unfold PQInts.contains
    exact decide_eq_decide.mpr hciff
  · intro hc
    have hge : 0 ≤ s.index e := by
      unfold PQInts.contains at hc
      exact of_decide_eq_true hc
    have hge' : 0 ≤ t.index e := hciff.mp hge
    obtain ⟨hq, hqe⟩ := (hsi e hen).1 hge
    obtain ⟨hq', hqe'⟩ := (hti e hen').1 hge'
    rw [getPriority_pos hq hge, getPriority_pos hq' hge']
    have hps : s.minheap.getD (s.index e).toNat dE ∈ s.minheap :=
      getD_mem hq dE
    have hpt : t.minheap.getD (t.index e).toNat dE ∈ t.minheap :=
      getD_mem hq' dE
    have hps' : s.minheap.getD (s.index e).toNat dE ∈ t.minheap :=
      hperm.mem_iff.mp hps
    have heq : s.minheap.getD (s.index e).toNat dE =
        t.minheap.getD (t.index e).toNat dE :=
      mem_key_unique htnd hps' hpt (by rw [hqe, hqe'])
    rw [heq]


/-! ### Heap verification: the operations preserve the invariant -/

theorem insert_spec {α : Type _} [LinearOrder α] [Inhabited α]
    {s : PQInts α} {el : Nat} {v : α}
    (hinv : InvPQ s) (hel : el < s.n) :
    InvPQ (s.insert el v).1 ∧ (s.insert el v).1.n = s.n ∧
    ((0 ≤ s.index el ∧ (s.insert el v).1 = s) ∨
     (s.index el < 0 ∧
       (s.insert el v).1.minheap.Perm (s.minheap ++ [(el, v)]))) := by
  obtain ⟨ho, hi, hnd, hell⟩ := hinv
  by_cases hc : 0 ≤ s.index el
  · have hres : (s.insert el v).1 = s := by
      unfold PQInts.insert
      rw [if_pos hc]
    rw [hres]
    exact ⟨⟨ho, hi, hnd, hell⟩, rfl, Or.inl ⟨hc, rfl⟩⟩
  · have hlt : s.index el < 0 := by omega
    have hnotin : el ∉ keys s.minheap := by
      intro hmem
      exact absurd ((containsIff hi hel).mpr hmem) hc
    have hcur : (s.minheap ++ [(el, v)]).getD s.minheap.length dE =
        (el, v) :=
      getD_append_len s.minheap (el, v) dE
    have hres2 : (s.insert el v).1 = ⟨s.n,
        (percUpF s.minheap.length (s.minheap ++ [(el, v)]) s.index
          ((s.minheap ++ [(el, v)]).getD s.minheap.length dE)
          s.minheap.length).1,
        (percUpF s.minheap.length (s.minheap ++ [(el, v)]) s.index
          ((s.minheap ++ [(el, v)]).getD s.minheap.length dE)
          s.minheap.length).2⟩ := by
      unfold PQInts.insert
      rw [if_neg hc]
      rfl
    rw [hcur] at hres2
    have hAH : (s.minheap ++ [(el, v)]).set s.minheap.length (el, v) =
        s.minheap ++ [(el, v)] := by
      have hAH0 : (s.minheap ++ [(el, v)]).set s.minheap.length
          ((s.minheap ++ [(el, v)]).getD s.minheap.length dE) =
          s.minheap ++ [(el, v)] := set_getD_self (by simp) dE
      rw [hcur] at hAH0
      exact hAH0
    have hpos : s.minheap.length < (s.minheap ++ [(el, v)]).length := by
      simp
    have halmost : almostUp ((s.minheap ++ [(el, v)]).set s.minheap.length
        (el, v)) s.minheap.length := by
      rw [hAH]
      constructor
      · intro i j hj hij hjL
        simp only [List.length_append, List.length_cons,
          List.length_nil] at hj
        have hjl : j < s.minheap.length := by omega
        have hil : i < s.minheap.length := by
          have := (childIdx_unique hij).2.1
          omega
        rw [getD_append_left hjl dE, getD_append_left hil dE]
        exact ho i j hjl hij
      · intro c hc2 hcc h1L
        unfold childIdx at hcc
        simp only [List.length_append, List.length_cons,
          List.length_nil] at hc2
        exact absurd hc2 (by omega)
    have hidxP : IdxGoodP s.n ((s.minheap ++ [(el, v)]).set
        s.minheap.length (el, v)) s.index (fun e => e ≠ el) := by
      rw [hAH]
      intro e hen hne
      obtain ⟨hp, hn2⟩ := hi e hen
      constructor
      · intro hge
        obtain ⟨hq, hqe⟩ := hp hge
        refine ⟨by simp; omega, ?_⟩
        rw [getD_append_left hq dE]
        exact hqe
      · intro hlt2 i hi2
        simp only [List.length_append, List.length_cons,
          List.length_nil] at hi2
        by_cases hig : i < s.minheap.length
        · rw [getD_append_left hig dE]
          exact hn2 hlt2 i hig
        · have hieq : i = s.minheap.length := by omega
          rw [hieq, hcur]
          exact fun h => hne h.symm
    have hndH : (keys ((s.minheap ++ [(el, v)]).set s.minheap.length
        (el, v))).Nodup := by
      rw [hAH]
      unfold keys
      rw [List.map_append, List.nodup_append]
      refine ⟨hnd, by simp, ?_⟩
      intro a ha hb
      simp at hb
      rw [hb] at ha
      exact hnotin ha
    have helH : ElemsLt s.n ((s.minheap ++ [(el, v)]).set
        s.minheap.length (el, v)) := by
      rw [hAH]
      intro p hp
      rcases List.mem_append.mp hp with h | h
      · exact hell p h
      · simp at h
        rw [h]
        exact hel
    obtain ⟨rp, rl, rord, ridx, rnd, rel⟩ :=
      percUpF_spec s.minheap.length (s.minheap ++ [(el, v)]) s.index
        (el, v) s.minheap.length (fun e => e ≠ el) hpos
        (le_refl s.minheap.length) halmost hidxP (fun h => h rfl) hndH helH
    rw [hAH] at rp
    refine ⟨?_, ?_, Or.inr ⟨hlt, ?_⟩⟩
    · rw [hres2]
      exact ⟨rord, idxGood_of_ne ridx, rnd, rel⟩
    · rw [hres2]
    · rw [hres2]
      exact rp


theorem heapify_spec {α : Type _} [LinearOrder α] [Inhabited α]
    {s : PQInts α}
    (hnd : (keys s.minheap).Nodup) (hell : ElemsLt s.n s.minheap)
    (hin : ∀ e, e < s.n → 0 ≤ s.index e → e ∈ keys s.minheap) :
    InvPQ s.heapify ∧ s.heapify.n = s.n ∧
    s.heapify.minheap.Perm s.minheap := by
  obtain ⟨lperm, llen, lok⟩ :=
    heapifyLoop_spec (s.minheap.length / 2) s.minheap (by omega)
      (downOk_init s.minheap)
  have hnd' : (keys (heapifyLoop (s.minheap.length / 2)
      s.minheap)).Nodup :=
    ((lperm.map Prod.fst).nodup_iff).mpr hnd
  have hin' : ∀ e, e < s.n → 0 ≤ s.index e →
      e ∈ keys (heapifyLoop (s.minheap.length / 2) s.minheap) :=
    fun e hen hge => ((lperm.map Prod.fst).mem_iff).mpr (hin e hen hge)
  exact ⟨⟨downOk_zero lok, rebuildIdx_good hnd' hin', hnd',
    fun p hp => hell p (lperm.mem_iff.mp hp)⟩, rfl, lperm⟩

theorem foldl_append_if {β : Type _} (q : β → Prop) [DecidablePred q] :
    ∀ (l acc : List β),
      l.foldl (fun h p => if q p then h ++ [p] else h) acc =
        acc ++ l.filter (fun p => decide (q p)) := by
  intro l
  induction l with
  | nil => intro acc; simp
  | cons x t ih =>
    intro acc
    rw [List.foldl_cons, List.filter_cons]
    by_cases hq : q x
    · rw [if_pos hq, ih, if_pos (decide_eq_true hq), List.append_assoc]
      rfl
    · rw [if_neg hq, ih, if_neg (by simpa using hq)]

theorem foldInsert_spec {α : Type _} [LinearOrder α] [Inhabited α] :
    ∀ (pairs : List (Nat × α)) (s : PQInts α),
      InvPQ s → (∀ p ∈ pairs, p.1 < s.n) → (pairs.map Prod.fst).Nodup →
      InvPQ (foldInsert s pairs) ∧ (foldInsert s pairs).n = s.n ∧
      (foldInsert s pairs).minheap.Perm
        (s.minheap ++ pairs.filter (fun r => decide (s.index r.1 < 0))) := by
  intro pairs
  induction pairs with
  | nil =>
    intro s hinv _ _
    refine ⟨hinv, rfl, ?_⟩
    simp only [List.filter_nil, List.append_nil]
    exact List.Perm.refl s.minheap
  | cons p rest ih =>
    intro s hinv hrange hndp
    have hp : p.1 < s.n := hrange p (List.mem_cons_self p rest)
    obtain ⟨qinv, qn, qcase⟩ := insert_spec hinv hp
    have hfold : foldInsert s (p :: rest) =
        foldInsert (s.insert p.1 p.2).1 rest := rfl
    have hrange' : ∀ r ∈ rest, r.1 < (s.insert p.1 p.2).1.n := by
      rw [qn]
      exact fun r hr => hrange r (List.mem_cons_of_mem p hr)
    simp only [List.map_cons, List.nodup_cons] at hndp
    obtain ⟨rinv, rn, rperm⟩ := ih (s.insert p.1 p.2).1 qinv hrange' hndp.2
    rcases qcase with ⟨hge, qeq⟩ | ⟨hneg, qperm⟩
    · have hfp : ¬ (decide (s.index p.1 < 0) = true) := by
        simp
        omega
      refine ⟨by rw [hfold]; exact rinv, by rw [hfold, rn, qn], ?_⟩
      rw [hfold, List.filter_cons, if_neg hfp, qeq]
      rw [qeq] at rperm
      exact rperm
    · have hfiltereq : rest.filter
          (fun r => decide ((s.insert p.1 p.2).1.index r.1 < 0)) =
          rest.filter (fun r => decide (s.index r.1 < 0)) := by
        apply List.filter_congr
        intro r hr
        have hrn : r.1 < s.n := hrange r (List.mem_cons_of_mem p hr)
        have hrne : r.1 ≠ p.1 :=
          fun h => hndp.1 (h ▸ List.mem_map_of_mem Prod.fst hr)
        have hmemiff : r.1 ∈ keys (s.insert p.1 p.2).1.minheap ↔
            r.1 ∈ keys s.minheap := by
          unfold keys
          rw [(qperm.map Prod.fst).mem_iff, List.map_append,
            List.mem_append]
          constructor
          · intro h
            rcases h with h | h
            · exact h
            · simp at h
              exact absurd h hrne
          · exact Or.inl
        have hiff : ((s.insert p.1 p.2).1.index r.1 < 0) ↔
            (s.index r.1 < 0) := by
          have h1 : (0 ≤ (s.insert p.1 p.2).1.index r.1) ↔
              (0 ≤ s.index r.1) :=
            (containsIff qinv.2.1 (by rw [qn]; exact hrn)).trans
              (hmemiff.trans (containsIff hinv.2.1 hrn).symm)
          omega
        exact decide_eq_decide.mpr hiff
      refine ⟨by rw [hfold]; exact rinv, by rw [hfold, rn, qn], ?_⟩
      rw [hfold, List.filter_cons, if_pos (decide_eq_true hneg)]
      rw [hfiltereq] at rperm
      have h2 : ((s.insert p.1 p.2).1.minheap ++
          rest.filter (fun r => decide (s.index r.1 < 0))).Perm
          ((s.minheap ++ [p]) ++
            rest.filter (fun r => decide (s.index r.1 < 0))) :=
        qperm.append_right _
      have h3 : (s.minheap ++ [p]) ++
          rest.filter (fun r => decide (s.index r.1 < 0)) =
          s.minheap ++ (p :: rest.filter
            (fun r => decide (s.index r.1 < 0))) := by
        rw [List.append_assoc]
        rfl
      rw [← h3]
      exact rperm.trans h2

theorem insertAll_spec {α : Type _} [LinearOrder α] [Inhabited α]
    {s : PQInts α} {pairs : List (Nat × α)}
    (hinv : InvPQ s) (hrange : ∀ p ∈ pairs, p.1 < s.n)
    (hndp : (pairs.map Prod.fst).Nodup) :
    InvPQ (s.insertAll pairs) ∧ (s.insertAll pairs).n = s.n ∧
    (s.insertAll pairs).minheap.Perm
      (s.minheap ++ pairs.filter (fun r => decide (s.index r.1 < 0))) := by
  obtain ⟨ho, hi, hnd, hell⟩ := hinv
  by_cases hb : s.minheap.length ≤ pairs.length
  · have hres : s.insertAll pairs = PQInts.heapify ⟨s.n,
        pairs.foldl (fun h p => if s.index p.1 < 0 then h ++ [p] else h)
          s.minheap, s.index⟩ := by
      unfold PQInts.insertAll
      rw [if_pos hb]
    have hfold : pairs.foldl
        (fun h p => if s.index p.1 < 0 then h ++ [p] else h) s.minheap =
        s.minheap ++ pairs.filter (fun r => decide (s.index r.1 < 0)) :=
      foldl_append_if _ pairs s.minheap
    have hndc : (keys (s.minheap ++ pairs.filter
        (fun r => decide (s.index r.1 < 0)))).Nodup := by
      unfold keys
      rw [List.map_append, List.nodup_append]
      refine ⟨hnd, ?_, ?_⟩
      · exact (List.Nodup.sublist ((List.filter_sublist pairs).map
          Prod.fst) hndp)
      · intro a ha hb2
        obtain ⟨r, hrmem, hra⟩ := List.mem_map.mp hb2
        have hrf := List.mem_filter.mp hrmem
        have hrneg : s.index r.1 < 0 := of_decide_eq_true hrf.2
        have hrn : r.1 < s.n := hrange r hrf.1
        have : r.1 ∉ keys s.minheap := by
          intro hmem
          have := (containsIff hi hrn).mpr hmem
          omega
        rw [hra] at this
        exact this ha
    have hellc : ElemsLt s.n (s.minheap ++ pairs.filter
        (fun r => decide (s.index r.1 < 0))) := by
      intro p hp
      rcases List.mem_append.mp hp with h | h
      · exact hell p h
      · exact hrange p (List.mem_filter.mp h).1
    have hinc : ∀ e, e < s.n → 0 ≤ s.index e →
        e ∈ keys (s.minheap ++ pairs.filter
          (fun r => decide (s.index r.1 < 0))) := by
      intro e hen hge
      unfold keys
      rw [List.map_append, List.mem_append]
      exact Or.inl ((containsIff hi hen).mp hge)
    obtain ⟨hinv2, hn2, hperm2⟩ :=
      heapify_spec (s := ⟨s.n, s.minheap ++ pairs.filter
        (fun r => decide (s.index r.1 < 0)), s.index⟩) hndc hellc hinc
    rw [hres, hfold]
    exact ⟨hinv2, hn2, hperm2⟩
  · have hres : s.insertAll pairs = foldInsert s pairs := by
      unfold PQInts.insertAll foldInsert
      rw [if_neg hb]
    rw [hres]
    exact foldInsert_spec pairs s ⟨ho, hi, hnd, hell⟩ hrange hndp


theorem keys_set_key {α : Type _} [Inhabited α] {A : List (Nat × α)}
    {i : Nat} {e : Nat} {w : α}
    (hi : i < A.length) (he : (A.getD i dE).1 = e) :
    keys (A.set i (e, w)) = keys A := by
  unfold keys
  rw [List.map_set]
  show (A.map Prod.fst).set i e = A.map Prod.fst
  have hk : (A.map Prod.fst).getD i 0 = e := by
    rw [getD_eq_getElem (by simpa using hi) 0]
    rw [getD_eq_getElem hi dE] at he
    rw [List.getElem_map Prod.fst]
    exact he
  rw [← hk]
  exact set_getD_self (by simpa using hi) 0

theorem chg_spec {α : Type _} [LinearOrder α] [Inhabited α]
    {s : PQInts α} {el : Nat} {v : α}
    (hinv : InvPQ s) (helr : el < s.n) :
    InvPQ (s.changePriority el v).1 ∧ (s.changePriority el v).1.n = s.n := by
  obtain ⟨ho, hi, hnd, hell⟩ := hinv
  by_cases h1 : 0 ≤ s.index el
  · obtain ⟨hq, hqe⟩ := (hi el helr).1 h1
    have hset : (s.minheap.set (s.index el).toNat (el, v)).set
        (s.index el).toNat (el, v) =
        s.minheap.set (s.index el).toNat (el, v) := by
      rw [List.set_set]
    have hlen : (s.minheap.set (s.index el).toNat (el, v)).length =
        s.minheap.length := by simp
    have hgpos : (s.minheap.set (s.index el).toNat (el, v)).getD
        (s.index el).toNat dE = (el, v) :=
      getD_set_self s.minheap _ (el, v) dE hq
    have hgo : ∀ j, j ≠ (s.index el).toNat →
        (s.minheap.set (s.index el).toNat (el, v)).getD j dE =
          s.minheap.getD j dE :=
      fun j hj => getD_set_ne s.minheap _ (el, v) dE j hj
    have hidxP : IdxGoodP s.n ((s.minheap.set (s.index el).toNat
        (el, v)).set (s.index el).toNat (el, v)) s.index
        (fun e => e ≠ el) := by
      rw [hset]
      intro e hen hne
      obtain ⟨hp2, hn2⟩ := hi e hen
      constructor
      · intro hge
        obtain ⟨hq2, hqe2⟩ := hp2 hge
        have hne2 : (s.index e).toNat ≠ (s.index el).toNat := by
          intro hh
          rw [hh, hqe] at hqe2
          exact hne hqe2.symm
        refine ⟨by rw [hlen]; exact hq2, ?_⟩
        rw [hgo _ hne2]
        exact hqe2
      · intro hlt i hil
        rw [hlen] at hil
        by_cases hip : i = (s.index el).toNat
        · rw [hip, hgpos]
          exact fun h => hne h.symm
        · rw [hgo i hip]
          exact hn2 hlt i hil
    have hndH : (keys ((s.minheap.set (s.index el).toNat (el, v)).set
        (s.index el).toNat (el, v))).Nodup := by
      rw [hset, keys_set_key hq hqe]
      exact hnd
    have helH : ElemsLt s.n ((s.minheap.set (s.index el).toNat
        (el, v)).set (s.index el).toNat (el, v)) := by
      rw [hset]
      intro p hp
      rcases List.mem_or_eq_of_mem_set hp with h | h
      · exact hell p h
      · rw [h]
        exact helr
    by_cases h2 : v < (s.minheap.getD (s.index el).toNat dE).2
    · have hres : (s.changePriority el v).1 = ⟨s.n,
          (percUpF (s.index el).toNat
            (s.minheap.set (s.index el).toNat (el, v)) s.index (el, v)
            (s.index el).toNat).1,
          (percUpF (s.index el).toNat
            (s.minheap.set (s.index el).toNat (el, v)) s.index (el, v)
            (s.index el).toNat).2⟩ := by
        simp only [PQInts.changePriority]
        rw [if_pos h1, if_pos h2]
      have halmost : almostUp ((s.minheap.set (s.index el).toNat
          (el, v)).set (s.index el).toNat (el, v))
          (s.index el).toNat := by
        rw [hset]
        constructor
        · intro i j hj hij hjp
          rw [hlen] at hj
          rw [hgo j hjp]
          by_cases hip : i = (s.index el).toNat
          · rw [hip, hgpos]
            calc v ≤ (s.minheap.getD (s.index el).toNat dE).2 :=
                le_of_lt h2
              _ ≤ (s.minheap.getD j dE).2 := ho _ j hj (hip ▸ hij)
          · rw [hgo i hip]
            exact ho i j hj hij
        · intro c hc hcc hp1
          rw [hlen] at hc
          obtain ⟨hc1, hc2, _⟩ := childIdx_unique hcc
          have hpar : ((s.index el).toNat - 1)/2 ≠ (s.index el).toNat := by
            omega
          have hcp : c ≠ (s.index el).toNat := by omega
          rw [hgo _ hpar, hgo c hcp]
          calc (s.minheap.getD (((s.index el).toNat - 1)/2) dE).2 ≤
              (s.minheap.getD (s.index el).toNat dE).2 :=
                ho _ _ hq (childIdx_parent hp1)
            _ ≤ (s.minheap.getD c dE).2 := ho _ c hc hcc
      obtain ⟨rp, rl, rord, ridx, rnd, rel⟩ :=
        percUpF_spec (s.index el).toNat
          (s.minheap.set (s.index el).toNat (el, v)) s.index (el, v)
          (s.index el).toNat (fun e => e ≠ el) (by rw [hlen]; exact hq)
          (le_refl _) halmost hidxP (fun h => h rfl) hndH helH
      rw [hres]
      exact ⟨⟨rord, idxGood_of_ne ridx, rnd, rel⟩, rfl⟩
    · by_cases h3 : (s.minheap.getD (s.index el).toNat dE).2 < v
      · have hres : (s.changePriority el v).1 = ⟨s.n,
            (percDownF (s.minheap.set (s.index el).toNat (el, v)).length
              (s.minheap.set (s.index el).toNat (el, v)) s.index (el, v)
              (s.index el).toNat).1,
            (percDownF (s.minheap.set (s.index el).toNat (el, v)).length
              (s.minheap.set (s.index el).toNat (el, v)) s.index (el, v)
              (s.index el).toNat).2⟩ := by
          simp only [PQInts.changePriority]
          rw [if_pos h1, if_neg h2, if_pos h3]
        have halmost : almostDown 0 (s.index el).toNat
            ((s.minheap.set (s.index el).toNat (el, v)).set
              (s.index el).toNat (el, v)) := by
          rw [hset]
          constructor
          · intro i j hj hij hli hip
            rw [hlen] at hj
            rw [hgo i hip]
            by_cases hjp : j = (s.index el).toNat
            · rw [hjp, hgpos]
              calc (s.minheap.getD i dE).2 ≤
                  (s.minheap.getD (s.index el).toNat dE).2 :=
                    ho i _ hq (hjp ▸ hij)
                _ ≤ v := le_of_lt h3
            · rw [hgo j hjp]
              exact ho i j hj hij
          · intro c hc hcc hp1 hl0
            rw [hlen] at hc
            obtain ⟨hc1, hc2, _⟩ := childIdx_unique hcc
            have hpar : ((s.index el).toNat - 1)/2 ≠ (s.index el).toNat := by
              omega
            have hcp : c ≠ (s.index el).toNat := by omega
            rw [hgo _ hpar, hgo c hcp]
            calc (s.minheap.getD (((s.index el).toNat - 1)/2) dE).2 ≤
                (s.minheap.getD (s.index el).toNat dE).2 :=
                  ho _ _ hq (childIdx_parent hp1)
              _ ≤ (s.minheap.getD c dE).2 := ho _ c hc hcc
        obtain ⟨rp, rl, rord, ridx, rnd, rel⟩ :=
          percDownF_spec (s.minheap.set (s.index el).toNat (el, v)).length
            (s.minheap.set (s.index el).toNat (el, v)) s.index (el, v)
            (s.index el).toNat (fun e => e ≠ el) (by rw [hlen]; exact hq)
            (Nat.le_add_right _ _) halmost hidxP (fun h => h rfl) hndH helH
        rw [hres]
        exact ⟨⟨rord, idxGood_of_ne ridx, rnd, rel⟩, rfl⟩
      · have hres : (s.changePriority el v).1 = s := by
          simp only [PQInts.changePriority]
          rw [if_pos h1, if_neg h2, if_neg h3]
        rw [hres]
        exact ⟨⟨ho, hi, hnd, hell⟩, rfl⟩
  · have hres : (s.changePriority el v).1 = s := by
      unfold PQInts.changePriority
      rw [if_neg h1]
    rw [hres]
    exact ⟨⟨ho, hi, hnd, hell⟩, rfl⟩


theorem extract_spec {α : Type _} [LinearOrder α] [Inhabited α]
    {s : PQInts α} (hinv : InvPQ s) (hne : s.minheap ≠ []) :
    ∃ s', s.extractMin = some ((s.minheap.getD 0 dE).1, s') ∧
      s'.n = s.n ∧ s'.minheap.Perm s.minheap.tail ∧ InvPQ s' := by
  obtain ⟨ho, hi, hnd, hell⟩ := hinv
  obtain ⟨n, heap, idx⟩ := s
  dsimp only at ho hi hnd hell hne
  cases heap with
  | nil => exact absurd rfl hne
  | cons hd tl =>
    cases tl with
    | nil =>
      refine ⟨⟨n, [], upd idx hd.1 (-1)⟩, rfl, rfl, List.Perm.refl _,
        ?_, ?_, by simp [keys], ?_⟩
      · intro i j hj hij
        exact absurd hj (by simp)
      · intro e hen
        constructor
        · intro hge
          dsimp only at hge
          exfalso
          by_cases hec : e = hd.1
          · rw [hec, upd_same] at hge
            exact absurd hge (by decide)
          · rw [upd_ne hec] at hge
            obtain ⟨hq, hqe⟩ := (hi e hen).1 hge
            simp only [List.length_cons, List.length_nil] at hq
            have hq0 : (idx e).toNat = 0 := by omega
            rw [hq0] at hqe
            exact hec hqe.symm
        · intro _ i hi2
          exact absurd hi2 (by simp)
      · intro p hp
        exact absurd hp (by simp)
    | cons b tb =>
      set ol := (hd :: b :: tb).getD ((hd :: b :: tb).length - 1) dE
        with holdef
      set A := (hd :: b :: tb).dropLast.set 0 ol with hAdef
      set r := percDownF (hd :: b :: tb).dropLast.length A idx ol 0
        with hrdef
      have hlenL : (hd :: b :: tb).length = tb.length + 2 := by simp
      have hd1 : (hd :: b :: tb).dropLast = hd :: (b :: tb).dropLast := rfl
      have hol : ol = (b :: tb).getD ((b :: tb).length - 1) dE := by
        rw [holdef]
        have h1 : (hd :: b :: tb).length - 1 = ((b :: tb).length - 1) + 1 :=
          by simp
        rw [h1]
        rfl
      have hset2 : A.set 0 ol = A := by rw [hAdef, List.set_set]
      have hAlen : A.length = tb.length + 1 := by rw [hAdef]; simp
      have hA0 : A.getD 0 dE = ol := by
        rw [hAdef]
        exact getD_set_self _ 0 ol dE (by simp)
      have hAi : ∀ i, i ≠ 0 → i < tb.length + 1 →
          A.getD i dE = (hd :: b :: tb).getD i dE := by
        intro i h0 hi2
        rw [hAdef, getD_set_ne _ 0 ol dE i h0,
          getD_dropLast (by simp; omega) dE]
      have hgl : (b :: tb).getD ((b :: tb).length - 1) dE =
          (b :: tb).getLast (List.cons_ne_nil b tb) := by
        rw [getD_eq_getElem (by simp) dE]
        rw [List.getLast_eq_getElem]
      have hperm1 : A.Perm (b :: tb) := by
        rw [hAdef, hd1]
        show (ol :: (b :: tb).dropLast).Perm (b :: tb)
        rw [hol, hgl]
        have hsplit : (b :: tb).dropLast ++
            [(b :: tb).getLast (List.cons_ne_nil b tb)] = b :: tb :=
          List.dropLast_append_getLast _
        conv_rhs => rw [← hsplit]
        exact (List.perm_append_singleton _ _).symm
      have hndtl : (keys (b :: tb)).Nodup := (List.nodup_cons.mp hnd).2
      have hhdnot : hd.1 ∉ keys (b :: tb) := (List.nodup_cons.mp hnd).1
      have halmost : almostDown 0 0 (A.set 0 ol) := by
        rw [hset2]
        constructor
        · intro i j hj hij hli hi0
          rw [hAlen] at hj
          obtain ⟨h1, h2, h3⟩ := childIdx_unique hij
          have hj0 : j ≠ 0 := by omega
          rw [hAi i hi0 (by omega), hAi j hj0 (by omega)]
          exact ho i j (by simp; omega) hij
        · intro c hc hcc h10 _
          exact absurd h10 (by omega)
      have hidxP : IdxGoodP n (A.set 0 ol) idx
          (fun e => e ≠ ol.1 ∧ e ≠ hd.1) := by
        rw [hset2]
        intro e hen hPe
        obtain ⟨hpc, hnc⟩ := hi e hen
        constructor
        · intro hge
          obtain ⟨hq2, hqe2⟩ := hpc hge
          have hq0 : (idx e).toNat ≠ 0 := by
            intro hh
            rw [hh] at hqe2
            exact hPe.2 hqe2.symm
          have hqlast : (idx e).toNat ≠ (hd :: b :: tb).length - 1 := by
            intro hh
            rw [hh] at hqe2
            exact hPe.1 hqe2.symm
          have hq2' : (idx e).toNat < tb.length + 1 := by
            rw [hlenL] at hq2
            rw [hlenL] at hqlast
            omega
          refine ⟨by rw [hAlen]; exact hq2', ?_⟩
          rw [hAi _ hq0 hq2']
          exact hqe2
        · intro hlt i hi2
          rw [hAlen] at hi2
          by_cases hi0 : i = 0
          · rw [hi0, hA0]
            exact hnc hlt ((hd :: b :: tb).length - 1)
              (by rw [hlenL]; omega)
          · rw [hAi i hi0 hi2]
            exact hnc hlt i (by rw [hlenL]; omega)
      have hndA : (keys (A.set 0 ol)).Nodup := by
        rw [hset2]
        exact ((hperm1.map Prod.fst).nodup_iff).mpr hndtl
      have helA : ElemsLt n (A.set 0 ol) := by
        rw [hset2]
        intro p hp
        exact hell p (List.mem_cons_of_mem hd (hperm1.mem_iff.mp hp))
      obtain ⟨rp, rl, rord, ridx, rnd, rel⟩ :=
        percDownF_spec (hd :: b :: tb).dropLast.length A idx ol 0
          (fun e => e ≠ ol.1 ∧ e ≠ hd.1) (by rw [hAlen]; omega)
          (by rw [hAlen]; simp) halmost hidxP (fun h => h.1 rfl) hndA helA
      rw [← hrdef] at rp rl rord ridx rnd rel
      rw [hset2] at rp
      have rtail : r.1.Perm (b :: tb) := rp.trans hperm1
      have hfinal : IdxGood n r.1 (upd r.2 hd.1 (-1)) := by
        intro e hen
        by_cases hehd : e = hd.1
        · constructor
          · intro hge
            rw [hehd, upd_same] at hge
            exact absurd hge (by decide)
          · intro _ i hi2 hcon
            rw [hehd] at hcon
            have hmemr : hd.1 ∈ keys r.1 := key_mem_iff.mpr ⟨i, hi2, hcon⟩
            exact hhdnot ((rtail.map Prod.fst).mem_iff.mp hmemr)
        · rw [upd_ne hehd]
          by_cases heol : e = ol.1
          · exact ridx e hen (Or.inr heol)
          · exact ridx e hen (Or.inl ⟨heol, hehd⟩)
      have hex : PQInts.extractMin
          (⟨n, hd :: b :: tb, idx⟩ : PQInts α) =
          some (hd.1, ⟨n, r.1, upd r.2 hd.1 (-1)⟩) := by
        show (if 0 < (hd :: b :: tb).dropLast.length then
            some (((hd :: b :: tb).getD 0 dE).1, (⟨n,
              (percDownF (hd :: b :: tb).dropLast.length
                ((hd :: b :: tb).dropLast.set 0
                  ((hd :: b :: tb).getD ((hd :: b :: tb).length - 1) dE))
                idx
                ((hd :: b :: tb).getD ((hd :: b :: tb).length - 1) dE)
                0).1,
              upd (percDownF (hd :: b :: tb).dropLast.length
                ((hd :: b :: tb).dropLast.set 0
                  ((hd :: b :: tb).getD ((hd :: b :: tb).length - 1) dE))
                idx
                ((hd :: b :: tb).getD ((hd :: b :: tb).length - 1) dE)
                0).2 ((hd :: b :: tb).getD 0 dE).1 (-1)⟩ : PQInts α))
          else
            some (((hd :: b :: tb).getD 0 dE).1,
              (⟨n, (hd :: b :: tb).dropLast,
                upd idx ((hd :: b :: tb).getD 0 dE).1 (-1)⟩ : PQInts α))) =
          some (hd.1, ⟨n, r.1, upd r.2 hd.1 (-1)⟩)
        rw [if_pos (show (0:Nat) < (hd :: b :: tb).dropLast.length by
          simp)]
        rfl
      exact ⟨⟨n, r.1, upd r.2 hd.1 (-1)⟩, hex, rfl, rtail,
        rord, hfinal, rnd, rel⟩

theorem invPQ_reachD {α : Type _} [LinearOrder α] [Inhabited α]
    {s : PQInts α} (h : ReachPQD s) : InvPQ s := by
  induction h with
  | init m =>
    refine ⟨?_, ?_, by simp [keys, initPQ], ?_⟩
    · intro i j hj hij
      exact absurd hj (by simp [initPQ])
    · intro e hen
      constructor
      · intro hge
        have hgv : (initPQ α m).index e = -1 := rfl
        rw [hgv] at hge
        exact absurd hge (by decide)
      · intro _ i hi2
        exact absurd hi2 (by simp [initPQ])
    · intro p hp
      exact absurd hp (by simp [initPQ])
  | ins el v hr hlt ih => exact (insert_spec ih hlt).1
  | insAll pairs hr hrange hnd ih => exact (insertAll_spec ih hrange hnd).1
  | extract hr hex ih =>
    rename_i s0 e0 s1
    have hne : s0.minheap ≠ [] := by
      intro hh
      have hnone : s0.extractMin = none := by
        unfold PQInts.extractMin
        rw [hh]
      rw [hnone] at hex
      exact Option.noConfusion hex
    obtain ⟨t', hex', hn', hp', hinv'⟩ := extract_spec ih hne
    rw [hex] at hex'
    obtain ⟨he1, he2⟩ := Prod.mk.inj (Option.some.inj hex')
    rw [he2]
    exact hinv'
  | chg el v hr hlt ih => exact (chg_spec ih hlt).1


theorem option_eq_some_getD {β : Type _} (o : Option β) (d : β)
    (h : o.isSome = true) : o = some (o.getD d) := by
  cases o with
  | none => simp at h
  | some x => rfl

/-! ### Claims C4, C5, C6 -/

theorem claim_C4_cex :
    ReachPQ (initPQ Int 1) ∧
    (∀ p ∈ [((0:Nat),(3:Int)), (0,5)], p.1 < (initPQ Int 1).n) ∧
    ((initPQ Int 1).insertAll [(0,3),(0,5)]).getPriority 0 = some 5 ∧
    (foldInsert (initPQ Int 1) [(0,3),(0,5)]).getPriority 0 = some 3 :=
  ⟨ReachPQ.init 1, by decide, by decide, by decide⟩

/-- C4, amended: on every queue state reachable with duplicate-free
insertAll batches, and for every pair list with in-range and pairwise
distinct elements, insertAll pairs is observationally equal (same
universe, same contained elements, same priorities of contained elements)
to inserting the pairs one at a time in list order, and both strategies
leave a heap-ordered entry sequence.  (The original claim, quantified over
all reachable states and all in-range pair lists, is refuted by
claim_C4_cex: with a duplicated element the bulk path appends both pairs
because the membership test reads the stale pre-call index, while the
incremental path inserts only the first.) -/
theorem claim_C4 {α : Type _} [LinearOrder α] [Inhabited α]
    (s : PQInts α) (pairs : List (Nat × α)) (hre : ReachPQD s)
    (hrange : ∀ p ∈ pairs, p.1 < s.n)
    (hnd : (pairs.map Prod.fst).Nodup) :
    obsEq (s.insertAll pairs) (foldInsert s pairs) ∧
    heapOrd (s.insertAll pairs).minheap ∧
    heapOrd (foldInsert s pairs).minheap := by
  have hinv := invPQ_reachD hre
  obtain ⟨ai, an, ap⟩ := insertAll_spec hinv hrange hnd
  obtain ⟨fi, fn, fp⟩ := foldInsert_spec pairs s hinv hrange hnd
  exact ⟨obs_of_inv ai fi (by rw [an, fn]) (ap.trans fp.symm), ai.1, fi.1⟩

theorem claim_C4_witness :
    obsEq ((initPQ Int 2).insertAll [(0,5),(1,3)])
      (foldInsert (initPQ Int 2) [(0,5),(1,3)]) ∧
    heapOrd ((initPQ Int 2).insertAll [(0,5),(1,3)]).minheap ∧
    heapOrd (foldInsert (initPQ Int 2) [(0,5),(1,3)]).minheap :=
  claim_C4 (initPQ Int 2) [(0,5),(1,3)] (ReachPQD.init 2) (by decide)
    (by decide)

theorem claim_C5_cex :
    ReachPQ ((((initPQ Int 1).insertAll [(0,3),(0,5)]).extractMin.getD
      (0, initPQ Int 1)).2) ∧
    ((((initPQ Int 1).insertAll [(0,3),(0,5)]).extractMin.getD
      (0, initPQ Int 1)).2).index 0 < 0 ∧
    keys ((((initPQ Int 1).insertAll [(0,3),(0,5)]).extractMin.getD
      (0, initPQ Int 1)).2).minheap = [0] := by
  refine ⟨?_, by decide, by decide⟩
  exact ReachPQ.extract (ReachPQ.insAll [(0,3),(0,5)] (ReachPQ.init 1)
    (by decide))
    (option_eq_some_getD (((initPQ Int 1).insertAll
      [(0,3),(0,5)]).extractMin) (0, initPQ Int 1) (by decide))

/-- C5, amended: in every state reachable from a fresh queue by insert,
insertAll with pairwise-distinct batch elements, extractMin on a non-empty
queue and changePriority, all with in-range elements, the heap sequence is
heap-ordered and the index is consistent with the layout: a nonnegative
index entry is the position of that element's heap entry, and a negative
entry means the element is nowhere in the heap.  (Over all reachable
states, as the claim is stated, the invariant fails: claim_C5_cex reaches
a state whose heap contains element 0 while its index entry is negative,
via an insertAll batch with a duplicated element.) -/
theorem claim_C5 {α : Type _} [LinearOrder α] [Inhabited α]
    (s : PQInts α) (h : ReachPQD s) :
    heapOrd s.minheap ∧ IdxGood s.n s.minheap s.index :=
  ⟨(invPQ_reachD h).1, (invPQ_reachD h).2.1⟩

theorem claim_C5_witness :
    heapOrd (initPQ Int 3).minheap ∧
    IdxGood (initPQ Int 3).n (initPQ Int 3).minheap (initPQ Int 3).index :=
  claim_C5 (initPQ Int 3) (ReachPQD.init 3)

theorem claim_C6_cex :
    ReachPQ ((((initPQ Int 2).insertAll
      [(0,5),(0,3),(1,4)]).changePriority 0 10).1) ∧
    ((((initPQ Int 2).insertAll
      [(0,5),(0,3),(1,4)]).changePriority 0 10).1).extractMin.map
        Prod.fst = some 0 ∧
    ((((initPQ Int 2).insertAll
      [(0,5),(0,3),(1,4)]).changePriority 0 10).1).getPriority 0 =
        some 10 ∧
    ((((initPQ Int 2).insertAll
      [(0,5),(0,3),(1,4)]).changePriority 0 10).1).contains 1 = true ∧
    ((((initPQ Int 2).insertAll
      [(0,5),(0,3),(1,4)]).changePriority 0 10).1).getPriority 1 =
        some 4 ∧
    ¬ ((10:Int) ≤ 4) := by
  refine ⟨?_, by decide, by decide, by decide, by decide, by decide⟩
  exact ReachPQ.chg 0 10 (ReachPQ.insAll [(0,5),(0,3),(1,4)]
    (ReachPQ.init 2) (by decide)) (by decide)

/-- C6, amended: on every non-empty queue state reachable with
duplicate-free insertAll batches, extractMin removes and returns an
element that is contained and whose priority is minimal among the
priorities of all contained elements; afterwards the returned element is
absent while every other in-range element keeps its containment status
and, if contained, its priority.  (Over all states reachable by the
operations as listed, the property fails: claim_C6_cex reaches a queue,
via a duplicated insertAll batch followed by changePriority, whose
extractMin returns element 0 with priority 10 while the contained element
1 has priority 4.) -/
theorem claim_C6 {α : Type _} [LinearOrder α] [Inhabited α]
    (s : PQInts α) (hre : ReachPQD s) (hne : s.minheap ≠ []) :
    ∃ e s', s.extractMin = some (e, s') ∧
      s.contains e = true ∧
      (∀ f, f < s.n → s.contains f = true → ∃ v w,
        s.getPriority e = some v ∧ s.getPriority f = some w ∧ v ≤ w) ∧
      s'.contains e = false ∧
      (∀ f, f < s.n → f ≠ e → s'.contains f = s.contains f ∧
        (s.contains f = true → s'.getPriority f = s.getPriority f)) := by
  obtain ⟨ho, hi, hnd, hell⟩ := invPQ_reachD hre
  obtain ⟨s', hex, hn, hperm, hinv'⟩ := extract_spec ⟨ho, hi, hnd, hell⟩ hne
  obtain ⟨hd0, tl0, hsheq⟩ := List.exists_cons_of_ne_nil hne
  have hlen0 : 0 < s.minheap.length := List.length_pos.mpr hne
  have hgd0 : s.minheap.getD 0 dE = hd0 := by rw [hsheq]; rfl
  have hmem0 : s.minheap.getD 0 dE ∈ s.minheap := getD_mem hlen0 dE
  have hen : (s.minheap.getD 0 dE).1 < s.n := hell _ hmem0
  have hkey0 : (s.minheap.getD 0 dE).1 ∈ keys s.minheap :=
    key_mem_iff.mpr ⟨0, hlen0, rfl⟩
  have hge : 0 ≤ s.index (s.minheap.getD 0 dE).1 :=
    (containsIff hi hen).mpr hkey0
  obtain ⟨hq, hqe⟩ := (hi _ hen).1 hge
  have hq0 : (s.index (s.minheap.getD 0 dE).1).toNat = 0 :=
    keys_inj hnd hq hlen0 (by rw [hqe])
  have htl : s.minheap.tail = tl0 := by rw [hsheq]; rfl
  have hnd2 := hnd
  rw [hsheq] at hnd2
  have hnotin : hd0.1 ∉ keys tl0 := (List.nodup_cons.mp hnd2).1
  have hkperm : (keys s'.minheap).Perm (keys tl0) := by
    have h4 := hperm.map Prod.fst
    rw [htl] at h4
    exact h4
  refine ⟨(s.minheap.getD 0 dE).1, s', hex, ?_, ?_, ?_, ?_⟩
  · unfold PQInts.contains
    exact decide_eq_true hge
  · intro f hf hcf
    have hgf : 0 ≤ s.index f := by
      unfold PQInts.contains at hcf
      exact of_decide_eq_true hcf
    obtain ⟨hqf, hqef⟩ := (hi f hf).1 hgf
    refine ⟨(s.minheap.getD (s.index (s.minheap.getD 0 dE).1).toNat dE).2,
      (s.minheap.getD (s.index f).toNat dE).2,
      getPriority_pos hq hge, getPriority_pos hqf hgf, ?_⟩
    rw [hq0]
    exact heapOrd_root_min ho _ hqf
  · have hnotin' : (s.minheap.getD 0 dE).1 ∉ keys s'.minheap := by
      intro hmem
      have h5 := hkperm.mem_iff.mp hmem
      rw [hgd0] at h5
      exact hnotin h5
    have hneg : ¬ 0 ≤ s'.index (s.minheap.getD 0 dE).1 := by
      intro hge'
      exact hnotin'
        ((containsIff hinv'.2.1 (by rw [hn]; exact hen)).mp hge')
    unfold PQInts.contains
    exact decide_eq_false hneg
  · intro f hf hfe
    rw [hgd0] at hfe
    have hmemiff : f ∈ keys s'.minheap ↔ f ∈ keys s.minheap := by
      rw [hkperm.mem_iff, hsheq]
      show f ∈ keys tl0 ↔ f ∈ hd0.1 :: keys tl0
      constructor
      · exact List.mem_cons_of_mem _
      · intro h
        rcases List.mem_cons.mp h with h | h
        · exact absurd (h.trans (congrArg Prod.fst hgd0).symm)
            (by rw [hgd0]; exact hfe)
        · exact h
    have hciff : (0 ≤ s'.index f) ↔ (0 ≤ s.index f) :=
      (containsIff hinv'.2.1 (by rw [hn]; exact hf)).trans
        (hmemiff.trans (containsIff hi hf).symm)
    constructor
    · unfold PQInts.contains
      exact decide_eq_decide.mpr hciff
    · intro hcf
      have hgf : 0 ≤ s.index f := by
        unfold PQInts.contains at hcf
        exact of_decide_eq_true hcf
      have hgf' : 0 ≤ s'.index f := hciff.mpr hgf
      obtain ⟨hqf, hqef⟩ := (hi f hf).1 hgf
      obtain ⟨hqf', hqef'⟩ :=
        (hinv'.2.1 f (by rw [hn]; exact hf)).1 hgf'
      rw [getPriority_pos hqf' hgf', getPriority_pos hqf hgf]
      have hm1 : s'.minheap.getD (s'.index f).toNat dE ∈ s'.minheap :=
        getD_mem hqf' dE
      have hm2 : s'.minheap.getD (s'.index f).toNat dE ∈ s.minheap := by
        have h3 := hperm.mem_iff.mp hm1
        rw [htl] at h3
        rw [hsheq]
        exact List.mem_cons_of_mem _ h3
      have hm3 : s.minheap.getD (s.index f).toNat dE ∈ s.minheap :=
        getD_mem hqf dE
      have heq2 : s'.minheap.getD (s'.index f).toNat dE =
          s.minheap.getD (s.index f).toNat dE :=
        mem_key_unique hnd hm2 hm3 (by rw [hqef', hqef])
      rw [heq2]

theorem claim_C6_witness :
    ∃ e s', ((initPQ Int 2).insertAll [(0,5),(1,3)]).extractMin =
        some (e, s') ∧
      ((initPQ Int 2).insertAll [(0,5),(1,3)]).contains e = true ∧
      (∀ f, f < ((initPQ Int 2).insertAll [(0,5),(1,3)]).n →
        ((initPQ Int 2).insertAll [(0,5),(1,3)]).contains f = true →
        ∃ v w, ((initPQ Int 2).insertAll [(0,5),(1,3)]).getPriority e =
            some v ∧
          ((initPQ Int 2).insertAll [(0,5),(1,3)]).getPriority f =
            some w ∧ v ≤ w) ∧
      s'.contains e = false ∧
      (∀ f, f < ((initPQ Int 2).insertAll [(0,5),(1,3)]).n → f ≠ e →
        s'.contains f = ((initPQ Int 2).insertAll [(0,5),(1,3)]).contains
          f ∧
        (((initPQ Int 2).insertAll [(0,5),(1,3)]).contains f = true →
          s'.getPriority f =
            ((initPQ Int 2).insertAll [(0,5),(1,3)]).getPriority f)) :=
  claim_C6 ((initPQ Int 2).insertAll [(0,5),(1,3)])
    (ReachPQD.insAll [(0,5),(1,3)] (ReachPQD.init 2) (by decide)
      (by decide))
    (by decide)


/-! ### DFS and topological sort verification (claim C8) -/

theorem FrameD_refl (n : Nat) (st : DfsSt) : FrameD n st st :=
  ⟨fun _ _ => rfl, fun _ h => Or.inl h, ⟨[], by simp⟩, fun _ => Iff.rfl⟩

theorem FrameD_trans {n : Nat} {a b c : DfsSt}
    (h1 : FrameD n a b) (h2 : FrameD n b c) : FrameD n a c := by
  obtain ⟨s1, g1, ⟨l1, o1⟩, e1⟩ := h1
  obtain ⟨s2, g2, ⟨l2, o2⟩, e2⟩ := h2
  refine ⟨?_, ?_, ⟨l1 ++ l2, ?_⟩, fun w => (e2 w).trans (e1 w)⟩
  · intro w hw
    rw [s2 w (by rw [s1 w hw]; exact hw), s1 w hw]
  · intro w hw
    rcases g2 w hw with h | h
    · exact g1 w h
    · exact Or.inr h
  · rw [o2, o1, List.append_assoc]

theorem countP_lt (l : List Nat) (p q : Nat → Bool)
    (himp : ∀ w ∈ l, q w = true → p w = true) :
    ∀ u, u ∈ l → p u = true → q u = false →
      l.countP q < l.countP p := by
  induction l with
  | nil => intro u hu; exact absurd hu (by simp)
  | cons a t ih =>
    intro u hu hpu hqu
    have hmono : t.countP q ≤ t.countP p :=
      List.countP_mono_left (fun w hw => himp w (List.mem_cons_of_mem a hw))
    by_cases hau : a = u
    · rw [List.countP_cons_of_pos p t (by rw [hau]; exact hpu),
        List.countP_cons_of_neg q t (by rw [hau]; simp [hqu])]
      omega
    · have hut : u ∈ t := by
        rcases List.mem_cons.mp hu with h | h
        · exact absurd h.symm hau
        · exact h
      have hlt := ih (fun w hw => himp w (List.mem_cons_of_mem a hw)) u hut
        hpu hqu
      have hqp : q a = true → p a = true :=
        himp a (List.mem_cons_self a t)
      by_cases hqa : q a = true
      · rw [List.countP_cons_of_pos q t hqa,
          List.countP_cons_of_pos p t (hqp hqa)]
        omega
      · rw [Bool.not_eq_true] at hqa
        rw [List.countP_cons_of_neg q t (by simp [hqa])]
        by_cases hpa : p a = true
        · rw [List.countP_cons_of_pos p t hpa]
          omega
        · rw [Bool.not_eq_true] at hpa
          rw [List.countP_cons_of_neg p t (by simp [hpa])]
          omega

theorem undisc_pos {n : Nat} {t : DfsSt} {v : Nat} (hv : v < n)
    (hdv : t.d v = 0) : 0 < undisc n t := by
  unfold undisc
  rw [List.countP_pos]
  exact ⟨v, List.mem_range.mpr hv, decide_eq_true hdv⟩

theorem visitFold_spec (adj : List (List Nat)) (fuel u : Nat)
    (hwf : WFadj adj) (hacy : AcyclicD adj)
    (Hvisit : ∀ (v : Nat) (t : DfsSt), v < adj.length → t.d v = 0 →
      undisc adj.length t ≤ fuel → InvD adj t →
      (∀ w, (t.d w ≠ 0 ∧ w ∉ t.order) → Reachd adj w v) →
      InvD adj (dfsVisit adj fuel v t) ∧
      FrameD adj.length t (dfsVisit adj fuel v t) ∧
      (dfsVisit adj fuel v t).d v ≠ 0 ∧
      v ∈ (dfsVisit adj fuel v t).order ∧
      undisc adj.length (dfsVisit adj fuel v t) < undisc adj.length t) :
    ∀ (vs : List Nat) (t : DfsSt),
      (∀ v ∈ vs, Adjd adj u v) →
      undisc adj.length t ≤ fuel → InvD adj t →
      (∀ w, (t.d w ≠ 0 ∧ w ∉ t.order) → Reachd adj w u) →
      InvD adj (visitFold (fun v t2 => dfsVisit adj fuel v t2) u vs t) ∧
      FrameD adj.length t
        (visitFold (fun v t2 => dfsVisit adj fuel v t2) u vs t) ∧
      (∀ v ∈ vs,
        v ∈ (visitFold (fun v t2 => dfsVisit adj fuel v t2) u vs t).order) ∧
      undisc adj.length
        (visitFold (fun v t2 => dfsVisit adj fuel v t2) u vs t) ≤
        undisc adj.length t := by
  intro vs
  induction vs with
  | nil =>
    intro t harc hfuel hinv hgray
    exact ⟨hinv, FrameD_refl _ _, by simp, le_refl _⟩
  | cons v vs ih =>
    intro t harc hfuel hinv hgray
    have hv : Adjd adj u v := harc v (List.mem_cons_self v vs)
    have hvlt : v < adj.length := hwf u v hv
    have hunf : visitFold (fun v t2 => dfsVisit adj fuel v t2) u (v :: vs)
        t = visitFold (fun v t2 => dfsVisit adj fuel v t2) u vs
          (if t.d v = 0 then dfsVisit adj fuel v
            { t with pred := upd t.pred v (some u) } else t) := rfl
    by_cases hdv : t.d v = 0
    · rw [hunf, if_pos hdv]
      obtain ⟨D1, D2, D3, D4, D5⟩ :=
        Hvisit v { t with pred := upd t.pred v (some u) } hvlt hdv hfuel
          hinv (fun w hw => (hgray w hw).tail hv)
      obtain ⟨F1, F2, F3, F4⟩ :=
        ih (dfsVisit adj fuel v { t with pred := upd t.pred v (some u) })
          (fun w hw => harc w (List.mem_cons_of_mem v hw))
          (le_trans (le_of_lt D5) hfuel) D1
          (fun w hw => hgray w ((D2.2.2.2 w).mp hw))
      refine ⟨F1, FrameD_trans D2 F2, ?_, le_trans F4 (le_of_lt D5)⟩
      intro w hw
      rcases List.mem_cons.mp hw with h | h
      · rw [h]
        obtain ⟨l, hl⟩ := F2.2.2.1
        rw [hl]
        exact List.mem_append.mpr (Or.inl D4)
      · exact F3 w h
    · rw [hunf, if_neg hdv]
      have hvin : v ∈ t.order := by
        by_contra hnot
        exact hacy u v hv (hgray v ⟨hdv, hnot⟩)
      obtain ⟨F1, F2, F3, F4⟩ :=
        ih t (fun w hw => harc w (List.mem_cons_of_mem v hw)) hfuel hinv
          hgray
      refine ⟨F1, F2, ?_, F4⟩
      intro w hw
      rcases List.mem_cons.mp hw with h | h
      · rw [h]
        obtain ⟨l, hl⟩ := F2.2.2.1
        rw [hl]
        exact List.mem_append.mpr (Or.inl hvin)
      · exact F3 w h


theorem dfsVisit_spec (adj : List (List Nat)) (hwf : WFadj adj)
    (hacy : AcyclicD adj) :
    ∀ (fuel : Nat) (v : Nat) (t : DfsSt), v < adj.length → t.d v = 0 →
      undisc adj.length t ≤ fuel → InvD adj t →
      (∀ w, (t.d w ≠ 0 ∧ w ∉ t.order) → Reachd adj w v) →
      InvD adj (dfsVisit adj fuel v t) ∧
      FrameD adj.length t (dfsVisit adj fuel v t) ∧
      (dfsVisit adj fuel v t).d v ≠ 0 ∧
      v ∈ (dfsVisit adj fuel v t).order ∧
      undisc adj.length (dfsVisit adj fuel v t) < undisc adj.length t := by
  intro fuel
  induction fuel with
  | zero =>
    intro v t hv hdv hfuel hinv hgray
    have := undisc_pos hv hdv
    exact absurd hfuel (by omega)
  | succ fuel ih =>
    intro u t hu hdu hfuel hinv hgray
    set st1 : DfsSt :=
      { t with time := t.time + 1, d := upd t.d u (t.time + 1) } with hst1
    set st2 := visitFold (fun v t2 => dfsVisit adj fuel v t2) u
      (adjOf adj u) st1 with hst2
    have hunf : dfsVisit adj (fuel+1) u t = { st2 with
        time := st2.time + 1
        f := upd st2.f u (st2.time + 1)
        order := st2.order ++ [u] } := rfl
    have hd1 : st1.d = upd t.d u (t.time + 1) := rfl
    have ho1 : st1.order = t.order := rfl
    have hd1u : st1.d u ≠ 0 := by
      rw [hd1, upd_same]
      omega
    have hd1w : ∀ w, w ≠ u → st1.d w = t.d w := fun w hw => by
      rw [hd1, upd_ne hw]
    have hstable1 : ∀ w, t.d w ≠ 0 → st1.d w = t.d w := by
      intro w hw
      have hwne : w ≠ u := fun hh => hw (hh ▸ hdu)
      exact hd1w w hwne
    have hnotin1 : u ∉ st1.order := by
      rw [ho1]
      intro hin
      exact (hinv.2.1 u hin).1 hdu
    have hinv1 : InvD adj st1 := by
      obtain ⟨i1, i2, i3⟩ := hinv
      refine ⟨i1, ?_, i3⟩
      intro w hw
      rw [ho1] at hw
      obtain ⟨ha, hb⟩ := i2 w hw
      exact ⟨by rw [hstable1 w ha]; exact ha, hb⟩
    have hgray1 : ∀ w, (st1.d w ≠ 0 ∧ w ∉ st1.order) →
        Reachd adj w u := by
      intro w hw
      by_cases hwu : w = u
      · rw [hwu]
        exact Relation.ReflTransGen.refl
      · refine hgray w ⟨?_, by rw [← ho1]; exact hw.2⟩
        rw [← hd1w w hwu]
        exact hw.1
    have hdec1 : undisc adj.length st1 < undisc adj.length t := by
      apply countP_lt (List.range adj.length)
        (fun w => decide (t.d w = 0)) (fun w => decide (st1.d w = 0))
        ?_ u (List.mem_range.mpr hu) (decide_eq_true hdu)
        (decide_eq_false hd1u)
      intro w hw hq
      have hq' : st1.d w = 0 := of_decide_eq_true hq
      have hwu : w ≠ u := fun hh => hd1u (hh ▸ hq')
      rw [hd1w w hwu] at hq'
      exact decide_eq_true hq'
    have hfuel1 : undisc adj.length st1 ≤ fuel := by omega
    obtain ⟨S1, S2, S3, S4⟩ :=
      visitFold_spec adj fuel u hwf hacy ih (adjOf adj u) st1
        (fun v hv => hv) hfuel1 hinv1 hgray1
    rw [← hst2] at S1 S2 S3 S4
    have hd2u : st2.d u ≠ 0 := by
      rw [S2.1 u hd1u]
      exact hd1u
    have hu_notin2 : u ∉ st2.order :=
      ((S2.2.2.2 u).mpr ⟨hd1u, hnotin1⟩).2
    have hnodup' : (st2.order ++ [u]).Nodup := by
      rw [List.nodup_append]
      refine ⟨S1.1, by simp, ?_⟩
      intro a ha hb
      simp at hb
      rw [hb] at ha
      exact hu_notin2 ha
    have hmem' : ∀ w ∈ st2.order ++ [u],
        st2.d w ≠ 0 ∧ w < adj.length := by
      intro w hw
      rcases List.mem_append.mp hw with h | h
      · exact S1.2.1 w h
      · simp at h
        rw [h]
        exact ⟨hd2u, hu⟩
    have htopo' : topoOk adj (st2.order ++ [u]).reverse := by
      have hrev : (st2.order ++ [u]).reverse = u :: st2.order.reverse := by
        simp
      rw [hrev]
      exact ⟨fun z hz => List.mem_reverse.mpr (S3 z hz), S1.2.2⟩
    have hc1 : ∀ w, t.d w ≠ 0 → st2.d w = t.d w := by
      intro w hw
      have h1 : st1.d w ≠ 0 := by
        rw [hstable1 w hw]
        exact hw
      rw [S2.1 w h1, hstable1 w hw]
    have hc2 : ∀ w, st2.d w ≠ 0 → t.d w ≠ 0 ∨ w < adj.length := by
      intro w hw
      rcases S2.2.1 w hw with h | h
      · by_cases hwu : w = u
        · rw [hwu]
          exact Or.inr hu
        · rw [hd1w w hwu] at h
          exact Or.inl h
      · exact Or.inr h
    have hc3 : ∃ l, st2.order ++ [u] = t.order ++ l := by
      obtain ⟨l, hl⟩ := S2.2.2.1
      rw [ho1] at hl
      exact ⟨l ++ [u], by rw [hl, List.append_assoc]⟩
    have hc4 : ∀ w, (st2.d w ≠ 0 ∧ w ∉ st2.order ++ [u]) ↔
        (t.d w ≠ 0 ∧ w ∉ t.order) := by
      intro w
      constructor
      · rintro ⟨hwd, hwo⟩
        have hwne : w ≠ u := by
          intro hh
          exact hwo (List.mem_append.mpr (Or.inr (by simp [hh])))
        have hwo2 : w ∉ st2.order :=
          fun hh => hwo (List.mem_append.mpr (Or.inl hh))
        obtain ⟨h1, h2⟩ := (S2.2.2.2 w).mp ⟨hwd, hwo2⟩
        rw [ho1] at h2
        rw [hd1w w hwne] at h1
        exact ⟨h1, h2⟩
      · rintro ⟨hwd, hwo⟩
        have hwne : w ≠ u := fun hh => hwd (hh ▸ hdu)
        have hg1 : st1.d w ≠ 0 ∧ w ∉ st1.order := by
          rw [ho1]
          exact ⟨by rw [hd1w w hwne]; exact hwd, hwo⟩
        obtain ⟨h1, h2⟩ := (S2.2.2.2 w).mpr hg1
        refine ⟨h1, ?_⟩
        intro hmem
        rcases List.mem_append.mp hmem with h | h
        · exact h2 h
        · simp at h
          exact hwne h
    have hlt' : undisc adj.length st2 < undisc adj.length t :=
      lt_of_le_of_lt S4 hdec1
    rw [hunf]
    exact ⟨⟨hnodup', hmem', htopo'⟩, ⟨hc1, hc2, hc3, hc4⟩, hd2u,
      List.mem_append.mpr (Or.inr (by simp)), hlt'⟩


theorem dfsRunFold_spec (adj : List (List Nat)) (hwf : WFadj adj)
    (hacy : AcyclicD adj) :
    ∀ (us : List Nat) (st : DfsSt), (∀ u ∈ us, u < adj.length) →
      InvD adj st → (∀ w, st.d w ≠ 0 → w ∈ st.order) →
      InvD adj (us.foldl (fun s u =>
        if s.d u = 0 then dfsVisit adj adj.length u s else s) st) ∧
      (∀ w, (us.foldl (fun s u =>
        if s.d u = 0 then dfsVisit adj adj.length u s else s) st).d w ≠ 0 →
        w ∈ (us.foldl (fun s u =>
          if s.d u = 0 then dfsVisit adj adj.length u s else s) st).order) ∧
      (∀ u ∈ us, u ∈ (us.foldl (fun s u =>
        if s.d u = 0 then dfsVisit adj adj.length u s else s) st).order) ∧
      (∃ l, (us.foldl (fun s u =>
        if s.d u = 0 then dfsVisit adj adj.length u s else s) st).order =
        st.order ++ l) := by
  intro us
  induction us with
  | nil =>
    intro st hus hinv hdf
    exact ⟨hinv, hdf, by simp, ⟨[], by simp⟩⟩
  | cons u us ih =>
    intro st hus hinv hdf
    have hu : u < adj.length := hus u (List.mem_cons_self u us)
    have hunf : (u :: us).foldl (fun s u =>
        if s.d u = 0 then dfsVisit adj adj.length u s else s) st =
        us.foldl (fun s u =>
          if s.d u = 0 then dfsVisit adj adj.length u s else s)
          (if st.d u = 0 then dfsVisit adj adj.length u st else st) := rfl
    by_cases hd : st.d u = 0
    · rw [hunf, if_pos hd]
      have hfuel : undisc adj.length st ≤ adj.length :=
        le_trans (List.countP_le_length _) (by simp)
      have hgray : ∀ w, (st.d w ≠ 0 ∧ w ∉ st.order) →
          Reachd adj w u :=
        fun w hw => absurd (hdf w hw.1) hw.2
      obtain ⟨D1, D2, D3, D4, D5⟩ :=
        dfsVisit_spec adj hwf hacy adj.length u st hu hd hfuel hinv hgray
      have hdfD : ∀ w, (dfsVisit adj adj.length u st).d w ≠ 0 →
          w ∈ (dfsVisit adj adj.length u st).order := by
        intro w hw
        by_contra hnot
        obtain ⟨h1, h2⟩ := (D2.2.2.2 w).mp ⟨hw, hnot⟩
        exact h2 (hdf w h1)
      obtain ⟨F1, F2, F3, F4⟩ :=
        ih (dfsVisit adj adj.length u st)
          (fun w hw => hus w (List.mem_cons_of_mem u hw)) D1 hdfD
      refine ⟨F1, F2, ?_, ?_⟩
      · intro w hw
        rcases List.mem_cons.mp hw with h | h
        · rw [h]
          obtain ⟨l, hl⟩ := F4
          rw [hl]
          exact List.mem_append.mpr (Or.inl D4)
        · exact F3 w h
      · obtain ⟨l1, hl1⟩ := D2.2.2.1
        obtain ⟨l2, hl2⟩ := F4
        exact ⟨l1 ++ l2, by rw [hl2, hl1, List.append_assoc]⟩
    · rw [hunf, if_neg hd]
      obtain ⟨F1, F2, F3, F4⟩ :=
        ih st (fun w hw => hus w (List.mem_cons_of_mem u hw)) hinv hdf
      refine ⟨F1, F2, ?_, F4⟩
      intro w hw
      rcases List.mem_cons.mp hw with h | h
      · rw [h]
        obtain ⟨l, hl⟩ := F4
        rw [hl]
        exact List.mem_append.mpr (Or.inl (hdf u (by simpa using hd)))
      · exact F3 w h

theorem Adjd_src_lt {adj : List (List Nat)} {a b : Nat}
    (h : Adjd adj a b) : a < adj.length := by
  by_contra hn
  unfold Adjd adjOf at h
  rw [List.getD_eq_default _ _ (by omega)] at h
  exact absurd h (List.not_mem_nil b)

theorem topoOk_before {adj : List (List Nat)} :
    ∀ (L : List Nat) (u v : Nat), topoOk adj L → u ∈ L →
      v ∈ adjOf adj u → Before L u v := by
  intro L
  induction L with
  | nil => intro u v _ hu; exact absurd hu (List.not_mem_nil u)
  | cons w rest ih =>
    intro u v htopo hu hv
    rcases List.mem_cons.mp hu with h | h
    · refine ⟨[], rest, by rw [h]; rfl, ?_⟩
      exact htopo.1 v (by rw [← h]; exact hv)
    · obtain ⟨l1, l2, he, hm⟩ := ih u v htopo.2 h hv
      refine ⟨w :: l1, l2, ?_, hm⟩
      rw [he]
      rfl

theorem wfadj_of_bounded (adj : List (List Nat))
    (h : ∀ u, u < adj.length → ∀ v ∈ adjOf adj u, v < adj.length) :
    WFadj adj := by
  intro u v hv
  by_cases hu : u < adj.length
  · exact h u hu v hv
  · unfold adjOf at hv
    rw [List.getD_eq_default _ _ (by omega)] at hv
    exact absurd hv (List.not_mem_nil v)

theorem acyclicD_of_mono (adj : List (List Nat))
    (h : ∀ a, a < adj.length → ∀ b ∈ adjOf adj a, a < b) :
    AcyclicD adj := by
  have hmono : ∀ a b, Adjd adj a b → a < b := by
    intro a b hab
    by_cases ha : a < adj.length
    · exact h a ha b hab
    · unfold Adjd adjOf at hab
      rw [List.getD_eq_default _ _ (by omega)] at hab
      exact absurd hab (List.not_mem_nil b)
  intro a b hab hba
  have hle : ∀ x y, Reachd adj x y → x ≤ y := by
    intro x y hxy
    induction hxy with
    | refl => exact le_refl _
    | tail h1 h2 ihs => exact le_trans ihs (le_of_lt (hmono _ _ h2))
  have hba' := hle b a hba
  exact absurd (hmono a b hab) (by omega)

/-- C8: on every directed graph with in-range arc targets and no directed
cycle, topologicalSort returns a permutation of the vertices from 0 to n-1
(the reverse DFS finish order) in which, for every stored arc from u to v,
u appears strictly before v. -/
theorem claim_C8 (g : Digraph) (hwf : WFadj g.adj)
    (hacy : AcyclicD g.adj) :
    (Digraph.topologicalSort g).Perm (List.range g.adj.length) ∧
    (∀ u v, Adjd g.adj u v →
      Before (Digraph.topologicalSort g) u v) := by
  have hinit : InvD g.adj initDfs :=
    ⟨List.nodup_nil, fun w hw => absurd hw (List.not_mem_nil w), trivial⟩
  obtain ⟨F1, F2, F3, F4⟩ :=
    dfsRunFold_spec g.adj hwf hacy (List.range g.adj.length) initDfs
      (fun u hu => List.mem_range.mp hu) hinit
      (fun w hw => absurd rfl hw)
  constructor
  · have sub1 : (dfsRun g.adj).order ⊆ List.range g.adj.length :=
      fun w hw => List.mem_range.mpr (F1.2.1 w hw).2
    have sub2 : List.range g.adj.length ⊆ (dfsRun g.adj).order :=
      fun w hw => F3 w hw
    have hperm : (dfsRun g.adj).order.Perm (List.range g.adj.length) :=
      List.Subperm.antisymm
        (List.subperm_of_subset F1.1 sub1)
        (List.subperm_of_subset (List.nodup_range _) sub2)
    exact (List.reverse_perm (dfsRun g.adj).order).trans hperm
  · intro u v harc
    have hu : u < g.adj.length := Adjd_src_lt harc
    have humem : u ∈ (dfsRun g.adj).order.reverse :=
      List.mem_reverse.mpr (F3 u (List.mem_range.mpr hu))
    exact topoOk_before (dfsRun g.adj).order.reverse u v F1.2.2 humem harc

theorem claim_C8_witness :
    (Digraph.topologicalSort (mkDigraph 3 [(0,1),(1,2),(0,2)])).Perm
      (List.range (mkDigraph 3 [(0,1),(1,2),(0,2)]).adj.length) ∧
    (∀ u v, Adjd (mkDigraph 3 [(0,1),(1,2),(0,2)]).adj u v →
      Before (Digraph.topologicalSort (mkDigraph 3 [(0,1),(1,2),(0,2)]))
        u v) :=
  claim_C8 (mkDigraph 3 [(0,1),(1,2),(0,2)])
    (wfadj_of_bounded _ (by decide))
    (acyclicD_of_mono _ (by decide))


/-! ### Claim C1: the concrete 4-vertex MST scenario -/

theorem mst_concrete_scenario :
    (mkWeightedGraph 4 [(0,1),(1,2),(2,3),(0,3)] [1,2,1,4]).mstKruskal =
      ({((0:Nat),(1:Nat)), (1,2), (2,3)} : Finset (Nat × Nat)) ∧
    (mkWeightedGraph 4 [(0,1),(1,2),(2,3),(0,3)] [1,2,1,4]).mstPrim 0 =
      ({((0:Nat),(1:Nat)), (1,2), (2,3)} : Finset (Nat × Nat)) ∧
    (mkWeightedGraph 4 [(0,1),(1,2),(2,3),(0,3)] [1,2,1,4]).totalWeight
      ({((0:Nat),(1:Nat)), (1,2), (2,3)} : Finset (Nat × Nat)) = 4 := by
  have hed : (mkWeightedGraph 4 [(0,1),(1,2),(2,3),(0,3)]
      [1,2,1,4]).getEdgeListW =
      [(((0:Nat),(1:Nat)),(1:Int)),((0,3),4),((1,2),2),((2,3),1)] := rfl
  have hsort : ([(((0:Nat),(1:Nat)),(1:Int)),((0,3),4),((1,2),2),
      ((2,3),1)]).mergeSort (fun a b => a.2 ≤ b.2) =
      [(((0:Nat),(1:Nat)),(1:Int)),((2,3),1),((1,2),2),((0,3),4)] := by
    simp [List.mergeSort, List.splitInTwo, List.splitAt, List.splitAt.go,
      List.merge]
  have hK : (mkWeightedGraph 4 [(0,1),(1,2),(2,3),(0,3)]
      [1,2,1,4]).mstKruskal =
      insert ((1:Nat),(2:Nat)) (insert (2,3) (insert (0,1) ∅)) := by
    unfold WeightedGraph.mstKruskal
    rw [hed, hsort]
    rfl
  have hP : (mkWeightedGraph 4 [(0,1),(1,2),(2,3),(0,3)]
      [1,2,1,4]).mstPrim 0 =
      ([(((0:Nat)),(1:Nat)),(1,2),(2,3)]).toFinset := rfl
  refine ⟨?_, ?_, ?_⟩
  · rw [hK]
    ext a
    simp only [Finset.mem_insert, Finset.mem_singleton,
      Finset.not_mem_empty, or_false]
    tauto
  · rw [hP]
    simp
  · unfold WeightedGraph.totalWeight
    rw [Finset.sum_insert (by simp), Finset.sum_insert (by simp),
      Finset.sum_singleton]
    decide

end GFP
